import Mathlib

/-!
# Hex board engine (`part-b/hex.cpp`): shallow embedding and verified properties

The embedding follows the C++ source function by function.

* `unsigned` values are natural numbers; every arithmetic result that the source
  stores in an `unsigned` is reduced modulo `2^32` (`u32`, `usub`).
* `std::vector<Hex*> edgeList` is a list of `Hex` records; a `Hex*` is the index of the
  record in `edgeList`, so `e->s` and `e->n` are reads of `edgeList[e]`.
* `std::unordered_map<unsigned, Hex*> blueEdgeList, redEdgeList` are only ever written as
  `m[i] = edgeList[i]`, erased by key and queried with `count`; they are the finite sets of
  their keys.
* `std::shuffle` is an argument: a function on lists whose result is a permutation of its
  input.  Theorems quantify over every such function.
* `double` win rates are rationals (the counts involved are below `2^32`, where the
  comparisons made by the source agree with the exact ones).
* Console output is dropped.
* Reading a vector outside its range is undefined in the source; the embedding returns a
  default there, and no theorem below depends on such a read.
-/

namespace HexGame

/-! ## Machine integers -/

/-- Number of values of the source's `unsigned`. -/
def U32 : Nat := 4294967296

/-- Truncation of a natural number to `unsigned`. -/
def u32 (n : Nat) : Nat := n % U32

/-- Unsigned subtraction `a - b`, wrapping below zero. -/
def usub (a b : Nat) : Nat := (u32 a + (U32 - u32 b)) % U32

/-! ## Data model -/

/-- Source: `enum class HexStatus {EMPTY, BLUE, RED}`. -/
inductive HexStatus
  | EMPTY
  | BLUE
  | RED
deriving DecidableEq, Repr

/-- Source: `enum class Player {BLUE, RED}`. -/
inductive Player
  | BLUE
  | RED
deriving DecidableEq, Repr

/-- Source: `static_cast<int>(p)`. -/
def Player.toInt : Player → Nat
  | .BLUE => 0
  | .RED => 1

/-- Source: `static_cast<HexStatus>(k)` for the enumerator values `0, 1, 2`. -/
def HexStatus.ofInt : Nat → HexStatus
  | 0 => .EMPTY
  | 1 => .BLUE
  | _ => .RED

/-- Source: `static_cast<HexStatus>(static_cast<int>(p) + 1)` in `HexBoard::move`. -/
def Player.status (p : Player) : HexStatus := HexStatus.ofInt (p.toInt + 1)

/-- Source: `struct Hex`.  `edges` holds, in `push_back` order, the positions in
`edgeList` of the cells pointed to. -/
structure Hex where
  n : Nat
  s : HexStatus
  i : Nat
  j : Nat
  edges : List Nat
deriving DecidableEq, Repr

/-- Source: `Hex::Hex(unsigned n, unsigned i, unsigned j)`, which sets `s = EMPTY`. -/
def Hex.ctor (n i j : Nat) : Hex := { n := n, s := .EMPTY, i := i, j := j, edges := [] }

/-- Source: the data members of `class HexBoard`. -/
structure HexBoard where
  size : Nat
  occupied : Nat
  last : Player
  edgeList : List Hex
  blueEdgeList : Finset Nat
  redEdgeList : Finset Nat
  randomized : List Nat
  gwins : ℚ

/-! ## Construction -/

/-- Source: `(*edgeList[a]).edges.push_back(edgeList[b])`. -/
def pushEdge (a b : Nat) (cells : List Hex) : List Hex :=
  cells.modify (fun h => { h with edges := h.edges ++ [b] }) a

/-- Body of the `j` loop of the constructor; the state is `edgeList` and the counter `c`. -/
def ctorCell (i : Nat) (st : List Hex × Nat) (j : Nat) : List Hex × Nat :=
  let cells := st.1.set st.2 (Hex.ctor st.2 i j)
  let cells := if j > 0 then pushEdge (st.2 - 1) st.2 (pushEdge st.2 (st.2 - 1) cells) else cells
  (cells, st.2 + 1)

/-- Body of the `k` loop of the constructor (run for rows `i > 0`). -/
def ctorLink (size i : Nat) (cells : List Hex) (k : Nat) : List Hex :=
  let cells := pushEdge (k + size * i) (k + size * (i - 1)) cells
  let cells := pushEdge (k + size * (i - 1)) (k + size * i) cells
  if k < usub size 1 then
    pushEdge (k + size * (i - 1) + 1) (k + size * i)
      (pushEdge (k + size * i) (k + size * (i - 1) + 1) cells)
  else cells

/-- Body of the `i` loop of the constructor. -/
def ctorRow (size : Nat) (st : List Hex × Nat) (i : Nat) : List Hex × Nat :=
  let st := (List.range size).foldl (ctorCell i) st
  if i > 0 then ((List.range size).foldl (ctorLink size i) st.1, st.2) else st

/-- Source: `HexBoard::HexBoard(unsigned n)`.  The vector is resized to `size * size`
slots, which the loops then fill; the other members take their default initialisers. -/
def HexBoard.ctor (n : Nat) : HexBoard :=
  { size := n
    occupied := 0
    last := .BLUE
    edgeList :=
      ((List.range n).foldl (ctorRow n) (List.replicate (u32 (n * n)) (Hex.ctor 0 0 0), 0)).1
    blueEdgeList := ∅
    redEdgeList := ∅
    randomized := []
    gwins := 0 }

/-! ## Cell access, bounds and legality -/

/-- Source: the read `edgeList[idx]`. -/
def HexBoard.hexAt (b : HexBoard) (idx : Nat) : Hex := b.edgeList.getD idx (Hex.ctor 0 0 0)

/-- Source: the write `edgeList[idx]->s = s`. -/
def HexBoard.setS (b : HexBoard) (idx : Nat) (s : HexStatus) : HexBoard :=
  { b with edgeList := b.edgeList.modify (fun h => { h with s := s }) idx }

/-- Source: the index expression `(x-1) * size + (y-1)`. -/
def HexBoard.cellIndex (b : HexBoard) (x y : Nat) : Nat :=
  u32 (u32 (usub x 1 * b.size) + usub y 1)

/-- Source: `HexBoard::isOOB`. -/
def HexBoard.isOOB (b : HexBoard) (x y : Nat) : Bool :=
  !(decide (usub x 1 ≥ 0) && decide (usub y 1 ≥ 0) &&
    decide (usub x 1 < b.size) && decide (usub y 1 < b.size))

/-- Source: `HexBoard::isEmpty`. -/
def HexBoard.isEmpty (b : HexBoard) (x y : Nat) : Bool :=
  decide ((b.hexAt (b.cellIndex x y)).s = HexStatus.EMPTY)

/-- Source: `HexBoard::isLegal`. -/
def HexBoard.isLegal (b : HexBoard) (x y : Nat) : Bool :=
  !b.isOOB x y && b.isEmpty x y

/-! ## Move ledger -/

/-- Source: `HexBoard::move` (the console output is dropped). -/
def HexBoard.move (b : HexBoard) (p : Player) (x y : Nat) : HexBoard :=
  if b.isLegal x y then
    let idx := b.cellIndex x y
    let b1 := b.setS idx p.status
    let b2 := if p = Player.BLUE then { b1 with blueEdgeList := insert idx b1.blueEdgeList }
              else { b1 with redEdgeList := insert idx b1.redEdgeList }
    { b2 with occupied := u32 (b2.occupied + 1), randomized := [], last := p }
  else b

/-- Body of the `if` of `HexBoard::undo`, at the cell position `idx`.  The status is
overwritten before the two tests read it. -/
def HexBoard.undoAt (b : HexBoard) (p : Player) (idx : Nat) : HexBoard :=
  let b1 := b.setS idx HexStatus.EMPTY
  let b2 := { b1 with occupied := usub b1.occupied 1 }
  if p = Player.BLUE ∧ (b2.hexAt idx).s = HexStatus.BLUE then
    { b2 with blueEdgeList := b2.blueEdgeList.erase idx, last := Player.RED }
  else if p = Player.RED ∧ (b2.hexAt idx).s = HexStatus.RED then
    { b2 with redEdgeList := b2.redEdgeList.erase idx, last := Player.BLUE }
  else b2

/-- Source: `HexBoard::undo`. -/
def HexBoard.undo (b : HexBoard) (p : Player) (x y : Nat) : HexBoard :=
  if !b.isOOB x y && !b.isEmpty x y then b.undoAt p (b.cellIndex x y) else b

/-! ## Completion sampler -/

/-- Body of the assignment loop of the branch of `HexBoard::randomize` taken when
`randomized` is empty; the state is the board and the counter `c`, and `v` is the
shuffled label vector. -/
def fillCell (v : List HexStatus) (st : HexBoard × Nat) (i : Nat) : HexBoard × Nat :=
  if (st.1.hexAt i).s = HexStatus.EMPTY then
    let b1 := st.1.setS i (v.getD st.2 HexStatus.EMPTY)
    let b2 := if v.getD st.2 HexStatus.EMPTY = HexStatus.BLUE
              then { b1 with blueEdgeList := insert i b1.blueEdgeList }
              else { b1 with redEdgeList := insert i b1.redEdgeList }
    ({ b2 with randomized := b2.randomized.set st.2 i }, st.2 + 1)
  else st

/-- Body of the reassignment loop of the branch of `HexBoard::randomize` taken when
`randomized` is populated; `v` is the shuffled vector of the ledger cells' labels. -/
def reshuffleCell (v : List HexStatus) (b : HexBoard) (i : Nat) : HexBoard :=
  let h := b.randomized.getD i 0
  if v.getD i HexStatus.EMPTY ≠ (b.hexAt h).s then
    let b1 := if v.getD i HexStatus.EMPTY = HexStatus.BLUE
              then { b with redEdgeList := b.redEdgeList.erase h,
                            blueEdgeList := insert h b.blueEdgeList }
              else { b with blueEdgeList := b.blueEdgeList.erase h,
                            redEdgeList := insert h b.redEdgeList }
    b1.setS h (v.getD i HexStatus.EMPTY)
  else b

/-- Source: the label counts `ForBlue`, `ForRed` computed by `HexBoard::randomize`. -/
def labelCounts (freeHexes : Nat) (last : Player) : Nat × Nat :=
  if freeHexes % 2 ≠ 0 then
    if last = Player.BLUE then (freeHexes / 2, u32 (freeHexes / 2 + 1))
    else (u32 (freeHexes / 2 + 1), freeHexes / 2)
  else (freeHexes / 2, freeHexes / 2)

/-- Source: `HexBoard::randomize`; `shuffle` is the outcome of the call of `std::shuffle`. -/
def HexBoard.randomize (b : HexBoard) (shuffle : List HexStatus → List HexStatus) : HexBoard :=
  let b1 :=
    if b.randomized.length = 0 then
      let freeHexes := usub (u32 (b.size * b.size)) b.occupied
      let fb := labelCounts freeHexes b.last
      let v := shuffle (List.replicate fb.1 HexStatus.BLUE ++ List.replicate fb.2 HexStatus.RED)
      ((List.range (u32 (b.size * b.size))).foldl (fillCell v)
        ({ b with randomized := List.replicate freeHexes 0 }, 0)).1
    else
      let v := shuffle (b.randomized.map (fun h => (b.hexAt h).s))
      (List.range b.randomized.length).foldl (reshuffleCell v) b
  { b1 with occupied := u32 (b.size * b.size) }

/-- Body of the loop of `HexBoard::revertRandom`. -/
def revertCell (b : HexBoard) (h : Nat) : HexBoard :=
  let b1 := if (b.hexAt h).s = HexStatus.BLUE
            then { b with blueEdgeList := b.blueEdgeList.erase h }
            else { b with redEdgeList := b.redEdgeList.erase h }
  let b2 := b1.setS h HexStatus.EMPTY
  { b2 with occupied := usub b2.occupied 1 }

/-- Source: `HexBoard::revertRandom`.  The vector `randomized` itself is not written. -/
def HexBoard.revertRandom (b : HexBoard) : HexBoard :=
  b.randomized.foldl revertCell b

/-! ## Connectivity win detector -/

/-- Body of the border loop of `HexBoard::check`; the state is the stack `Q` (top first)
and the set `end_nodes`. -/
def checkBorders (b : HexBoard) (B : Bool) (st : List Nat × Finset Nat) (i : Nat) :
    List Nat × Finset Nat :=
  if B then
    let start := u32 (u32 (b.size * usub b.size 1) + i)
    (if start ∈ b.blueEdgeList then start :: st.1 else st.1,
     if i ∈ b.blueEdgeList then insert i st.2 else st.2)
  else
    let start := u32 (i * b.size)
    let stop := usub (u32 (u32 (i * b.size) + b.size)) 1
    (if start ∈ b.redEdgeList then start :: st.1 else st.1,
     if stop ∈ b.redEdgeList then insert stop st.2 else st.2)

/-- The `for` loop over `edgeList[top]->edges` inside `HexBoard::check`, with its `break`;
the state is the stack `Q`, the set `queued` and the flag `w`. -/
def checkEdges (b : HexBoard) (I : HexStatus) (end_nodes visited : Finset Nat) :
    List Nat → List Nat × Finset Nat × Bool → List Nat × Finset Nat × Bool
  | [], st => st
  | e :: es, st =>
    if (b.hexAt e).s = I ∧ (b.hexAt e).n ∉ visited ∧ (b.hexAt e).n ∉ st.2.1 then
      if (b.hexAt e).n ∈ end_nodes then (st.1, st.2.1, !st.2.2)
      else checkEdges b I end_nodes visited es
        ((b.hexAt e).n :: st.1, insert (b.hexAt e).n st.2.1, st.2.2)
    else checkEdges b I end_nodes visited es st

/-- The `while (!Q.empty() && !w)` loop of `HexBoard::check`, run for at most `fuel`
evaluations of its condition; `none` means that the fuel ran out. -/
def checkWhile (b : HexBoard) (I : HexStatus) (end_nodes : Finset Nat) :
    Nat → List Nat → Finset Nat → Finset Nat → Bool → Option Bool
  | 0, _, _, _, _ => none
  | _ + 1, [], _, _, w => some w
  | fuel + 1, top :: rest, visited, queued, w =>
    if w then some w
    else
      let r := checkEdges b I end_nodes (insert top visited) (b.hexAt top).edges
        (rest, queued.erase top, w)
      checkWhile b I end_nodes fuel r.1 (insert top visited) r.2.1 r.2.2

/-- Source: `HexBoard::check`, with the `while` loop bounded by `fuel`. -/
def HexBoard.checkFuel (b : HexBoard) (p : Player) (fuel : Nat) : Option Bool :=
  let B := decide (p = Player.BLUE)
  let st := (List.range b.size).foldl (checkBorders b B) ([], ∅)
  let I := if B then HexStatus.BLUE else HexStatus.RED
  if st.1 ≠ [] ∧ st.2.card > 0 then checkWhile b I st.2 fuel st.1 ∅ ∅ false
  else some false

/-- Number of loop-condition evaluations within which the `while` loop of
`HexBoard::check` always finishes (see `checkFuel_isSome`). -/
def HexBoard.checkBound (b : HexBoard) : Nat := b.size * b.size + b.size + 1

/-- Source: `HexBoard::check`. -/
def HexBoard.check (b : HexBoard) (p : Player) : Bool :=
  (b.checkFuel p b.checkBound).getD false

/-! ## AI move selector -/

/-- Body of the trial loop of `HexBoard::getAIMove`; the state is the board and `wins`. -/
def aiTrial (p : Player) (sh : Nat → List HexStatus → List HexStatus) (st : HexBoard × ℚ)
    (j : Nat) : HexBoard × ℚ :=
  let b := st.1.randomize (sh j)
  (b, if b.check p then st.2 + 1 else st.2)

/-- Body of the cell loop of `HexBoard::getAIMove`; the state is the board and the output
parameters `x`, `y`.  `sh i j` is the outcome of the shuffle in trial `j` of cell `i`. -/
def aiCell (p : Player) (N : Nat) (sh : Nat → Nat → List HexStatus → List HexStatus)
    (st : HexBoard × Nat × Nat) (i : Nat) : HexBoard × Nat × Nat :=
  let tx := u32 (i / st.1.size + 1)
  let ty := u32 (i % st.1.size + 1)
  if st.1.isLegal tx ty then
    let r := (List.range N).foldl (aiTrial p (sh i)) (st.1.move p tx ty, 0)
    let wins : ℚ := r.2 / (N : ℚ)
    let out := if r.1.gwins < wins then ({ r.1 with gwins := wins }, tx, ty)
               else (r.1, st.2.1, st.2.2)
    ((out.1.revertRandom).undo p tx ty, out.2.1, out.2.2)
  else st

/-- Source: `HexBoard::getAIMove`; `x`, `y` are the contents of the output parameters at
the call, and the result holds the board and the output parameters at the return. -/
def HexBoard.getAIMove (b : HexBoard) (p : Player) (x y N : Nat)
    (sh : Nat → Nat → List HexStatus → List HexStatus) : HexBoard × Nat × Nat :=
  (List.range (u32 (b.size * b.size))).foldl (aiCell p N sh) ({ b with gwins := 0 }, x, y)

/-! ## Operation sequences -/

/-- One call of a state-changing member function of `HexBoard`. -/
inductive Op
  | move (p : Player) (x y : Nat)
  | undo (p : Player) (x y : Nat)
  | randomize (shuffle : List HexStatus → List HexStatus)
  | revertRandom

/-- The permutation requirement on the shuffle outcome carried by a call. -/
def Op.Valid : Op → Prop
  | .randomize shuffle => ∀ l, (shuffle l).Perm l
  | _ => True

/-- Effect of one call. -/
def HexBoard.step (b : HexBoard) : Op → HexBoard
  | .move p x y => b.move p x y
  | .undo p x y => b.undo p x y
  | .randomize shuffle => b.randomize shuffle
  | .revertRandom => b.revertRandom

/-- Effect of a sequence of calls, first call first. -/
def HexBoard.run (b : HexBoard) (ops : List Op) : HexBoard := ops.foldl HexBoard.step b

/-- `k` successive calls of `randomize`; `sh j` is the outcome of the shuffle of call `j`. -/
def HexBoard.randomizeN (b : HexBoard) (sh : Nat → List HexStatus → List HexStatus) :
    Nat → HexBoard
  | 0 => b
  | k + 1 => (b.randomizeN sh k).randomize (sh k)

/-! ## Specification vocabulary -/

/-- Number of cells of the board. -/
def HexBoard.cells (b : HexBoard) : Nat := b.size * b.size

/-- Status of the cell at position `i` of `edgeList`. -/
def HexBoard.statusAt (b : HexBoard) (i : Nat) : HexStatus := (b.hexAt i).s

/-- The per-player sets agree with the cell statuses: a cell index is in Blue's set iff
its status is Blue, and in Red's set iff its status is Red. -/
def HexBoard.Agree (b : HexBoard) : Prop :=
  ∀ i, i < b.cells →
    (i ∈ b.blueEdgeList ↔ b.statusAt i = HexStatus.BLUE) ∧
    (i ∈ b.redEdgeList ↔ b.statusAt i = HexStatus.RED)

/-- Number of cells whose status is not `EMPTY`. -/
def HexBoard.nonEmpty (b : HexBoard) : Nat :=
  b.edgeList.countP (fun h => decide (h.s ≠ HexStatus.EMPTY))

/-- The cell vector has `size * size` entries and that number fits the `int` counters with
which the constructor and the loops index it. -/
def HexBoard.Sized (b : HexBoard) : Prop :=
  b.edgeList.length = b.cells ∧ b.cells < 2147483648

/-- The board carries the topology laid down by the constructor: erasing the statuses
gives the cell vector of `HexBoard(size)`, whose size fits the `int` counters. -/
def HexBoard.Built (b : HexBoard) : Prop :=
  b.cells < 2147483648 ∧
  b.edgeList.map (fun h => { h with s := HexStatus.EMPTY }) = (HexBoard.ctor b.size).edgeList

/-- The board is completely full. -/
def HexBoard.Full (b : HexBoard) : Prop :=
  (∀ i, i < b.cells → b.statusAt i ≠ HexStatus.EMPTY) ∧ b.occupied = b.cells

/-! ## Concrete inputs -/

/-- The freshly constructed board of size 3. -/
def board3 : HexBoard := HexBoard.ctor 3

/-- Size-3 board after Blue has played (1,1). -/
def board3Blue11 : HexBoard := board3.move Player.BLUE 1 1

/-- Shuffle outcomes under which every candidate of Blue on the empty size-3 board loses its
trial: the identity for the cells of the first row, the reversal for the others. -/
def shLose (i : Nat) (_j : Nat) (l : List HexStatus) : List HexStatus :=
  if i < 3 then l else l.reverse

/-- The identity as the outcome of every shuffle. -/
def shId (_i : Nat) (_j : Nat) (l : List HexStatus) : List HexStatus := l

/-! ## Loop invariants of the completion sampler -/

/-- The cells among the first `t` whose status is `EMPTY`, in increasing order. -/
def HexBoard.emptyCells (b : HexBoard) (t : Nat) : List Nat :=
  (List.range t).filter (fun i => decide (b.statusAt i = HexStatus.EMPTY))

/-- Invariant of the assignment loop of the fresh branch of `randomize` after its first
`t` iterations, started on board `b` with label vector `v` and `free` ledger slots. -/
structure FillInv (b : HexBoard) (v : List HexStatus) (free t : Nat)
    (st : HexBoard × Nat) : Prop where
  size : st.1.size = b.size
  len : st.1.edgeList.length = b.edgeList.length
  cnt : st.2 = (b.emptyCells t).length
  led : st.1.randomized =
    b.emptyCells t ++ List.replicate (free - (b.emptyCells t).length) 0
  lab : (b.emptyCells t).map st.1.statusAt = v.take (b.emptyCells t).length
  keep : ∀ i, i ∉ b.emptyCells t → st.1.statusAt i = b.statusAt i
/-- Board `b'` has the same size and cell count as `b`, its sets agree with its statuses,
and its sets hold the same keys as those of `b` outside the range of cell indices. -/
structure SetInv (b b' : HexBoard) : Prop where
  agree : b'.Agree
  outB : ∀ k, b.cells ≤ k → (k ∈ b'.blueEdgeList ↔ k ∈ b.blueEdgeList)
  outR : ∀ k, b.cells ≤ k → (k ∈ b'.redEdgeList ↔ k ∈ b.redEdgeList)
/-- The label vector built by the fresh branch of `randomize` before it is shuffled. -/
def HexBoard.freshLabels (b : HexBoard) : List HexStatus :=
  List.replicate (labelCounts (usub (u32 (b.size * b.size)) b.occupied) b.last).1 HexStatus.BLUE ++
  List.replicate (labelCounts (usub (u32 (b.size * b.size)) b.occupied) b.last).2 HexStatus.RED

/-- Board `b'` is board `b` with every `EMPTY` cell given a colour, the ledger listing
those cells, and `occupied` set to the number of cells. -/
structure Filled (b b' : HexBoard) : Prop where
  size : b'.size = b.size
  len : b'.edgeList.length = b.edgeList.length
  occ : b'.occupied = b.cells
  led : b'.randomized = b.emptyCells b.cells
  keep : ∀ i, i ∉ b.emptyCells b.cells → b'.statusAt i = b.statusAt i
  full : ∀ i, i ∈ b.emptyCells b.cells → b'.statusAt i ≠ HexStatus.EMPTY
/-- Number of cells that are `EMPTY` in `b` and hold status `s` in `b'`. -/
def HexBoard.turned (b b' : HexBoard) (s : HexStatus) : Nat :=
  ((List.range b.cells).filter
    (fun i => decide (b.statusAt i = HexStatus.EMPTY ∧ b'.statusAt i = s))).length
/-- Invariant of the reassignment loop of the populated branch of `randomize` after its
first `t` iterations, started on board `b` with shuffled labels `v`. -/
structure ReshInv (b : HexBoard) (v : List HexStatus) (t : Nat) (b' : HexBoard) : Prop where
  size : b'.size = b.size
  len : b'.edgeList.length = b.edgeList.length
  led : b'.randomized = b.randomized
  lab : (b.randomized.take t).map b'.statusAt = v.take t
  keep : ∀ i, i ∉ b.randomized.take t → b'.statusAt i = b.statusAt i

/-! ## Further vocabulary and inputs for the sampler properties -/

/-- Number of distinct cells of the list `l` that hold status `s` on board `b`. -/
def HexBoard.countAmong (b : HexBoard) (l : List Nat) (s : HexStatus) : Nat :=
  (l.dedup.filter (fun h => decide (b.statusAt h = s))).length

instance instDecidableSized (b : HexBoard) : Decidable b.Sized := by
  unfold HexBoard.Sized; infer_instance

instance instDecidableAgree (b : HexBoard) : Decidable b.Agree := by
  unfold HexBoard.Agree; infer_instance

instance instDecidableFull (b : HexBoard) : Decidable b.Full := by
  unfold HexBoard.Full; infer_instance

/-- Outcome of every shuffle: the reversal of the vector. -/
def shRev (_j : Nat) (l : List HexStatus) : List HexStatus := l.reverse

/-- The calls that lead to `boardPaddedLedger`: a stone, a fill, two reverts (the second
one takes `occupied` below zero), a second stone, and a fill with the reversal as
permutation. -/
def paddedLedgerCalls : List Op :=
  [Op.move Player.BLUE 1 1, Op.randomize id, Op.revertRandom, Op.revertRandom,
   Op.move Player.RED 1 2, Op.randomize List.reverse]

/-- Size-3 board reached from the fresh board by `paddedLedgerCalls`: Blue on cell 0, Red
on cells 1 to 8, and the ledger `[2, 3, 4, 5, 6, 7, 8, 0, 0, 0, 0, 0, 0, 0, 0]`, whose
trailing zeros are the slots of the resized ledger that the fill did not write. -/
def boardPaddedLedger : HexBoard := board3.run paddedLedgerCalls

/-- Size-3 board after one fill of the fresh board and its revert. -/
def board3Reverted : HexBoard := board3.run [Op.randomize id, Op.revertRandom]

/-! ## Vocabulary of the win condition -/

/-- One step of a path of cells of status `s`: `v` is in the neighbour list that the
constructor stored for `u`, and `v` has status `s`. -/
def HexBoard.Step (b : HexBoard) (s : HexStatus) (u v : Nat) : Prop :=
  v ∈ (b.hexAt u).edges ∧ b.statusAt v = s

/-- Cell `c` lies on the border from which player `p` starts: the bottom row (row
coordinate `size - 1`) for Blue, the left column (column coordinate `0`) for Red. -/
def HexBoard.onStart (b : HexBoard) (p : Player) (c : Nat) : Prop :=
  c < b.cells ∧
    match p with
    | Player.BLUE => (b.hexAt c).i + 1 = b.size
    | Player.RED => (b.hexAt c).j = 0

/-- Cell `c` lies on the border that player `p` has to reach: the top row for Blue, the
right column for Red. -/
def HexBoard.onGoal (b : HexBoard) (p : Player) (c : Nat) : Prop :=
  c < b.cells ∧
    match p with
    | Player.BLUE => (b.hexAt c).i = 0
    | Player.RED => (b.hexAt c).j + 1 = b.size

/-- There is a path of cells of player `p`'s colour, consecutive cells being neighbours,
from a cell of `p` on `p`'s start border to a cell of `p` on `p`'s goal border. -/
def HexBoard.WinPath (b : HexBoard) (p : Player) : Prop :=
  ∃ s g, b.onStart p s ∧ b.statusAt s = p.status ∧ b.onGoal p g ∧ b.statusAt g = p.status ∧
    Relation.ReflTransGen (b.Step p.status) s g

/-- Cell `x` is joined to one of the cells of `S` by a path of cells of status `s`. -/
def HexBoard.Reach (b : HexBoard) (s : HexStatus) (S : List Nat) (x : Nat) : Prop :=
  ∃ c, c ∈ S ∧ Relation.ReflTransGen (b.Step s) c x

/-- Number of cell indices below `m` that are neither in `V` nor in `q`. -/
def unseen (m : Nat) (V q : Finset Nat) : Nat := ((Finset.range m) \ (V ∪ q)).card

/-- Invariant of the `while` loop of `check`: `S` are the seeds, `E` the end nodes, `Q` the
stack, and `V`, `q` the sets `visited` and `queued`. -/
structure DfsInv (b : HexBoard) (I : HexStatus) (S : List Nat) (E : Finset Nat)
    (Q : List Nat) (V q : Finset Nat) : Prop where
  seeds : ∀ c, c ∈ S → c ∈ V ∨ c ∈ Q
  closed : ∀ u, u ∈ V → ∀ e, e ∈ (b.hexAt u).edges → b.statusAt e = I → e ∈ V ∨ e ∈ Q
  queued : ∀ x, x ∈ q → x ∈ V ∨ x ∈ Q
  reach : ∀ x, x ∈ V ∨ x ∈ Q → b.Reach I S x
  notGoal : ∀ x, x ∈ V ∨ x ∈ Q → x ∉ E
  bound : ∀ x, x ∈ Q → x < b.cells

/-- Size-3 board with Blue on (1,1), (2,1), (3,1) and no Red stone. -/
def board3BlueColumn : HexBoard :=
  ((board3.move Player.BLUE 1 1).move Player.BLUE 2 1).move Player.BLUE 3 1

/-- Invariant of the loops of the constructor on the cell vector of a board of size `n`:
the vector has `n * n` slots, the first `c` slots hold cells numbered by their position
with row `idx / n` and column `idx % n`, and every stored neighbour is a position of the
vector. -/
structure CtorInv (n c : Nat) (cells : List Hex) : Prop where
  len : cells.length = n * n
  core : ∀ idx, idx < c →
    (cells.getD idx (Hex.ctor 0 0 0)).n = idx ∧
    (cells.getD idx (Hex.ctor 0 0 0)).i = idx / n ∧
    (cells.getD idx (Hex.ctor 0 0 0)).j = idx % n
  edges : ∀ idx e, e ∈ (cells.getD idx (Hex.ctor 0 0 0)).edges → e < n * n

/-- The index that the border loop of `check` tests as a seed in iteration `i`. -/
def HexBoard.startIdx (b : HexBoard) (B : Bool) (i : Nat) : Nat :=
  if B then u32 (u32 (b.size * usub b.size 1) + i) else u32 (i * b.size)

/-- The index that the border loop of `check` tests as an end node in iteration `i`. -/
def HexBoard.stopIdx (b : HexBoard) (B : Bool) (i : Nat) : Nat :=
  if B then i else usub (u32 (u32 (i * b.size) + b.size)) 1

/-- The per-player set that `check` reads. -/
def HexBoard.playerSet (b : HexBoard) (B : Bool) : Finset Nat :=
  if B then b.blueEdgeList else b.redEdgeList

instance instDecidableBuilt (b : HexBoard) : Decidable b.Built := by
  unfold HexBoard.Built; infer_instance

/-! ## Vector accesses of the legality test, `move` and `undo` -/

/-- The positions at which `isLegal` indexes `edgeList`: in `!isOOB(x, y) && isEmpty(x, y)`
the right operand, which reads `edgeList[(x-1) * size + (y-1)]`, is evaluated only when
`isOOB` is false. -/
def HexBoard.isLegalReads (b : HexBoard) (x y : Nat) : List Nat :=
  if b.isOOB x y then [] else [b.cellIndex x y]

/-- The positions at which `move` indexes `edgeList`: those of its `isLegal` test and, in
the legal branch, the status write and the read stored into the player's map. -/
def HexBoard.moveReads (b : HexBoard) (x y : Nat) : List Nat :=
  b.isLegalReads x y ++ (if b.isLegal x y then [b.cellIndex x y, b.cellIndex x y] else [])

/-- The positions at which `undo` indexes `edgeList`: the read of `isEmpty`, made only when
`isOOB` is false, and in the branch taken the status write and the two status reads. -/
def HexBoard.undoReads (b : HexBoard) (x y : Nat) : List Nat :=
  (if b.isOOB x y then [] else [b.cellIndex x y]) ++
  (if !b.isOOB x y && !b.isEmpty x y then
    [b.cellIndex x y, b.cellIndex x y, b.cellIndex x y] else [])

/-! ## Vocabulary of the scan of `getAIMove` -/

/-- Source: the coordinate `tx = i / size + 1` of candidate `i` in `HexBoard::getAIMove`. -/
def HexBoard.cellX (b : HexBoard) (i : Nat) : Nat := u32 (i / b.size + 1)

/-- Source: the coordinate `ty = i % size + 1` of candidate `i` in `HexBoard::getAIMove`. -/
def HexBoard.cellY (b : HexBoard) (i : Nat) : Nat := u32 (i % b.size + 1)

/-- State of the cell loop of `HexBoard::getAIMove` (board and output parameters) when it
reaches iteration `k`. -/
def HexBoard.aiScan (b : HexBoard) (p : Player) (x y N : Nat)
    (sh : Nat → Nat → List HexStatus → List HexStatus) (k : Nat) : HexBoard × Nat × Nat :=
  (List.range k).foldl (aiCell p N sh) ({ b with gwins := 0 }, x, y)

/-- The value `wins` that iteration `k` of the cell loop of `HexBoard::getAIMove` computes
for its candidate: the number of its `N` trials that `check` reports won, divided by `N`. -/
def HexBoard.aiWinRate (b : HexBoard) (p : Player) (x y N : Nat)
    (sh : Nat → Nat → List HexStatus → List HexStatus) (k : Nat) : ℚ :=
  ((List.range N).foldl (aiTrial p (sh k))
    ((b.aiScan p x y N sh k).1.move p
      (u32 (k / (b.aiScan p x y N sh k).1.size + 1))
      (u32 (k % (b.aiScan p x y N sh k).1.size + 1)), 0)).2 / (N : ℚ)

/-- Invariant of the cell loop of `getAIMove` when it reaches iteration `t` in state `st`:
either no legal candidate before `t` had a positive win rate, `gwins` is 0 and the output
parameters are untouched, or the output parameters and `gwins` are those of the first
legal candidate before `t` whose win rate is the largest among them. -/
def HexBoard.ScanBest (b : HexBoard) (p : Player) (x y N : Nat)
    (sh : Nat → Nat → List HexStatus → List HexStatus) (t : Nat)
    (st : HexBoard × Nat × Nat) : Prop :=
  ((∀ j, j < t → b.isLegal (b.cellX j) (b.cellY j) = true → b.aiWinRate p x y N sh j ≤ 0) ∧
    st.1.gwins = 0 ∧ st.2 = (x, y)) ∨
  (∃ k, k < t ∧ b.isLegal (b.cellX k) (b.cellY k) = true ∧ 0 < b.aiWinRate p x y N sh k ∧
    (∀ j, j < t → b.isLegal (b.cellX j) (b.cellY j) = true →
      b.aiWinRate p x y N sh j ≤ b.aiWinRate p x y N sh k) ∧
    (∀ j, j < k → b.isLegal (b.cellX j) (b.cellY j) = true →
      b.aiWinRate p x y N sh j < b.aiWinRate p x y N sh k) ∧
    st.2 = (b.cellX k, b.cellY k) ∧ st.1.gwins = b.aiWinRate p x y N sh k)

/-! ## Complete colourings of the size-3 board -/

/-- All lists of length `n` over the two colours `BLUE` and `RED`. -/
def colourings : Nat → List (List HexStatus)
  | 0 => [[]]
  | n + 1 => (colourings n).flatMap (fun l => [HexStatus.BLUE :: l, HexStatus.RED :: l])

/-- The size-3 board whose nine cells carry the statuses `l` (cell `i` carries `l[i]`), with
the per-player sets holding the indices of the Blue and of the Red cells. -/
def paint (l : List HexStatus) : HexBoard :=
  { board3 with
    edgeList := List.zipWith (fun h s => { h with s := s }) board3.edgeList l
    blueEdgeList := ((List.range 9).filter
      (fun i => decide (l.getD i HexStatus.EMPTY = HexStatus.BLUE))).toFinset
    redEdgeList := ((List.range 9).filter
      (fun i => decide (l.getD i HexStatus.EMPTY = HexStatus.RED))).toFinset
    occupied := 9 }

/-! ## Vocabulary of the neighbour lists -/

/-- The neighbours in its own row that the constructor has stored for the cell in row
`i`, column `k` of a board of size `n` when it has created the cells before row `r`,
column `j`: the left neighbour (stored when the cell is created), then the right one
(stored when that one is created). -/
def rowPart (n r j i k : Nat) : List Nat :=
  (if (i < r ∨ (i = r ∧ k < j)) ∧ 0 < k then [i * n + k - 1] else []) ++
  (if (i < r ∨ (i = r ∧ k + 1 < j)) ∧ k + 1 < n then [i * n + k + 1] else [])

/-- The neighbours in the row above that the constructor has stored for the cell in row
`i`, column `k` when it has run the link iterations before row `r2`, column `t`: the one
in the same column, then the one in the next column. -/
def upPart (n r2 t i k : Nat) : List Nat :=
  (if 0 < i ∧ (i < r2 ∨ (i = r2 ∧ k < t)) then [(i - 1) * n + k] else []) ++
  (if 0 < i ∧ k + 1 < n ∧ (i < r2 ∨ (i = r2 ∧ k < t)) then [(i - 1) * n + k + 1] else [])

/-- The neighbours in the row below that the constructor has stored for the cell in row
`i`, column `k` when it has run the link iterations before row `r2`, column `t`: the one
in the previous column, then the one in the same column. -/
def downPart (n r2 t i k : Nat) : List Nat :=
  (if 0 < k ∧ i + 1 < n ∧ (i + 1 < r2 ∨ (i + 1 = r2 ∧ k < t + 1))
    then [(i + 1) * n + k - 1] else []) ++
  (if i + 1 < n ∧ (i + 1 < r2 ∨ (i + 1 = r2 ∧ k < t)) then [(i + 1) * n + k] else [])

/-- The neighbour list that the constructor has stored for the cell in row `i`, column `k`
when it has created the cells before row `r`, column `j` and has run the link iterations
before row `r2`, column `t`. -/
def nbrsAt (n r j r2 t i k : Nat) : List Nat :=
  rowPart n r j i k ++ (upPart n r2 t i k ++ downPart n r2 t i k)

/-- The neighbour list of the cell in row `i`, column `k` of a board of size `n`, in the
order in which the constructor stores it: left `(i, k-1)`, right `(i, k+1)`, up
`(i-1, k)`, up-diagonal `(i-1, k+1)`, down-diagonal `(i+1, k-1)`, down `(i+1, k)`, each
present when it lies in the grid. -/
def hexNeighbours (n i k : Nat) : List Nat :=
  (if 0 < k then [i * n + k - 1] else []) ++
  (if k + 1 < n then [i * n + k + 1] else []) ++
  (if 0 < i then [(i - 1) * n + k] else []) ++
  (if 0 < i ∧ k + 1 < n then [(i - 1) * n + k + 1] else []) ++
  (if 0 < k ∧ i + 1 < n then [(i + 1) * n + k - 1] else []) ++
  (if i + 1 < n then [(i + 1) * n + k] else [])

/-- The neighbour list in the order left, right, up, up-diagonal, down, down-diagonal. -/
def hexNeighboursDownFirst (n i k : Nat) : List Nat :=
  (if 0 < k then [i * n + k - 1] else []) ++
  (if k + 1 < n then [i * n + k + 1] else []) ++
  (if 0 < i then [(i - 1) * n + k] else []) ++
  (if 0 < i ∧ k + 1 < n then [(i - 1) * n + k + 1] else []) ++
  (if i + 1 < n then [(i + 1) * n + k] else []) ++
  (if 0 < k ∧ i + 1 < n then [(i + 1) * n + k - 1] else [])

/-! ## A Monte Carlo trial board of `getAIMove` -/

/-- The board on which `getAIMove(Blue, N = 1)`, called on the fresh size-3 board with
identity shuffles, evaluates the single trial of the candidate of cell 7, coordinates
(3,2): the state of the scan at that candidate, the tentative move, one `randomize`. -/
def trialBoard32 : HexBoard :=
  ((board3.aiScan Player.BLUE 0 0 1 shId 7).1.move Player.BLUE 3 2).randomize (shId 7 0)

end HexGame

namespace PrimMST

/-!
# Prim's algorithm (`part-a/week4/prim_minimum_spanning_tree.cpp`): shallow embedding

* Vertex numbers are natural numbers.  Edge costs are integers: `Graph(std::fstream&)`
  reads them as `int`, and the `double` sums of the source are exact on them.
* `std::map<int, Edge>` is the list of its values in increasing key order; every entry is
  inserted under the key `to` of its value (field `to_` here).
* `std::set<int> visited` is a finite set.
* `std::priority_queue<NodeInfo>` is the list of its elements; `top` is an argument, the
  function that says which element `pq.top()` returns, and `pop` removes that element.
* `Prim::run` has three outcomes: it returns, it reads the top of an empty queue (undefined
  in the source), or the bound on the number of loop iterations runs out.
-/

/-- Source: `struct Edge`; its member `to` is written `to_`. -/
structure Edge where
  to_ : Nat
  cost : Int
deriving DecidableEq, Repr

/-- Source: `struct Node`. -/
structure Node where
  n : Nat
  edges : List Edge
deriving DecidableEq, Repr

/-- Source: the data members of `class Graph`. -/
structure Graph where
  numV : Nat
  numE : Nat
  adjList : List Node
deriving DecidableEq, Repr

/-- Source: `edges.count(k)` on a `std::map<int, Edge>`. -/
def mapCount (m : List Edge) (k : Nat) : Bool := m.any (fun e => decide (e.to_ = k))

/-- Source: `edges.insert({e.to_, e})` on a `std::map<int, Edge>`: nothing changes when
the key is present; otherwise the entry is placed after the entries of smaller key. -/
def mapInsert (m : List Edge) (e : Edge) : List Edge :=
  if mapCount m e.to_ then m
  else m.takeWhile (fun a => decide (a.to_ < e.to_)) ++
    e :: m.dropWhile (fun a => decide (a.to_ < e.to_))

/-- Source: `Graph::Graph()`. -/
def Graph.empty : Graph := { numV := 0, numE := 0, adjList := [] }

/-- Source: `Graph::addVertex`. -/
def Graph.addVertex (g : Graph) : Graph :=
  { g with adjList := g.adjList ++ [{ n := g.numV, edges := [] }], numV := g.numV + 1 }

/-- Source: `Graph::Graph(int numVertices)`. -/
def Graph.ctor (numVertices : Nat) : Graph :=
  (List.range numVertices).foldl (fun g _ => g.addVertex) Graph.empty

/-- Source: `Graph::getEdges`. -/
def Graph.getEdges (g : Graph) (x : Nat) : List Edge :=
  (g.adjList.getD x { n := 0, edges := [] }).edges

/-- Source: `Graph::adjacent`. -/
def Graph.adjacent (g : Graph) (x y : Nat) : Bool := mapCount (g.getEdges x) y

/-- Source: `Graph::addEdge`. -/
def Graph.addEdge (g : Graph) (x y : Nat) (c : Int) : Graph :=
  if !mapCount (g.getEdges x) y then
    let adj1 := g.adjList.modify (fun nd => { nd with edges := mapInsert nd.edges ⟨y, c⟩ }) x
    let adj2 := adj1.modify (fun nd => { nd with edges := mapInsert nd.edges ⟨x, c⟩ }) y
    { g with adjList := adj2, numE := g.numE + 2 }
  else g

/-- Source: `Graph::Graph(std::fstream&)`; `numVertices` and `es` are the numbers read
from the file, each element of `es` being one line `x y cost`. -/
def Graph.fromFile (numVertices : Nat) (es : List (Nat × Nat × Int)) : Graph :=
  es.foldl (fun g e => g.addEdge e.1 e.2.1 e.2.2) (Graph.ctor numVertices)

/-- Source: `class NodeInfo`; its members `from` and `to` are written `from_` and `to_`. -/
structure NodeInfo where
  from_ : Nat
  to_ : Nat
  dist : Int
deriving DecidableEq, Repr

/-- How `Prim::run` ends. -/
inductive Outcome
  | done (MST : Graph) (MSTCost : Int)
  | emptyTop
  | outOfFuel
deriving DecidableEq, Repr

/-- The first loop of `Prim::run`: every edge of the source is pushed. -/
def pushSource (curr : Nat) (es : List Edge) : List NodeInfo :=
  es.foldl (fun pq e => pq ++ [⟨curr, e.to_, e.cost⟩]) []

/-- The `for` loop inside the `while` loop of `Prim::run`: the edges of `curr` that lead
to a vertex not in `visited` are pushed. -/
def pushUnvisited (curr : Nat) (visited : Finset Nat) (es : List Edge)
    (pq : List NodeInfo) : List NodeInfo :=
  es.foldl (fun pq e => if e.to_ ∉ visited then pq ++ [⟨curr, e.to_, e.cost⟩] else pq) pq

/-- The `while` loop of `Prim::run`, run for at most `fuel` evaluations of its condition;
the state is the queue, the set `visited`, the graph `MST` and `MSTCost`. -/
def primLoop (g : Graph) (top : List NodeInfo → NodeInfo) :
    Nat → List NodeInfo → Finset Nat → Graph → Int → Outcome
  | 0, _, _, _, _ => Outcome.outOfFuel
  | fuel + 1, pq, visited, MST, MSTCost =>
    if visited.card = g.numV then Outcome.done MST MSTCost
    else if pq = [] then Outcome.emptyTop
    else
      let t := top pq
      let pq1 := pq.erase t
      let MST1 := if t.to_ ∉ visited then MST.addEdge t.from_ t.to_ t.dist else MST
      let cost1 := if t.to_ ∉ visited then MSTCost + t.dist else MSTCost
      let pq2 := pushUnvisited t.to_ visited (g.getEdges t.to_) pq1
      if pq2 = [] then Outcome.done MST1 cost1
      else primLoop g top fuel pq2 (insert t.to_ visited) MST1 cost1

/-- Source: `Prim::Prim(Graph*)` followed by `Prim::run(source)`. -/
def primRun (g : Graph) (top : List NodeInfo → NodeInfo) (source fuel : Nat) : Outcome :=
  primLoop g top fuel (pushSource source (g.getEdges source)) {source} (Graph.ctor g.numV) 0

/-- The requirement on `top`: on a non-empty queue it returns an element of the queue
whose `dist` is smallest (the queue orders by `!(a.dist < b.dist)`). -/
def IsMinTop (top : List NodeInfo → NodeInfo) : Prop :=
  ∀ pq, pq ≠ [] → top pq ∈ pq ∧ ∀ y, y ∈ pq → (top pq).dist ≤ y.dist

/-- A `top` function: the first element of smallest `dist`. -/
def firstMin : List NodeInfo → NodeInfo
  | [] => ⟨0, 0, 0⟩
  | a :: l => if l = [] then a else if a.dist ≤ (firstMin l).dist then a else firstMin l

/-! ## Specification vocabulary -/

/-- There is an edge from `x` to `y` in `g`. -/
def Graph.Adj (g : Graph) (x y : Nat) : Prop := ∃ e, e ∈ g.getEdges x ∧ e.to_ = y

/-- Every vertex of `g` can be reached from every vertex of `g` along edges. -/
def Graph.Connected (g : Graph) : Prop :=
  ∀ u v, u < g.numV → v < g.numV → Relation.ReflTransGen g.Adj u v

/-- The sum of `f` over all stored edge entries of `g`; an undirected edge is stored as two
entries, one at each end. -/
def Graph.sumOver (g : Graph) (f : Edge → Int) : Int :=
  (g.adjList.map (fun nd => (nd.edges.map f).sum)).sum

/-- The number of stored edge entries of `g`. -/
def Graph.entries (g : Graph) : Int := g.sumOver (fun _ => 1)

/-- The sum of the costs of the stored edge entries of `g` (twice the sum of the costs of
its undirected edges). -/
def Graph.totalCost (g : Graph) : Int := g.sumOver (fun e => e.cost)

/-- The number of queue entries whose target is already visited. -/
def staleCount (visited : Finset Nat) (pq : List NodeInfo) : Nat :=
  (pq.filter (fun t => decide (t.to_ ∈ visited))).length

/-- What a graph built by `addEdge` on `Graph(n)` satisfies: `n` vertices, every edge
entry leads to a vertex of the graph, and every entry has its mirror entry. -/
structure Graph.Sound (g : Graph) : Prop where
  len : g.adjList.length = g.numV
  range : ∀ x e, e ∈ g.getEdges x → e.to_ < g.numV
  symm : ∀ x y c, (⟨y, c⟩ : Edge) ∈ g.getEdges x → (⟨x, c⟩ : Edge) ∈ g.getEdges y

/-- Invariant of the `while` loop of `Prim::run` on graph `g` started at `source`. -/
structure PrimInv (g : Graph) (source : Nat) (pq : List NodeInfo) (visited : Finset Nat)
    (MST : Graph) (MSTCost : Int) : Prop where
  src : source ∈ visited
  bound : ∀ v, v ∈ visited → v < g.numV
  sound : MST.Sound
  numV : MST.numV = g.numV
  sub : ∀ x e, e ∈ MST.getEdges x → x ∈ visited ∧ e.to_ ∈ visited ∧ e ∈ g.getEdges x
  numE : MST.numE + 2 = 2 * visited.card
  cnt : MST.entries = MST.numE
  reach : ∀ v, v ∈ visited → Relation.ReflTransGen MST.Adj source v
  cost : 2 * MSTCost = MST.totalCost
  inQ : ∀ t, t ∈ pq → t.from_ ∈ visited ∧ (⟨t.to_, t.dist⟩ : Edge) ∈ g.getEdges t.from_
  cut : ∀ v, v ∈ visited → ∀ e, e ∈ g.getEdges v → e.to_ ∉ visited →
    (⟨v, e.to_, e.cost⟩ : NodeInfo) ∈ pq
  noloop : ∀ x e, e ∈ MST.getEdges x → e.to_ ≠ x

/-! ## Spanning trees -/

/-- A set of undirected edges with costs: the pair `(s(x, y), c)` is the edge between `x`
and `y` with cost `c`.  In `T` the vertices `x` and `y` are joined by an edge. -/
def TAdj (T : Finset (Sym2 Nat × Int)) (x y : Nat) : Prop := ∃ c, (s(x, y), c) ∈ T

/-- The total edge cost of a set of undirected edges. -/
def treeCost (T : Finset (Sym2 Nat × Int)) : Int := T.sum (fun p => p.2)

/-- A spanning tree of `g`: a set of `V - 1` undirected edges, each an edge of `g` with its
cost, that connects all `V` vertices. -/
structure IsSpanningTree (g : Graph) (T : Finset (Sym2 Nat × Int)) : Prop where
  edge : ∀ x y c, (s(x, y), c) ∈ T → (⟨y, c⟩ : Edge) ∈ g.getEdges x
  card : T.card + 1 = g.numV
  conn : ∀ u v, u < g.numV → v < g.numV → Relation.ReflTransGen (TAdj T) u v

/-- A walk of `n` steps of the relation `R`. -/
inductive WalkLen (R : Nat → Nat → Prop) : Nat → Nat → Nat → Prop
  | nil (x : Nat) : WalkLen R 0 x x
  | cons {n x y z : Nat} : R x y → WalkLen R n y z → WalkLen R (n + 1) x z

/-- What the edges chosen by `Prim::run` satisfy when `visited` is `V` and `MSTCost` is
`cost`: they are a set `F` of edges of `g` inside `V` that joins `V` to the source, their
costs sum to `cost`, and every spanning tree can be changed into one that contains `F` and
costs no more. -/
def PrimOpt (g : Graph) (source : Nat) (V : Finset Nat) (cost : Int) : Prop :=
  ∃ F : Finset (Sym2 Nat × Int),
    (∀ x y c, (s(x, y), c) ∈ F → x ∈ V ∧ y ∈ V) ∧
    (∀ x y c, (s(x, y), c) ∈ F → (⟨y, c⟩ : Edge) ∈ g.getEdges x) ∧
    F.card + 1 = V.card ∧
    cost = treeCost F ∧
    (∀ v, v ∈ V → Relation.ReflTransGen (TAdj F) source v) ∧
    (∀ T, IsSpanningTree g T → ∃ T2, IsSpanningTree g T2 ∧ F ⊆ T2 ∧ treeCost T2 ≤ treeCost T)

end PrimMST

namespace HexGame

/-! ## Lemmas: cell updates and the completion sampler -/

theorem getD_modify (l : List Hex) (f : Hex → Hex) (i j : Nat) (d : Hex) :
    (l.modify f i).getD j d = if i = j ∧ j < l.length then f (l.getD j d) else l.getD j d := by
  simp only [List.getD_eq_getElem?_getD, List.getElem?_modify]
  by_cases hij : i = j
  · subst hij
    by_cases hl : i < l.length
    · simp [hl]
    · simp [hl, List.getElem?_eq_none (Nat.le_of_not_lt hl)]
  · simp [hij]

theorem hexAt_setS (b : HexBoard) (i j : Nat) (s : HexStatus) :
    (b.setS i s).hexAt j =
      if i = j ∧ j < b.edgeList.length then { b.hexAt j with s := s } else b.hexAt j := by
  unfold HexBoard.setS HexBoard.hexAt
  exact getD_modify _ _ _ _ _

theorem statusAt_setS (b : HexBoard) (i j : Nat) (s : HexStatus) :
    (b.setS i s).statusAt j =
      if i = j ∧ j < b.edgeList.length then s else b.statusAt j := by
  unfold HexBoard.statusAt
  rw [hexAt_setS]
  split <;> rfl

theorem statusAt_congr {b b' : HexBoard} (h : b'.edgeList = b.edgeList) (i : Nat) :
    b'.statusAt i = b.statusAt i := by
  unfold HexBoard.statusAt HexBoard.hexAt
  rw [h]

theorem statusAt_oob (b : HexBoard) (j : Nat) (h : b.edgeList.length ≤ j) :
    b.statusAt j = HexStatus.EMPTY := by
  unfold HexBoard.statusAt HexBoard.hexAt
  rw [List.getD_eq_default _ _ h]
  rfl

theorem setS_length (b : HexBoard) (i : Nat) (s : HexStatus) :
    (b.setS i s).edgeList.length = b.edgeList.length := by
  simp [HexBoard.setS]

theorem fillCell_edgeList (v : List HexStatus) (st : HexBoard × Nat) (i : Nat) :
    (fillCell v st i).1.edgeList =
      if st.1.statusAt i = HexStatus.EMPTY
      then (st.1.setS i (v.getD st.2 HexStatus.EMPTY)).edgeList else st.1.edgeList := by
  unfold fillCell HexBoard.statusAt
  split_ifs <;> rfl

theorem fillCell_size (v : List HexStatus) (st : HexBoard × Nat) (i : Nat) :
    (fillCell v st i).1.size = st.1.size := by
  unfold fillCell
  split_ifs <;> rfl

theorem fillCell_randomized (v : List HexStatus) (st : HexBoard × Nat) (i : Nat) :
    (fillCell v st i).1.randomized =
      if st.1.statusAt i = HexStatus.EMPTY then st.1.randomized.set st.2 i
      else st.1.randomized := by
  unfold fillCell HexBoard.statusAt
  split_ifs <;> rfl

theorem fillCell_snd (v : List HexStatus) (st : HexBoard × Nat) (i : Nat) :
    (fillCell v st i).2 = if st.1.statusAt i = HexStatus.EMPTY then st.2 + 1 else st.2 := by
  unfold fillCell HexBoard.statusAt
  split_ifs <;> rfl

theorem fillCell_blue (v : List HexStatus) (st : HexBoard × Nat) (i : Nat) :
    (fillCell v st i).1.blueEdgeList =
      if st.1.statusAt i = HexStatus.EMPTY ∧ v.getD st.2 HexStatus.EMPTY = HexStatus.BLUE
      then insert i st.1.blueEdgeList else st.1.blueEdgeList := by
  unfold fillCell HexBoard.statusAt
  split_ifs <;> first | rfl | (exfalso; tauto)

theorem fillCell_red (v : List HexStatus) (st : HexBoard × Nat) (i : Nat) :
    (fillCell v st i).1.redEdgeList =
      if st.1.statusAt i = HexStatus.EMPTY ∧ v.getD st.2 HexStatus.EMPTY ≠ HexStatus.BLUE
      then insert i st.1.redEdgeList else st.1.redEdgeList := by
  unfold fillCell HexBoard.statusAt
  split_ifs <;> first | rfl | (exfalso; tauto)

theorem fillCell_statusAt (v : List HexStatus) (st : HexBoard × Nat) (i j : Nat)
    (hi : i < st.1.edgeList.length) :
    (fillCell v st i).1.statusAt j =
      if j = i ∧ st.1.statusAt i = HexStatus.EMPTY then v.getD st.2 HexStatus.EMPTY
      else st.1.statusAt j := by
  by_cases he : st.1.statusAt i = HexStatus.EMPTY
  · rw [statusAt_congr (b := st.1.setS i (v.getD st.2 HexStatus.EMPTY))
      (by rw [fillCell_edgeList, if_pos he]), statusAt_setS]
    by_cases hj : j = i
    · subst hj; simp [hi, he]
    · have : ¬ i = j := fun e => hj e.symm
      simp [hj, this]
  · rw [statusAt_congr (b := st.1) (by rw [fillCell_edgeList, if_neg he])]
    simp [he]

theorem emptyCells_succ (b : HexBoard) (t : Nat) :
    b.emptyCells (t + 1) =
      b.emptyCells t ++ (if b.statusAt t = HexStatus.EMPTY then [t] else []) := by
  unfold HexBoard.emptyCells
  rw [List.range_succ, List.filter_append]
  by_cases h : b.statusAt t = HexStatus.EMPTY <;> simp [h]

theorem mem_emptyCells (b : HexBoard) (t i : Nat) :
    i ∈ b.emptyCells t ↔ i < t ∧ b.statusAt i = HexStatus.EMPTY := by
  simp [HexBoard.emptyCells]

theorem emptyCells_nodup (b : HexBoard) (t : Nat) : (b.emptyCells t).Nodup :=
  (List.nodup_range t).filter _

theorem emptyCells_length_mono (b : HexBoard) {s t : Nat} (h : s ≤ t) :
    (b.emptyCells s).length ≤ (b.emptyCells t).length := by
  induction t with
  | zero => simp at h; subst h; exact Nat.le_refl _
  | succ t ih =>
    rcases Nat.lt_or_ge s (t + 1) with h1 | h1
    · have := ih (Nat.lt_succ_iff.mp h1)
      rw [emptyCells_succ, List.length_append]
      omega
    · have : s = t + 1 := Nat.le_antisymm h h1
      subst this; exact Nat.le_refl _

theorem fillInv_zero (b : HexBoard) (v : List HexStatus) (free : Nat) :
    FillInv b v free 0 ({ b with randomized := List.replicate free 0 }, 0) := by
  refine ⟨rfl, rfl, ?_, ?_, ?_, ?_⟩
  · simp [HexBoard.emptyCells]
  · simp [HexBoard.emptyCells]
  · simp [HexBoard.emptyCells]
  · intro i _; rfl

theorem fillInv_step (b : HexBoard) (v : List HexStatus) (free t : Nat) (st : HexBoard × Nat)
    (ht : t < b.edgeList.length) (hfree : (b.emptyCells (t + 1)).length ≤ free)
    (hv : free ≤ v.length) (h : FillInv b v free t st) :
    FillInv b v free (t + 1) (fillCell v st t) := by
  have hnot : t ∉ b.emptyCells t := by
    rw [mem_emptyCells]; omega
  have hst : st.1.statusAt t = b.statusAt t := h.keep t hnot
  have ht' : t < st.1.edgeList.length := by rw [h.len]; exact ht
  have hc : st.2 = (b.emptyCells t).length := h.cnt
  by_cases he : b.statusAt t = HexStatus.EMPTY
  · have he' : st.1.statusAt t = HexStatus.EMPTY := by rw [hst]; exact he
    have hE : b.emptyCells (t + 1) = b.emptyCells t ++ [t] := by
      rw [emptyCells_succ, if_pos he]
    have hlen : (b.emptyCells (t + 1)).length = (b.emptyCells t).length + 1 := by
      rw [hE]; simp
    have hclt : st.2 < v.length := by omega
    refine ⟨?_, ?_, ?_, ?_, ?_, ?_⟩
    · rw [fillCell_size]; exact h.size
    · rw [fillCell_edgeList, if_pos he', setS_length]; exact h.len
    · rw [fillCell_snd, if_pos he', hlen, hc]
    · rw [fillCell_randomized, if_pos he', h.led, hlen, hE, hc]
      have hpos : free - (b.emptyCells t).length
          = (free - ((b.emptyCells t).length + 1)) + 1 := by omega
      rw [hpos, List.replicate_succ, List.set_append_right _ _ (Nat.le_refl _)]
      simp
    · rw [hlen, hE, List.map_append, List.take_succ]
      congr 1
      · rw [← h.lab]
        apply List.map_congr_left
        intro j hj
        rw [fillCell_statusAt _ _ _ _ ht']
        have : j ≠ t := fun e => hnot (e ▸ hj)
        simp [this]
      · simp only [List.map_cons, List.map_nil]
        rw [fillCell_statusAt _ _ _ _ ht', ← hc]
        simp [he', List.getD_eq_getElem?_getD, List.getElem?_eq_getElem hclt]
    · intro i hi
      rw [fillCell_statusAt _ _ _ _ ht']
      have hit : i ≠ t := by
        intro e; apply hi; rw [hE, e]; simp
      have hi' : i ∉ b.emptyCells t := by
        intro hm; apply hi; rw [hE]; simp [hm]
      simp [hit, h.keep i hi']
  · have he' : ¬ st.1.statusAt t = HexStatus.EMPTY := by rw [hst]; exact he
    have hE : b.emptyCells (t + 1) = b.emptyCells t := by
      rw [emptyCells_succ, if_neg he]; simp
    refine ⟨?_, ?_, ?_, ?_, ?_, ?_⟩
    · rw [fillCell_size]; exact h.size
    · rw [fillCell_edgeList, if_neg he']; exact h.len
    · rw [fillCell_snd, if_neg he', hE]; exact hc
    · rw [fillCell_randomized, if_neg he', hE]; exact h.led
    · rw [hE, ← h.lab]
      apply List.map_congr_left
      intro j _
      rw [fillCell_statusAt _ _ _ _ ht']
      simp [he']
    · intro i hi
      rw [fillCell_statusAt _ _ _ _ ht']
      rw [hE] at hi
      simp [he', h.keep i hi]

theorem u32_of_lt {n : Nat} (h : n < 4294967296) : u32 n = n := by
  unfold u32 U32
  exact Nat.mod_eq_of_lt h

theorem usub_of_le {a b : Nat} (hb : b ≤ a) (ha : a < 4294967296) : usub a b = a - b := by
  unfold usub u32 U32
  rw [Nat.mod_eq_of_lt ha, Nat.mod_eq_of_lt (Nat.lt_of_le_of_lt hb ha)]
  omega

theorem cells_fillCell (v : List HexStatus) (st : HexBoard × Nat) (i : Nat) :
    (fillCell v st i).1.cells = st.1.cells := by
  unfold HexBoard.cells; rw [fillCell_size]

theorem fillCell_setInv (b : HexBoard) (v : List HexStatus) (st : HexBoard × Nat) (i : Nat)
    (hsz : st.1.size = b.size) (hlen : st.1.edgeList.length = b.cells) (hi : i < b.cells)
    (hx : st.1.statusAt i = HexStatus.EMPTY →
      v.getD st.2 HexStatus.EMPTY = HexStatus.BLUE ∨ v.getD st.2 HexStatus.EMPTY = HexStatus.RED)
    (h : SetInv b st.1) : SetInv b (fillCell v st i).1 := by
  have hcells : st.1.cells = b.cells := by unfold HexBoard.cells; rw [hsz]
  have hi' : i < st.1.edgeList.length := by rw [hlen]; exact hi
  refine ⟨?_, ?_, ?_⟩
  · intro j hj
    rw [cells_fillCell, hcells] at hj
    have hA := h.agree j (by rw [hcells]; exact hj)
    have hAi := h.agree i (by rw [hcells]; exact hi)
    rw [fillCell_blue, fillCell_red, fillCell_statusAt _ _ _ _ hi']
    generalize v.getD st.2 HexStatus.EMPTY = x at hx
    by_cases he : st.1.statusAt i = HexStatus.EMPTY
    · have hni1 : i ∉ st.1.blueEdgeList := by
        intro hc; have := hAi.1.mp hc; rw [he] at this; cases this
      have hni2 : i ∉ st.1.redEdgeList := by
        intro hc; have := hAi.2.mp hc; rw [he] at this; cases this
      rcases hx he with hb | hr
      · subst hb
        by_cases hj' : j = i
        · subst hj'
          simp [he, hni2]
        · simp [he, hj', hA.1, hA.2]
      · subst hr
        by_cases hj' : j = i
        · subst hj'
          simp [he, hni1]
        · simp [he, hj', hA.1, hA.2]
    · simp [he, hA.1, hA.2]
  · intro k hk
    rw [fillCell_blue]
    split
    · have : k ≠ i := by omega
      rw [Finset.mem_insert]; simp [this, h.outB k hk]
    · exact h.outB k hk
  · intro k hk
    rw [fillCell_red]
    split
    · have : k ≠ i := by omega
      rw [Finset.mem_insert]; simp [this, h.outR k hk]
    · exact h.outR k hk

theorem fillInv_fold (b : HexBoard) (v : List HexStatus) (free : Nat)
    (hlen : b.edgeList.length = b.cells)
    (hfree : (b.emptyCells b.cells).length ≤ free) (hv : free ≤ v.length) (t : Nat)
    (ht : t ≤ b.cells) :
    FillInv b v free t
      ((List.range t).foldl (fillCell v) ({ b with randomized := List.replicate free 0 }, 0)) := by
  induction t with
  | zero => exact fillInv_zero b v free
  | succ t ih =>
    have iht := ih (Nat.le_of_succ_le ht)
    rw [List.range_succ, List.foldl_append]
    simp only [List.foldl_cons, List.foldl_nil]
    have hmono := emptyCells_length_mono b ht
    exact fillInv_step b v free t _ (by rw [hlen]; omega) (by omega) hv iht

theorem fill_setInv_fold (b : HexBoard) (v : List HexStatus) (free : Nat)
    (hlen : b.edgeList.length = b.cells)
    (hfree : (b.emptyCells b.cells).length ≤ free) (hv : free ≤ v.length)
    (hx : ∀ x ∈ v, x = HexStatus.BLUE ∨ x = HexStatus.RED) (hA : b.Agree) (t : Nat)
    (ht : t ≤ b.cells) :
    SetInv b
      ((List.range t).foldl (fillCell v) ({ b with randomized := List.replicate free 0 }, 0)).1 := by
  induction t with
  | zero => exact ⟨hA, fun k _ => Iff.rfl, fun k _ => Iff.rfl⟩
  | succ t ih =>
    have iht := ih (Nat.le_of_succ_le ht)
    have hF := fillInv_fold b v free hlen hfree hv t (Nat.le_of_succ_le ht)
    rw [List.range_succ, List.foldl_append]
    simp only [List.foldl_cons, List.foldl_nil]
    have hmono := emptyCells_length_mono b ht
    apply fillCell_setInv b v _ t hF.size (by rw [hF.len]; exact hlen) (by omega) _ iht
    intro he
    have hnot : t ∉ b.emptyCells t := by rw [mem_emptyCells]; omega
    have he' : b.statusAt t = HexStatus.EMPTY := by rw [← hF.keep t hnot]; exact he
    have hl : (b.emptyCells (t + 1)).length = (b.emptyCells t).length + 1 := by
      rw [emptyCells_succ, if_pos he']; simp
    have hc : _ = (b.emptyCells t).length := hF.cnt
    have hclt : (b.emptyCells t).length < v.length := by omega
    rw [hc, List.getD_eq_getElem?_getD, List.getElem?_eq_getElem hclt]
    exact hx _ (List.getElem_mem _)

theorem map_getD_range (l : List Hex) (d : Hex) :
    (List.range l.length).map (fun i => l.getD i d) = l := by
  apply List.ext_getElem
  · simp
  · intro n h1 h2
    simp [List.getD_eq_getElem?_getD, List.getElem?_eq_getElem h2]

theorem emptyCells_length_add_nonEmpty (b : HexBoard) :
    (b.emptyCells b.edgeList.length).length + b.nonEmpty = b.edgeList.length := by
  have h1 : (b.emptyCells b.edgeList.length).length
      = b.edgeList.countP (fun h => decide (h.s = HexStatus.EMPTY)) := by
    unfold HexBoard.emptyCells
    rw [← List.countP_eq_length_filter]
    conv_rhs => rw [← map_getD_range b.edgeList (Hex.ctor 0 0 0)]
    rw [List.countP_map]
    rfl
  have h2 : b.nonEmpty = b.edgeList.countP
      (fun h => decide ¬ (decide (h.s = HexStatus.EMPTY) = true)) := by
    unfold HexBoard.nonEmpty
    congr 1
    funext h
    simp
  rw [h1, h2]
  exact (List.length_eq_countP_add_countP _ b.edgeList).symm

theorem labelCounts_sum (free : Nat) (last : Player) (h : free < 4294967296) :
    (labelCounts free last).1 + (labelCounts free last).2 = free := by
  unfold labelCounts
  have h1 : u32 (free / 2 + 1) = free / 2 + 1 := u32_of_lt (by omega)
  split_ifs <;> simp only [h1] <;> omega

theorem mem_labels {fb fr : Nat} {x : HexStatus}
    (h : x ∈ List.replicate fb HexStatus.BLUE ++ List.replicate fr HexStatus.RED) :
    x = HexStatus.BLUE ∨ x = HexStatus.RED := by
  rw [List.mem_append] at h
  rcases h with h | h
  · exact Or.inl (List.eq_of_mem_replicate h)
  · exact Or.inr (List.eq_of_mem_replicate h)

theorem randomize_of_nil (b : HexBoard) (sh : List HexStatus → List HexStatus)
    (h : b.randomized = []) :
    b.randomize sh =
      { ((List.range (u32 (b.size * b.size))).foldl (fillCell (sh b.freshLabels))
          ({ b with randomized :=
              List.replicate (usub (u32 (b.size * b.size)) b.occupied) 0 }, 0)).1 with
        occupied := u32 (b.size * b.size) } := by
  unfold HexBoard.randomize HexBoard.freshLabels
  simp [h]

theorem sized_free (b : HexBoard) (hS : b.Sized) (hocc : b.occupied = b.nonEmpty) :
    u32 (b.size * b.size) = b.cells ∧
    usub (u32 (b.size * b.size)) b.occupied = b.cells - b.occupied ∧
    (b.emptyCells b.cells).length = b.cells - b.occupied ∧
    b.occupied ≤ b.cells := by
  have h1 : u32 (b.size * b.size) = b.cells := u32_of_lt (by have := hS.2; unfold HexBoard.cells at this; omega)
  have h2 := emptyCells_length_add_nonEmpty b
  rw [hS.1, ← hocc] at h2
  have h3 : b.occupied ≤ b.cells := by omega
  refine ⟨h1, ?_, by omega, h3⟩
  rw [h1]
  exact usub_of_le h3 (by have := hS.2; omega)

theorem freshLabels_length (b : HexBoard) (hS : b.Sized) (hocc : b.occupied = b.nonEmpty) :
    b.freshLabels.length = b.cells - b.occupied := by
  obtain ⟨_, h2, _, _⟩ := sized_free b hS hocc
  unfold HexBoard.freshLabels
  rw [List.length_append, List.length_replicate, List.length_replicate, h2]
  exact labelCounts_sum _ _ (by have := hS.2; omega)

theorem randomize_of_nil_sized (b : HexBoard) (sh : List HexStatus → List HexStatus)
    (hS : b.Sized) (hL : b.randomized = []) (hocc : b.occupied = b.nonEmpty) :
    b.randomize sh =
      { ((List.range b.cells).foldl (fillCell (sh b.freshLabels))
          ({ b with randomized := List.replicate (b.cells - b.occupied) 0 }, 0)).1 with
        occupied := b.cells } := by
  obtain ⟨h1, h2, _, _⟩ := sized_free b hS hocc
  rw [randomize_of_nil b sh hL, h2, h1]

/-- Effect of the fresh branch of `randomize` on statuses and ledger. -/
theorem randomize_fresh (b : HexBoard) (sh : List HexStatus → List HexStatus)
    (hS : b.Sized) (hL : b.randomized = []) (hocc : b.occupied = b.nonEmpty)
    (hperm : ∀ l, (sh l).Perm l) :
    Filled b (b.randomize sh) ∧
    (b.emptyCells b.cells).map (b.randomize sh).statusAt = sh b.freshLabels := by
  obtain ⟨h1, h2, h3, h4⟩ := sized_free b hS hocc
  have hvlen : (sh b.freshLabels).length = b.cells - b.occupied := by
    rw [(hperm _).length_eq, freshLabels_length b hS hocc]
  have hF := fillInv_fold b (sh b.freshLabels) (b.cells - b.occupied) hS.1
    (by omega) (by omega) b.cells (Nat.le_refl _)
  have hlab : (b.emptyCells b.cells).map (b.randomize sh).statusAt = sh b.freshLabels := by
    rw [randomize_of_nil_sized b sh hS hL hocc]
    have htake : (sh b.freshLabels).take (b.emptyCells b.cells).length = sh b.freshLabels := by
      rw [h3, ← hvlen]; exact List.take_length _
    have := hF.lab
    rw [htake] at this
    exact this
  have hx : ∀ x ∈ sh b.freshLabels, x = HexStatus.BLUE ∨ x = HexStatus.RED := by
    intro x hx
    exact mem_labels ((hperm _).mem_iff.mp hx)
  refine ⟨⟨?_, ?_, ?_, ?_, ?_, ?_⟩, hlab⟩
  · rw [randomize_of_nil_sized b sh hS hL hocc]; exact hF.size
  · rw [randomize_of_nil_sized b sh hS hL hocc]; exact hF.len
  · rw [randomize_of_nil_sized b sh hS hL hocc]
  · rw [randomize_of_nil_sized b sh hS hL hocc]
    have := hF.led
    rw [h3] at this
    simpa using this
  · intro i hi
    rw [randomize_of_nil_sized b sh hS hL hocc]; exact hF.keep i hi
  · intro i hi
    have hm : (b.randomize sh).statusAt i ∈ sh b.freshLabels := by
      rw [← hlab]; exact List.mem_map_of_mem _ hi
    rcases hx _ hm with h | h <;> rw [h] <;> decide

theorem randomize_fresh_setInv (b : HexBoard) (sh : List HexStatus → List HexStatus)
    (hS : b.Sized) (hL : b.randomized = []) (hocc : b.occupied = b.nonEmpty)
    (hperm : ∀ l, (sh l).Perm l) (hA : b.Agree) :
    SetInv b (b.randomize sh) := by
  obtain ⟨h1, h2, h3, h4⟩ := sized_free b hS hocc
  have hvlen : (sh b.freshLabels).length = b.cells - b.occupied := by
    rw [(hperm _).length_eq, freshLabels_length b hS hocc]
  have hx : ∀ x ∈ sh b.freshLabels, x = HexStatus.BLUE ∨ x = HexStatus.RED := by
    intro x hx
    exact mem_labels ((hperm _).mem_iff.mp hx)
  have hF := fill_setInv_fold b (sh b.freshLabels) (b.cells - b.occupied) hS.1
    (by omega) (by omega) hx hA b.cells (Nat.le_refl _)
  have hsz := (fillInv_fold b (sh b.freshLabels) (b.cells - b.occupied) hS.1
    (by omega) (by omega) b.cells (Nat.le_refl _)).size
  rw [randomize_of_nil_sized b sh hS hL hocc]
  refine ⟨?_, hF.outB, hF.outR⟩
  intro i hi
  exact hF.agree i hi

theorem turned_eq_count (b b' : HexBoard) (s : HexStatus) :
    b.turned b' s = ((b.emptyCells b.cells).map b'.statusAt).count s := by
  unfold HexBoard.turned HexBoard.emptyCells
  rw [List.count, List.countP_map, List.countP_eq_length_filter, List.filter_filter]
  congr 1
  apply List.filter_congr
  intro i _
  by_cases h1 : b.statusAt i = HexStatus.EMPTY <;> by_cases h2 : b'.statusAt i = s <;>
    simp [h1, h2]

theorem freshLabels_count (b : HexBoard) (hS : b.Sized) (hocc : b.occupied = b.nonEmpty) :
    b.freshLabels.count HexStatus.BLUE =
      (b.cells - b.occupied) / 2 +
        (if (b.cells - b.occupied) % 2 = 1 ∧ b.last = Player.RED then 1 else 0) ∧
    b.freshLabels.count HexStatus.RED =
      (b.cells - b.occupied) / 2 +
        (if (b.cells - b.occupied) % 2 = 1 ∧ b.last = Player.BLUE then 1 else 0) := by
  obtain ⟨_, h2, _, _⟩ := sized_free b hS hocc
  have hlt : b.cells - b.occupied < 4294967296 := by have := hS.2; omega
  have h1 : u32 ((b.cells - b.occupied) / 2 + 1) = (b.cells - b.occupied) / 2 + 1 :=
    u32_of_lt (by omega)
  unfold HexBoard.freshLabels
  rw [h2]
  simp only [List.count_append, List.count_replicate]
  unfold labelCounts
  cases hl : b.last <;> by_cases hodd : (b.cells - b.occupied) % 2 = 1 <;>
    simp [hodd, h1]

theorem reshuffleCell_size (v : List HexStatus) (b : HexBoard) (i : Nat) :
    (reshuffleCell v b i).size = b.size := by
  unfold reshuffleCell HexBoard.setS
  dsimp only
  split_ifs <;> rfl

theorem reshuffleCell_randomized (v : List HexStatus) (b : HexBoard) (i : Nat) :
    (reshuffleCell v b i).randomized = b.randomized := by
  unfold reshuffleCell HexBoard.setS
  dsimp only
  split_ifs <;> rfl

theorem reshuffleCell_edgeList (v : List HexStatus) (b : HexBoard) (i : Nat) :
    (reshuffleCell v b i).edgeList =
      if v.getD i HexStatus.EMPTY ≠ b.statusAt (b.randomized.getD i 0)
      then (b.setS (b.randomized.getD i 0) (v.getD i HexStatus.EMPTY)).edgeList
      else b.edgeList := by
  unfold reshuffleCell HexBoard.setS HexBoard.statusAt
  dsimp only
  split_ifs <;> rfl

theorem reshuffleCell_blue (v : List HexStatus) (b : HexBoard) (i : Nat) :
    (reshuffleCell v b i).blueEdgeList =
      if v.getD i HexStatus.EMPTY ≠ b.statusAt (b.randomized.getD i 0) then
        (if v.getD i HexStatus.EMPTY = HexStatus.BLUE
          then insert (b.randomized.getD i 0) b.blueEdgeList
          else b.blueEdgeList.erase (b.randomized.getD i 0))
      else b.blueEdgeList := by
  unfold reshuffleCell HexBoard.setS HexBoard.statusAt
  dsimp only
  split_ifs <;> rfl

theorem reshuffleCell_red (v : List HexStatus) (b : HexBoard) (i : Nat) :
    (reshuffleCell v b i).redEdgeList =
      if v.getD i HexStatus.EMPTY ≠ b.statusAt (b.randomized.getD i 0) then
        (if v.getD i HexStatus.EMPTY = HexStatus.BLUE
          then b.redEdgeList.erase (b.randomized.getD i 0)
          else insert (b.randomized.getD i 0) b.redEdgeList)
      else b.redEdgeList := by
  unfold reshuffleCell HexBoard.setS HexBoard.statusAt
  dsimp only
  split_ifs <;> rfl

theorem reshuffleCell_statusAt (v : List HexStatus) (b : HexBoard) (i j : Nat)
    (hh : b.randomized.getD i 0 < b.edgeList.length) :
    (reshuffleCell v b i).statusAt j =
      if j = b.randomized.getD i 0 then v.getD i HexStatus.EMPTY else b.statusAt j := by
  by_cases hx : v.getD i HexStatus.EMPTY ≠ b.statusAt (b.randomized.getD i 0)
  · rw [statusAt_congr (b := b.setS (b.randomized.getD i 0) (v.getD i HexStatus.EMPTY))
      (by rw [reshuffleCell_edgeList, if_pos hx]), statusAt_setS]
    by_cases hj : j = b.randomized.getD i 0
    · rw [if_pos hj, if_pos ⟨hj.symm, by rw [hj]; exact hh⟩]
    · rw [if_neg hj, if_neg (fun h => hj h.1.symm)]
  · rw [statusAt_congr (b := b) (by rw [reshuffleCell_edgeList, if_neg hx])]
    by_cases hj : j = b.randomized.getD i 0
    · rw [if_pos hj, hj]; exact (not_not.mp hx).symm
    · rw [if_neg hj]

theorem reshuffleCell_setInv (b0 : HexBoard) (v : List HexStatus) (b : HexBoard) (i : Nat)
    (hsz : b.size = b0.size) (hlen : b.edgeList.length = b0.cells)
    (hh : b.randomized.getD i 0 < b0.cells)
    (hx : v.getD i HexStatus.EMPTY = HexStatus.BLUE ∨ v.getD i HexStatus.EMPTY = HexStatus.RED)
    (h : SetInv b0 b) : SetInv b0 (reshuffleCell v b i) := by
  have hcells : b.cells = b0.cells := by unfold HexBoard.cells; rw [hsz]
  have hh' : b.randomized.getD i 0 < b.edgeList.length := by rw [hlen]; exact hh
  have hAh := h.agree _ (by rw [hcells]; exact hh)
  refine ⟨?_, ?_, ?_⟩
  · intro j hj
    have hj' : j < b.cells := by
      unfold HexBoard.cells at hj ⊢; rw [reshuffleCell_size] at hj; exact hj
    have hA := h.agree j hj'
    rw [reshuffleCell_blue, reshuffleCell_red, reshuffleCell_statusAt _ _ _ _ hh']
    generalize v.getD i HexStatus.EMPTY = x at hx
    generalize b.randomized.getD i 0 = c at hAh
    by_cases hjc : j = c
    · subst hjc
      rcases hx with hb | hr
      · subst hb
        by_cases hs : b.statusAt j = HexStatus.BLUE
        · simp [hs, hA.1, hA.2]
        · have : ¬ HexStatus.BLUE = b.statusAt j := fun e => hs e.symm
          simp [this]
      · subst hr
        by_cases hs : b.statusAt j = HexStatus.RED
        · simp [hs, hA.1, hA.2]
        · have : ¬ HexStatus.RED = b.statusAt j := fun e => hs e.symm
          simp [this]
    · rcases hx with hb | hr
      · subst hb
        by_cases hs : HexStatus.BLUE = b.statusAt c <;>
          simp [hs, hjc, hA.1, hA.2, Finset.mem_erase]
      · subst hr
        by_cases hs : HexStatus.RED = b.statusAt c <;>
          simp [hs, hjc, hA.1, hA.2, Finset.mem_erase]
  · intro k hk
    have hkc : k ≠ b.randomized.getD i 0 := by omega
    rw [reshuffleCell_blue]
    generalize b.randomized.getD i 0 = c at hkc
    split_ifs <;> simp [hkc, h.outB k hk, Finset.mem_erase]
  · intro k hk
    have hkc : k ≠ b.randomized.getD i 0 := by omega
    rw [reshuffleCell_red]
    generalize b.randomized.getD i 0 = c at hkc
    split_ifs <;> simp [hkc, h.outR k hk, Finset.mem_erase]

theorem take_succ_getElem {α : Type} (l : List α) (t : Nat) (h : t < l.length) :
    l.take (t + 1) = l.take t ++ [l[t]] := by
  rw [List.take_succ, List.getElem?_eq_getElem h]
  rfl

theorem not_mem_take_of_nodup (l : List Nat) (t : Nat) (h : t < l.length) (hnd : l.Nodup) :
    l[t] ∉ l.take t := by
  have h1 : (l.take (t + 1)).Nodup := hnd.sublist (List.take_sublist _ _)
  rw [take_succ_getElem l t h, List.nodup_append] at h1
  intro hm
  exact h1.2.2 hm (List.mem_singleton.mpr rfl)

theorem getD_of_lt {α : Type} (l : List α) (t : Nat) (d : α) (h : t < l.length) :
    l.getD t d = l[t] := by
  rw [List.getD_eq_getElem?_getD, List.getElem?_eq_getElem h]
  rfl

theorem reshInv_fold (b : HexBoard) (v : List HexStatus)
    (hlen : b.edgeList.length = b.cells) (hnd : b.randomized.Nodup)
    (hin : ∀ h, h ∈ b.randomized → h < b.cells)
    (hvl : v.length = b.randomized.length) (t : Nat)
    (ht : t ≤ b.randomized.length) :
    ReshInv b v t ((List.range t).foldl (reshuffleCell v) b) := by
  induction t with
  | zero =>
    refine ⟨rfl, rfl, rfl, by simp, fun i _ => rfl⟩
  | succ t ih =>
    have iht := ih (Nat.le_of_succ_le ht)
    rw [List.range_succ, List.foldl_append]
    simp only [List.foldl_cons, List.foldl_nil]
    generalize (List.range t).foldl (reshuffleCell v) b = bt at iht
    have htl : t < b.randomized.length := ht
    have htv : t < v.length := by omega
    have hh : bt.randomized.getD t 0 = b.randomized[t] := by
      rw [iht.led]; exact getD_of_lt _ _ _ htl
    have hxv : v.getD t HexStatus.EMPTY = v[t] := getD_of_lt _ _ _ htv
    have hc : b.randomized[t] < b.cells := hin _ (List.getElem_mem _)
    have hc' : bt.randomized.getD t 0 < bt.edgeList.length := by
      rw [hh, iht.len, hlen]; exact hc
    have hnot := not_mem_take_of_nodup b.randomized t htl hnd
    refine ⟨?_, ?_, ?_, ?_, ?_⟩
    · rw [reshuffleCell_size]; exact iht.size
    · rw [reshuffleCell_edgeList]
      split
      · rw [setS_length]; exact iht.len
      · exact iht.len
    · rw [reshuffleCell_randomized]; exact iht.led
    · rw [take_succ_getElem _ _ htl, take_succ_getElem _ _ htv, List.map_append]
      congr 1
      · rw [← iht.lab]
        apply List.map_congr_left
        intro j hj
        rw [reshuffleCell_statusAt _ _ _ _ hc', hh]
        have : j ≠ b.randomized[t] := fun e => hnot (e ▸ hj)
        rw [if_neg this]
      · simp only [List.map_cons, List.map_nil]
        rw [reshuffleCell_statusAt _ _ _ _ hc', hh, if_pos rfl, hxv]
    · intro i hi
      rw [take_succ_getElem _ _ htl, List.mem_append, List.mem_singleton] at hi
      rw [reshuffleCell_statusAt _ _ _ _ hc', hh, if_neg (fun e => hi (Or.inr e))]
      exact iht.keep i (fun hm => hi (Or.inl hm))

theorem resh_setInv_fold (b : HexBoard) (v : List HexStatus)
    (hlen : b.edgeList.length = b.cells) (hnd : b.randomized.Nodup)
    (hin : ∀ h, h ∈ b.randomized → h < b.cells)
    (hvl : v.length = b.randomized.length)
    (hx : ∀ x ∈ v, x = HexStatus.BLUE ∨ x = HexStatus.RED) (hA : b.Agree) (t : Nat)
    (ht : t ≤ b.randomized.length) :
    SetInv b ((List.range t).foldl (reshuffleCell v) b) := by
  induction t with
  | zero => exact ⟨hA, fun k _ => Iff.rfl, fun k _ => Iff.rfl⟩
  | succ t ih =>
    have iht := ih (Nat.le_of_succ_le ht)
    have hR := reshInv_fold b v hlen hnd hin hvl t (Nat.le_of_succ_le ht)
    rw [List.range_succ, List.foldl_append]
    simp only [List.foldl_cons, List.foldl_nil]
    generalize (List.range t).foldl (reshuffleCell v) b = bt at iht hR
    have htl : t < b.randomized.length := ht
    have htv : t < v.length := by omega
    have hh : bt.randomized.getD t 0 = b.randomized[t] := by
      rw [hR.led]; exact getD_of_lt _ _ _ htl
    have hxv : v.getD t HexStatus.EMPTY = v[t] := getD_of_lt _ _ _ htv
    have hc : b.randomized[t] < b.cells := hin _ (List.getElem_mem _)
    apply reshuffleCell_setInv b v bt t hR.size (by rw [hR.len]; exact hlen)
      (by rw [hh]; exact hc) _ iht
    rw [hxv]; exact hx _ (List.getElem_mem _)

theorem randomize_of_ne_nil (b : HexBoard) (sh : List HexStatus → List HexStatus)
    (h : b.randomized ≠ []) :
    b.randomize sh =
      { (List.range b.randomized.length).foldl
          (reshuffleCell (sh (b.randomized.map b.statusAt))) b with
        occupied := u32 (b.size * b.size) } := by
  unfold HexBoard.randomize
  have : ¬ b.randomized.length = 0 := by
    intro e; exact h (List.length_eq_zero.mp e)
  rw [if_neg this]
  rfl

/-- Effect of the populated branch of `randomize` on statuses and ledger. -/
theorem randomize_populated (b : HexBoard) (sh : List HexStatus → List HexStatus)
    (hS : b.Sized) (hL : b.randomized ≠ []) (hnd : b.randomized.Nodup)
    (hin : ∀ h, h ∈ b.randomized → h < b.cells)
    (hperm : ∀ l, (sh l).Perm l) :
    (b.randomize sh).size = b.size ∧
    (b.randomize sh).edgeList.length = b.edgeList.length ∧
    (b.randomize sh).occupied = b.cells ∧
    (b.randomize sh).randomized = b.randomized ∧
    b.randomized.map (b.randomize sh).statusAt = sh (b.randomized.map b.statusAt) ∧
    (∀ i, i ∉ b.randomized → (b.randomize sh).statusAt i = b.statusAt i) := by
  have hvl : (sh (b.randomized.map b.statusAt)).length = b.randomized.length := by
    rw [(hperm _).length_eq, List.length_map]
  have hF := reshInv_fold b _ hS.1 hnd hin hvl b.randomized.length (Nat.le_refl _)
  have h1 : u32 (b.size * b.size) = b.cells :=
    u32_of_lt (by have := hS.2; unfold HexBoard.cells at this; omega)
  rw [randomize_of_ne_nil b sh hL, h1]
  refine ⟨hF.size, hF.len, rfl, hF.led, ?_, ?_⟩
  · have h2 : (sh (b.randomized.map b.statusAt)).take b.randomized.length
        = sh (b.randomized.map b.statusAt) := by
      rw [← hvl]; exact List.take_length _
    have := hF.lab
    rw [List.take_length, h2] at this
    exact this
  · intro i hi
    apply hF.keep
    rw [List.take_length]; exact hi

theorem randomize_populated_setInv (b : HexBoard) (sh : List HexStatus → List HexStatus)
    (hS : b.Sized) (hL : b.randomized ≠ []) (hnd : b.randomized.Nodup)
    (hin : ∀ h, h ∈ b.randomized → h < b.cells ∧ b.statusAt h ≠ HexStatus.EMPTY)
    (hA : b.Agree) (hperm : ∀ l, (sh l).Perm l) :
    SetInv b (b.randomize sh) := by
  have hvl : (sh (b.randomized.map b.statusAt)).length = b.randomized.length := by
    rw [(hperm _).length_eq, List.length_map]
  have hx : ∀ x ∈ sh (b.randomized.map b.statusAt), x = HexStatus.BLUE ∨ x = HexStatus.RED := by
    intro x hx
    have := (hperm _).mem_iff.mp hx
    rw [List.mem_map] at this
    obtain ⟨c, hc, rfl⟩ := this
    have := (hin c hc).2
    cases hs : b.statusAt c
    · exact absurd hs this
    · exact Or.inl rfl
    · exact Or.inr rfl
  have hF := resh_setInv_fold b _ hS.1 hnd (fun h hh => (hin h hh).1) hvl hx hA
    b.randomized.length (Nat.le_refl _)
  rw [randomize_of_ne_nil b sh hL]
  exact ⟨fun i hi => hF.agree i hi, hF.outB, hF.outR⟩

theorem revertCell_size (b : HexBoard) (h : Nat) : (revertCell b h).size = b.size := by
  unfold revertCell HexBoard.setS
  dsimp only
  split_ifs <;> rfl

theorem revertCell_randomized (b : HexBoard) (h : Nat) :
    (revertCell b h).randomized = b.randomized := by
  unfold revertCell HexBoard.setS
  dsimp only
  split_ifs <;> rfl

theorem revertCell_occupied (b : HexBoard) (h : Nat) :
    (revertCell b h).occupied = usub b.occupied 1 := by
  unfold revertCell HexBoard.setS
  dsimp only
  split_ifs <;> rfl

theorem revertCell_edgeList (b : HexBoard) (h : Nat) :
    (revertCell b h).edgeList = (b.setS h HexStatus.EMPTY).edgeList := by
  unfold revertCell HexBoard.setS
  dsimp only
  split_ifs <;> rfl

theorem revertCell_blue (b : HexBoard) (h : Nat) :
    (revertCell b h).blueEdgeList =
      if b.statusAt h = HexStatus.BLUE then b.blueEdgeList.erase h else b.blueEdgeList := by
  unfold revertCell HexBoard.setS HexBoard.statusAt
  dsimp only
  split_ifs <;> rfl

theorem revertCell_red (b : HexBoard) (h : Nat) :
    (revertCell b h).redEdgeList =
      if b.statusAt h = HexStatus.BLUE then b.redEdgeList else b.redEdgeList.erase h := by
  unfold revertCell HexBoard.setS HexBoard.statusAt
  dsimp only
  split_ifs <;> rfl

theorem revertCell_statusAt (b : HexBoard) (h j : Nat) :
    (revertCell b h).statusAt j =
      if h = j ∧ j < b.edgeList.length then HexStatus.EMPTY else b.statusAt j := by
  rw [statusAt_congr (revertCell_edgeList b h), statusAt_setS]

theorem revertCell_length (b : HexBoard) (h : Nat) :
    (revertCell b h).edgeList.length = b.edgeList.length := by
  rw [revertCell_edgeList, setS_length]

theorem revertCell_setInv (b0 b : HexBoard) (h : Nat)
    (hsz : b.size = b0.size) (hlen : b.edgeList.length = b0.cells) (hh : h < b0.cells)
    (hI : SetInv b0 b) : SetInv b0 (revertCell b h) := by
  have hcells : b.cells = b0.cells := by unfold HexBoard.cells; rw [hsz]
  have hAh := hI.agree h (by rw [hcells]; exact hh)
  refine ⟨?_, ?_, ?_⟩
  · intro j hj
    have hj' : j < b.cells := by
      unfold HexBoard.cells at hj ⊢; rw [revertCell_size] at hj; exact hj
    have hA := hI.agree j hj'
    have hjl : j < b.edgeList.length := by rw [hlen, ← hcells]; exact hj'
    rw [revertCell_blue, revertCell_red, revertCell_statusAt]
    by_cases hjh : h = j
    · subst hjh
      by_cases hs : b.statusAt h = HexStatus.BLUE
      · have hr : h ∉ b.redEdgeList := by
          intro hc; have := hA.2.mp hc; rw [hs] at this; cases this
        simp [hs, hjl, hr]
      · have hb : h ∉ b.blueEdgeList := fun hc => hs (hA.1.mp hc)
        simp [hs, hjl, hb]
    · have hjh' : ¬ j = h := fun e => hjh e.symm
      by_cases hs : b.statusAt h = HexStatus.BLUE <;>
        simp [hs, hjh, hjh', hA.1, hA.2, Finset.mem_erase]
  · intro k hk
    have hkc : k ≠ h := by omega
    rw [revertCell_blue]
    split_ifs <;> simp [hkc, hI.outB k hk, Finset.mem_erase]
  · intro k hk
    have hkc : k ≠ h := by omega
    rw [revertCell_red]
    split_ifs <;> simp [hkc, hI.outR k hk, Finset.mem_erase]

theorem revert_fold (L : List Nat) (b : HexBoard) :
    (L.foldl revertCell b).size = b.size ∧
    (L.foldl revertCell b).edgeList.length = b.edgeList.length ∧
    (L.foldl revertCell b).randomized = b.randomized ∧
    (∀ i, (L.foldl revertCell b).statusAt i =
      if i ∈ L ∧ i < b.edgeList.length then HexStatus.EMPTY else b.statusAt i) := by
  induction L generalizing b with
  | nil => simp
  | cons h L ih =>
    obtain ⟨h1, h2, h3, h4⟩ := ih (revertCell b h)
    simp only [List.foldl_cons]
    refine ⟨by rw [h1, revertCell_size], by rw [h2, revertCell_length],
      by rw [h3, revertCell_randomized], ?_⟩
    intro i
    rw [h4, revertCell_statusAt, revertCell_length]
    by_cases hi : i < b.edgeList.length
    · by_cases hiL : i ∈ L
      · simp [hi, hiL]
      · by_cases hih : h = i
        · subst hih; simp [hi]
        · have : ¬ i = h := fun e => hih e.symm
          simp [hi, hiL, hih, this]
    · simp [hi]

theorem revert_fold_occupied (L : List Nat) (b : HexBoard)
    (h1 : L.length ≤ b.occupied) (h2 : b.occupied < 4294967296) :
    (L.foldl revertCell b).occupied = b.occupied - L.length := by
  induction L generalizing b with
  | nil => simp
  | cons h L ih =>
    simp only [List.foldl_cons, List.length_cons] at h1 ⊢
    have h3 : (revertCell b h).occupied = b.occupied - 1 := by
      rw [revertCell_occupied]; exact usub_of_le (by omega) h2
    rw [ih (revertCell b h) (by omega) (by omega), h3]
    omega

theorem revert_fold_setInv (L : List Nat) (b0 b : HexBoard)
    (hsz : b.size = b0.size) (hlen : b.edgeList.length = b0.cells)
    (hin : ∀ h, h ∈ L → h < b0.cells) (hI : SetInv b0 b) :
    SetInv b0 (L.foldl revertCell b) := by
  induction L generalizing b with
  | nil => exact hI
  | cons h L ih =>
    simp only [List.foldl_cons]
    apply ih (revertCell b h) (by rw [revertCell_size]; exact hsz)
      (by rw [revertCell_length]; exact hlen) (fun x hx => hin x (List.mem_cons_of_mem _ hx))
    exact revertCell_setInv b0 b h hsz hlen (hin h (List.mem_cons_self _ _)) hI

theorem Filled.cells_eq {b b' : HexBoard} (hF : Filled b b') : b'.cells = b.cells := by
  unfold HexBoard.cells; rw [hF.size]

theorem Filled.sized {b b' : HexBoard} (hF : Filled b b') (hS : b.Sized) : b'.Sized :=
  ⟨by rw [hF.len, hF.cells_eq]; exact hS.1, by rw [hF.cells_eq]; exact hS.2⟩

theorem Filled.all_nonEmpty {b b' : HexBoard} (hF : Filled b b') (i : Nat) (hi : i < b.cells) :
    b'.statusAt i ≠ HexStatus.EMPTY := by
  by_cases hm : i ∈ b.emptyCells b.cells
  · exact hF.full i hm
  · rw [hF.keep i hm]
    intro he
    exact hm ((mem_emptyCells b _ i).mpr ⟨hi, he⟩)

theorem emptyCells_eq_nil (b : HexBoard) (t : Nat)
    (h : ∀ i, i < t → b.statusAt i ≠ HexStatus.EMPTY) : b.emptyCells t = [] := by
  apply List.eq_nil_iff_forall_not_mem.mpr
  intro i hi
  rw [mem_emptyCells] at hi
  exact h i hi.1 hi.2

theorem SetInv.trans {b b' b'' : HexBoard} (h1 : SetInv b b') (h2 : SetInv b' b'')
    (hc : b'.cells = b.cells) : SetInv b b'' :=
  ⟨h2.agree,
   fun k hk => (h2.outB k (by rw [hc]; exact hk)).trans (h1.outB k hk),
   fun k hk => (h2.outR k (by rw [hc]; exact hk)).trans (h1.outR k hk)⟩

theorem Filled.occupied_eq {b b' : HexBoard} (hF : Filled b b') (hS : b.Sized) :
    b'.occupied = b'.nonEmpty := by
  have h0 : b'.emptyCells b'.edgeList.length = [] := by
    apply emptyCells_eq_nil
    intro i hi
    exact hF.all_nonEmpty i (by rw [hF.len, hS.1] at hi; exact hi)
  have h1 := emptyCells_length_add_nonEmpty b'
  rw [h0, hF.len, hS.1] at h1
  rw [hF.occ]
  simpa using h1.symm

theorem filled_step (b b' : HexBoard) (sh : List HexStatus → List HexStatus)
    (hS : b.Sized) (hF : Filled b b') (hperm : ∀ l, (sh l).Perm l) :
    Filled b (b'.randomize sh) := by
  have hS' := hF.sized hS
  by_cases hL : b'.randomized = []
  · have hE : b.emptyCells b.cells = [] := by rw [← hF.led]; exact hL
    have hE' : b'.emptyCells b'.cells = [] := by
      apply emptyCells_eq_nil
      intro i hi
      exact hF.all_nonEmpty i (by rw [hF.cells_eq] at hi; exact hi)
    obtain ⟨hF2, _⟩ := randomize_fresh b' sh hS' hL (hF.occupied_eq hS) hperm
    refine ⟨by rw [hF2.size, hF.size], by rw [hF2.len, hF.len],
      by rw [hF2.occ, hF.cells_eq], by rw [hF2.led, hE', hE], ?_, ?_⟩
    · intro i hi
      rw [hF2.keep i (by rw [hE']; simp), hF.keep i hi]
    · intro i hi
      rw [hE] at hi; cases hi
  · have hin : ∀ h, h ∈ b'.randomized → h < b'.cells := by
      intro h hh
      rw [hF.led, mem_emptyCells] at hh
      rw [hF.cells_eq]; exact hh.1
    obtain ⟨h1, h2, h3, h4, h5, h6⟩ := randomize_populated b' sh hS' hL
      (by rw [hF.led]; exact emptyCells_nodup _ _) hin hperm
    refine ⟨by rw [h1, hF.size], by rw [h2, hF.len], by rw [h3, hF.cells_eq],
      by rw [h4, hF.led], ?_, ?_⟩
    · intro i hi
      rw [h6 i (by rw [hF.led]; exact hi), hF.keep i hi]
    · intro i hi
      have hm : (b'.randomize sh).statusAt i ∈ sh (b'.randomized.map b'.statusAt) := by
        rw [← h5]; exact List.mem_map_of_mem _ (by rw [hF.led]; exact hi)
      have hm2 := (hperm _).mem_iff.mp hm
      rw [List.mem_map] at hm2
      obtain ⟨c, hc, hce⟩ := hm2
      rw [← hce]
      exact hF.full c (by rw [← hF.led]; exact hc)

theorem filled_step_setInv (b b' : HexBoard) (sh : List HexStatus → List HexStatus)
    (hS : b.Sized) (hF : Filled b b') (hI : SetInv b b') (hperm : ∀ l, (sh l).Perm l) :
    SetInv b (b'.randomize sh) := by
  have hS' := hF.sized hS
  by_cases hL : b'.randomized = []
  · exact hI.trans (randomize_fresh_setInv b' sh hS' hL (hF.occupied_eq hS) hperm hI.agree)
      hF.cells_eq
  · have hin : ∀ h, h ∈ b'.randomized → h < b'.cells ∧ b'.statusAt h ≠ HexStatus.EMPTY := by
      intro h hh
      rw [hF.led] at hh
      refine ⟨?_, hF.full h hh⟩
      rw [mem_emptyCells] at hh
      rw [hF.cells_eq]; exact hh.1
    exact hI.trans (randomize_populated_setInv b' sh hS' hL
      (by rw [hF.led]; exact emptyCells_nodup _ _) hin hI.agree hperm) hF.cells_eq

theorem randomizeN_filled (b : HexBoard) (sh : Nat → List HexStatus → List HexStatus)
    (hS : b.Sized) (hL : b.randomized = []) (hocc : b.occupied = b.nonEmpty)
    (hperm : ∀ j l, (sh j l).Perm l) (k : Nat) :
    Filled b (b.randomizeN sh (k + 1)) := by
  induction k with
  | zero => exact (randomize_fresh b (sh 0) hS hL hocc (hperm 0)).1
  | succ k ih => exact filled_step b _ (sh (k + 1)) hS ih (hperm (k + 1))

theorem randomizeN_setInv (b : HexBoard) (sh : Nat → List HexStatus → List HexStatus)
    (hS : b.Sized) (hL : b.randomized = []) (hocc : b.occupied = b.nonEmpty)
    (hA : b.Agree) (hperm : ∀ j l, (sh j l).Perm l) (k : Nat) :
    SetInv b (b.randomizeN sh (k + 1)) := by
  induction k with
  | zero => exact randomize_fresh_setInv b (sh 0) hS hL hocc (hperm 0) hA
  | succ k ih =>
    exact filled_step_setInv b _ (sh (k + 1)) hS
      (randomizeN_filled b sh hS hL hocc hperm k) ih (hperm (k + 1))

/-! ## Lemmas: the constructor -/

theorem getD_set_hex (l : List Hex) (c idx : Nat) (x d : Hex) :
    (l.set c x).getD idx d = if c = idx ∧ idx < l.length then x else l.getD idx d := by
  simp only [List.getD_eq_getElem?_getD, List.getElem?_set]
  by_cases h : c = idx
  · subst h
    by_cases hl : c < l.length
    · simp [hl]
    · simp [hl, List.getElem?_eq_none (Nat.le_of_not_lt hl)]
  · simp [h]

theorem pushEdge_inv (n c a e : Nat) (cells : List Hex) (he : e < n * n)
    (h : CtorInv n c cells) : CtorInv n c (pushEdge a e cells) := by
  unfold pushEdge
  refine ⟨by rw [List.length_modify]; exact h.len, ?_, ?_⟩
  · intro idx hidx
    rw [getD_modify]
    split
    · exact h.core idx hidx
    · exact h.core idx hidx
  · intro idx x hx
    rw [getD_modify] at hx
    split at hx
    · rcases List.mem_append.mp hx with h1 | h1
      · exact h.edges idx x h1
      · rw [List.mem_singleton.mp h1]; exact he
    · exact h.edges idx x hx

theorem mul_add_lt_sq {n r j : Nat} (hr : r < n) (hj : j < n) : r * n + j < n * n := by
  calc r * n + j < r * n + n := by omega
    _ = (r + 1) * n := by ring
    _ ≤ n * n := Nat.mul_le_mul_right n hr

theorem ctorCell_inv (n r j : Nat) (st : List Hex × Nat) (hr : r < n) (hj : j < n)
    (hc : st.2 = r * n + j) (h : CtorInv n (r * n + j) st.1) :
    CtorInv n (r * n + (j + 1)) (ctorCell r st j).1 ∧ (ctorCell r st j).2 = r * n + (j + 1) := by
  have hlt : r * n + j < n * n := mul_add_lt_sq hr hj
  have hset : CtorInv n (r * n + j + 1) (st.1.set st.2 (Hex.ctor st.2 r j)) := by
    refine ⟨by rw [List.length_set]; exact h.len, ?_, ?_⟩
    · intro idx hidx
      rw [getD_set_hex]
      by_cases hi : st.2 = idx ∧ idx < st.1.length
      · rw [if_pos hi]
        have hidx' : idx = r * n + j := by rw [← hi.1, hc]
        have hn0 : 0 < n := by omega
        refine ⟨hi.1, ?_, ?_⟩
        · show r = idx / n
          rw [hidx', Nat.add_comm, Nat.add_mul_div_right _ _ hn0, Nat.div_eq_of_lt hj]
          omega
        · show j = idx % n
          rw [hidx', Nat.add_comm, Nat.add_mul_mod_self_right, Nat.mod_eq_of_lt hj]
      · rw [if_neg hi]
        apply h.core
        have : idx < st.1.length := by rw [h.len]; omega
        have : st.2 ≠ idx := fun e => hi ⟨e, this⟩
        omega
    · intro idx e he
      rw [getD_set_hex] at he
      split at he
      · cases he
      · exact h.edges idx e he
  refine ⟨?_, by unfold ctorCell; simp only []; omega⟩
  unfold ctorCell
  simp only []
  split
  · apply pushEdge_inv _ _ _ _ _ (by rw [hc]; exact hlt)
    apply pushEdge_inv _ _ _ _ _ (by rw [hc]; omega)
    exact hset
  · exact hset

theorem ctorCell_fold (n r : Nat) (st : List Hex × Nat) (hr : r < n)
    (hc : st.2 = r * n) (h : CtorInv n (r * n) st.1) (j : Nat) (hj : j ≤ n) :
    CtorInv n (r * n + j) ((List.range j).foldl (ctorCell r) st).1 ∧
    ((List.range j).foldl (ctorCell r) st).2 = r * n + j := by
  induction j with
  | zero => exact ⟨h, hc⟩
  | succ j ih =>
    obtain ⟨h1, h2⟩ := ih (Nat.le_of_succ_le hj)
    rw [List.range_succ, List.foldl_append]
    rw [List.foldl_cons, List.foldl_nil]
    have hj' : j < n := hj
    generalize List.foldl (ctorCell r) st (List.range j) = st' at h1 h2 ⊢
    exact ctorCell_inv n r j st' hr hj' h2 h1

theorem ctorLink_inv (n r c k : Nat) (cells : List Hex) (hr0 : 0 < r) (hr : r < n) (hk : k < n)
    (h : CtorInv n c cells) : CtorInv n c (ctorLink n r cells k) := by
  have h1 : k + n * r < n * n := by
    have := mul_add_lt_sq hr hk
    rw [Nat.mul_comm r n] at this; omega
  have h2 : k + n * (r - 1) + 1 < n * n := by
    have hr1 : r - 1 < n := by omega
    have h3 : n * (r - 1) + n = n * r := by
      obtain ⟨r', rfl⟩ : ∃ r', r = r' + 1 := ⟨r - 1, by omega⟩
      simp only [Nat.add_sub_cancel]; ring
    omega
  have h3 : k + n * (r - 1) < n * n := by omega
  unfold ctorLink
  simp only []
  split
  · exact pushEdge_inv _ _ _ _ _ h1 (pushEdge_inv _ _ _ _ _ h2
      (pushEdge_inv _ _ _ _ _ h1 (pushEdge_inv _ _ _ _ _ h3 h)))
  · exact pushEdge_inv _ _ _ _ _ h1 (pushEdge_inv _ _ _ _ _ h3 h)

theorem ctorLink_fold (n r c : Nat) (cells : List Hex) (hr0 : 0 < r) (hr : r < n)
    (h : CtorInv n c cells) (k : Nat) (hk : k ≤ n) :
    CtorInv n c ((List.range k).foldl (ctorLink n r) cells) := by
  induction k with
  | zero => exact h
  | succ k ih =>
    rw [List.range_succ, List.foldl_append]
    rw [List.foldl_cons, List.foldl_nil]
    have hk' : k < n := hk
    have ih' := ih (Nat.le_of_succ_le hk)
    generalize List.foldl (ctorLink n r) cells (List.range k) = X at ih' ⊢
    exact ctorLink_inv n r c k X hr0 hr hk' ih'

theorem ctorRow_inv (n r : Nat) (st : List Hex × Nat) (hr : r < n)
    (hc : st.2 = r * n) (h : CtorInv n (r * n) st.1) :
    CtorInv n ((r + 1) * n) (ctorRow n st r).1 ∧ (ctorRow n st r).2 = (r + 1) * n := by
  obtain ⟨h1, h2⟩ := ctorCell_fold n r st hr hc h n (Nat.le_refl _)
  have e : r * n + n = (r + 1) * n := by ring
  rw [e] at h1 h2
  unfold ctorRow
  generalize List.foldl (ctorCell r) st (List.range n) = st' at h1 h2
  by_cases hpos : r > 0
  · rw [if_pos hpos]
    exact ⟨ctorLink_fold n r ((r + 1) * n) st'.1 hpos hr h1 n (Nat.le_refl _), h2⟩
  · rw [if_neg hpos]
    exact ⟨h1, h2⟩

theorem ctorRow_fold (n : Nat) (hn : n * n < 4294967296) (r : Nat) (hr : r ≤ n) :
    CtorInv n (r * n)
      ((List.range r).foldl (ctorRow n) (List.replicate (u32 (n * n)) (Hex.ctor 0 0 0), 0)).1 ∧
    ((List.range r).foldl (ctorRow n) (List.replicate (u32 (n * n)) (Hex.ctor 0 0 0), 0)).2
      = r * n := by
  induction r with
  | zero =>
    rw [List.range_zero, List.foldl_nil]
    refine ⟨⟨?_, ?_, ?_⟩, by rw [Nat.zero_mul]⟩
    · rw [List.length_replicate, u32_of_lt hn]
    · intro idx hidx; omega
    · intro idx e he
      rw [u32_of_lt hn, List.getD_eq_getElem?_getD, List.getElem?_replicate] at he
      split at he
      · exact absurd he (List.not_mem_nil e)
      · exact absurd he (List.not_mem_nil e)
  | succ r ih =>
    obtain ⟨h1, h2⟩ := ih (Nat.le_of_succ_le hr)
    rw [List.range_succ, List.foldl_append]
    rw [List.foldl_cons, List.foldl_nil]
    have hr' : r < n := hr
    generalize List.foldl (ctorRow n) (List.replicate (u32 (n * n)) (Hex.ctor 0 0 0), 0)
      (List.range r) = st at h1 h2 ⊢
    exact ctorRow_inv n r st hr' h2 h1

theorem ctor_inv (n : Nat) (hn : n * n < 4294967296) :
    CtorInv n (n * n) (HexBoard.ctor n).edgeList :=
  (ctorRow_fold n hn n (Nat.le_refl _)).1

/-- What the topology hypothesis gives about each cell of a board. -/
theorem built_cells (b : HexBoard) (hB : b.Built) :
    b.edgeList.length = b.cells ∧
    (∀ c, c < b.cells → (b.hexAt c).n = c ∧ (b.hexAt c).i = c / b.size ∧
      (b.hexAt c).j = c % b.size) ∧
    (∀ c e, c < b.cells → e ∈ (b.hexAt c).edges → e < b.cells) := by
  have hI := ctor_inv b.size (by have := hB.1; unfold HexBoard.cells at this; omega)
  have hlen : b.edgeList.length = b.cells := by
    have := congrArg List.length hB.2
    rw [List.length_map, hI.len] at this
    exact this
  have hget : ∀ c, c < b.cells →
      (HexBoard.ctor b.size).edgeList.getD c (Hex.ctor 0 0 0)
        = { b.hexAt c with s := HexStatus.EMPTY } := by
    intro c hc
    rw [← hB.2]
    unfold HexBoard.hexAt
    have hc' : c < b.edgeList.length := by rw [hlen]; exact hc
    simp [List.getD_eq_getElem?_getD, List.getElem?_eq_getElem hc']
  refine ⟨hlen, ?_, ?_⟩
  · intro c hc
    have := hI.core c hc
    rw [hget c hc] at this
    exact this
  · intro c e hc he
    have := hI.edges c e
    rw [hget c hc] at this
    exact this he

/-! ## Lemmas: the border loop of `check` -/

theorem checkBorders_eq (b : HexBoard) (B : Bool) (st : List Nat × Finset Nat) (i : Nat) :
    checkBorders b B st i =
      (if b.startIdx B i ∈ b.playerSet B then b.startIdx B i :: st.1 else st.1,
       if b.stopIdx B i ∈ b.playerSet B then insert (b.stopIdx B i) st.2 else st.2) := by
  cases B
  · simp only [checkBorders, HexBoard.startIdx, HexBoard.stopIdx, HexBoard.playerSet,
      Bool.false_eq_true, if_false]
  · simp only [checkBorders, HexBoard.startIdx, HexBoard.stopIdx, HexBoard.playerSet, if_true]

theorem checkBorders_fold (b : HexBoard) (B : Bool) (t : Nat) :
    (∀ x, x ∈ ((List.range t).foldl (checkBorders b B) ([], ∅)).1 ↔
      ∃ i, i < t ∧ x = b.startIdx B i ∧ x ∈ b.playerSet B) ∧
    (∀ x, x ∈ ((List.range t).foldl (checkBorders b B) ([], ∅)).2 ↔
      ∃ i, i < t ∧ x = b.stopIdx B i ∧ x ∈ b.playerSet B) ∧
    ((List.range t).foldl (checkBorders b B) ([], ∅)).1.length ≤ t := by
  induction t with
  | zero =>
    rw [List.range_zero, List.foldl_nil]
    refine ⟨fun x => ⟨fun h => absurd h (List.not_mem_nil x), ?_⟩,
      fun x => ⟨fun h => absurd h (Finset.not_mem_empty x), ?_⟩, Nat.le_refl _⟩
    · rintro ⟨i, hi, _⟩; omega
    · rintro ⟨i, hi, _⟩; omega
  | succ t ih =>
    obtain ⟨h1, h2, h3⟩ := ih
    rw [List.range_succ, List.foldl_append, List.foldl_cons, List.foldl_nil]
    generalize List.foldl (checkBorders b B) ([], ∅) (List.range t) = st at h1 h2 h3 ⊢
    rw [checkBorders_eq]
    refine ⟨?_, ?_, ?_⟩
    · intro x
      show x ∈ (if b.startIdx B t ∈ b.playerSet B then b.startIdx B t :: st.1 else st.1) ↔ _
      constructor
      · intro hx
        split at hx
        · next hm =>
          rcases List.mem_cons.mp hx with h | h
          · exact ⟨t, Nat.lt_succ_self t, h, h ▸ hm⟩
          · obtain ⟨i, hi, hxi⟩ := (h1 x).mp h
            exact ⟨i, Nat.lt_succ_of_lt hi, hxi⟩
        · obtain ⟨i, hi, hxi⟩ := (h1 x).mp hx
          exact ⟨i, Nat.lt_succ_of_lt hi, hxi⟩
      · rintro ⟨i, hi, hxi, hm⟩
        rcases Nat.lt_succ_iff_lt_or_eq.mp hi with h | h
        · have := (h1 x).mpr ⟨i, h, hxi, hm⟩
          split
          · exact List.mem_cons_of_mem _ this
          · exact this
        · subst h
          rw [hxi] at hm
          rw [if_pos hm, hxi]
          exact List.mem_cons_self _ _
    · intro x
      show x ∈ (if b.stopIdx B t ∈ b.playerSet B then insert (b.stopIdx B t) st.2 else st.2) ↔ _
      constructor
      · intro hx
        split at hx
        · next hm =>
          rcases Finset.mem_insert.mp hx with h | h
          · exact ⟨t, Nat.lt_succ_self t, h, h ▸ hm⟩
          · obtain ⟨i, hi, hxi⟩ := (h2 x).mp h
            exact ⟨i, Nat.lt_succ_of_lt hi, hxi⟩
        · obtain ⟨i, hi, hxi⟩ := (h2 x).mp hx
          exact ⟨i, Nat.lt_succ_of_lt hi, hxi⟩
      · rintro ⟨i, hi, hxi, hm⟩
        rcases Nat.lt_succ_iff_lt_or_eq.mp hi with h | h
        · have := (h2 x).mpr ⟨i, h, hxi, hm⟩
          split
          · exact Finset.mem_insert_of_mem this
          · exact this
        · subst h
          rw [hxi] at hm
          rw [if_pos hm, hxi]
          exact Finset.mem_insert_self _ _
    · show (if b.startIdx B t ∈ b.playerSet B then b.startIdx B t :: st.1 else st.1).length ≤ _
      split
      · rw [List.length_cons]; omega
      · omega

theorem border_indices (b : HexBoard) (hc : b.cells < 2147483648) (hn : 1 ≤ b.size) (i : Nat)
    (hi : i < b.size) :
    b.startIdx true i = b.size * (b.size - 1) + i ∧
    b.startIdx false i = i * b.size ∧
    b.stopIdx true i = i ∧
    b.stopIdx false i = i * b.size + b.size - 1 ∧
    b.size * (b.size - 1) + i < b.cells ∧
    i * b.size + b.size - 1 < b.cells := by
  have hsq : b.size * b.size < 2147483648 := hc
  have hle : b.size ≤ b.size * b.size := Nat.le_mul_of_pos_left _ hn
  have h1 : usub b.size 1 = b.size - 1 := usub_of_le hn (by omega)
  have h2 : b.size * (b.size - 1) + b.size = b.size * b.size := by
    obtain ⟨m, hm⟩ : ∃ m, b.size = m + 1 := ⟨b.size - 1, by omega⟩
    rw [hm]; simp only [Nat.add_sub_cancel]; ring
  have h3 : i * b.size + b.size ≤ b.size * b.size := by
    calc i * b.size + b.size = (i + 1) * b.size := by ring
      _ ≤ b.size * b.size := Nat.mul_le_mul_right _ hi
  have h4 : 1 ≤ i * b.size + b.size := by omega
  unfold HexBoard.startIdx HexBoard.stopIdx HexBoard.cells
  simp only [if_true, Bool.false_eq_true, if_false, h1]
  refine ⟨?_, ?_, trivial, ?_, by omega, by omega⟩
  · rw [u32_of_lt (by omega : b.size * (b.size - 1) < 4294967296), u32_of_lt (by omega)]
  · exact u32_of_lt (by omega)
  · rw [u32_of_lt (by omega : i * b.size < 4294967296), u32_of_lt (by omega),
      usub_of_le h4 (by omega)]

/-! ## Lemmas: the depth-first search of `check` -/

theorem unseen_insert (m : Nat) (V q : Finset Nat) (e : Nat) (he : e < m) (hV : e ∉ V)
    (hq : e ∉ q) : unseen m V (insert e q) + 1 = unseen m V q := by
  unfold unseen
  have h1 : (Finset.range m) \ (V ∪ insert e q) = ((Finset.range m) \ (V ∪ q)).erase e := by
    ext x
    simp only [Finset.mem_sdiff, Finset.mem_range, Finset.mem_union, Finset.mem_insert,
      Finset.mem_erase]
    tauto
  have h2 : e ∈ (Finset.range m) \ (V ∪ q) := by
    simp only [Finset.mem_sdiff, Finset.mem_range, Finset.mem_union]
    tauto
  rw [h1, Finset.card_erase_of_mem h2]
  have := Finset.card_pos.mpr ⟨e, h2⟩
  omega

theorem unseen_pop (m : Nat) (V q : Finset Nat) (top : Nat) :
    unseen m (insert top V) (q.erase top) ≤ unseen m V q := by
  unfold unseen
  apply Finset.card_le_card
  intro x
  simp only [Finset.mem_sdiff, Finset.mem_range, Finset.mem_union, Finset.mem_insert,
    Finset.mem_erase]
  tauto

theorem unseen_le (m : Nat) (V q : Finset Nat) : unseen m V q ≤ m := by
  unfold unseen
  calc ((Finset.range m) \ (V ∪ q)).card ≤ (Finset.range m).card :=
        Finset.card_le_card Finset.sdiff_subset
    _ = m := Finset.card_range m

theorem checkEdges_spec (b : HexBoard) (I : HexStatus) (E V : Finset Nat)
    (hn : ∀ e, e < b.cells → (b.hexAt e).n = e) (es : List Nat) :
    ∀ (Q : List Nat) (q : Finset Nat), (∀ e, e ∈ es → e < b.cells) →
      ((checkEdges b I E V es (Q, q, false)).2.2 = true ∧
        ∃ e, e ∈ es ∧ b.statusAt e = I ∧ e ∈ E) ∨
      ((checkEdges b I E V es (Q, q, false)).2.2 = false ∧
        (∀ x, x ∈ (checkEdges b I E V es (Q, q, false)).1 →
          x ∈ Q ∨ (x ∈ es ∧ b.statusAt x = I ∧ x ∉ E)) ∧
        (∀ x, x ∈ Q → x ∈ (checkEdges b I E V es (Q, q, false)).1) ∧
        (∀ x, x ∈ (checkEdges b I E V es (Q, q, false)).2.1 →
          x ∈ q ∨ x ∈ (checkEdges b I E V es (Q, q, false)).1) ∧
        (∀ x, x ∈ q → x ∈ (checkEdges b I E V es (Q, q, false)).2.1) ∧
        (∀ e, e ∈ es → b.statusAt e = I →
          e ∈ V ∨ e ∈ (checkEdges b I E V es (Q, q, false)).2.1) ∧
        (checkEdges b I E V es (Q, q, false)).1.length +
            unseen b.cells V (checkEdges b I E V es (Q, q, false)).2.1
          ≤ Q.length + unseen b.cells V q) := by
  induction es with
  | nil =>
    intro Q q _
    right
    rw [checkEdges]
    exact ⟨rfl, fun x hx => Or.inl hx, fun x hx => hx, fun x hx => Or.inl hx,
      fun x hx => hx, fun e he => absurd he (List.not_mem_nil e), Nat.le_refl _⟩
  | cons e es ih =>
    intro Q q hes
    have he : e < b.cells := hes e (List.mem_cons_self _ _)
    have hes' : ∀ x, x ∈ es → x < b.cells := fun x hx => hes x (List.mem_cons_of_mem _ hx)
    have hne : (b.hexAt e).n = e := hn e he
    have hst : (b.hexAt e).s = b.statusAt e := rfl
    rw [checkEdges]
    simp only [hne, hst]
    by_cases hc : b.statusAt e = I ∧ e ∉ V ∧ e ∉ q
    · rw [if_pos hc]
      by_cases hE : e ∈ E
      · rw [if_pos hE]
        left
        exact ⟨rfl, e, List.mem_cons_self _ _, hc.1, hE⟩
      · rw [if_neg hE]
        rcases ih (e :: Q) (insert e q) hes' with hA | hB
        · left
          obtain ⟨h1, x, hx, h2, h3⟩ := hA
          exact ⟨h1, x, List.mem_cons_of_mem _ hx, h2, h3⟩
        · right
          obtain ⟨h0, h1, h2, h3, h4, h5, h6⟩ := hB
          refine ⟨h0, ?_, ?_, ?_, ?_, ?_, ?_⟩
          · intro x hx
            rcases h1 x hx with h | h
            · rcases List.mem_cons.mp h with h | h
              · right; rw [h]; exact ⟨List.mem_cons_self _ _, hc.1, hE⟩
              · left; exact h
            · right; exact ⟨List.mem_cons_of_mem _ h.1, h.2⟩
          · intro x hx
            exact h2 x (List.mem_cons_of_mem _ hx)
          · intro x hx
            rcases h3 x hx with h | h
            · rcases Finset.mem_insert.mp h with h | h
              · right; rw [h]; exact h2 e (List.mem_cons_self _ _)
              · left; exact h
            · right; exact h
          · intro x hx
            exact h4 x (Finset.mem_insert_of_mem hx)
          · intro x hx hxs
            rcases List.mem_cons.mp hx with h | h
            · right; rw [h]; exact h4 e (Finset.mem_insert_self _ _)
            · exact h5 x h hxs
          · have := unseen_insert b.cells V q e he hc.2.1 hc.2.2
            simp only [List.length_cons] at h6
            omega
    · rw [if_neg hc]
      rcases ih Q q hes' with hA | hB
      · left
        obtain ⟨h1, x, hx, h2, h3⟩ := hA
        exact ⟨h1, x, List.mem_cons_of_mem _ hx, h2, h3⟩
      · right
        obtain ⟨h0, h1, h2, h3, h4, h5, h6⟩ := hB
        refine ⟨h0, ?_, h2, h3, h4, ?_, h6⟩
        · intro x hx
          rcases h1 x hx with h | h
          · left; exact h
          · right; exact ⟨List.mem_cons_of_mem _ h.1, h.2⟩
        · intro x hx hxs
          rcases List.mem_cons.mp hx with h | h
          · subst h
            by_cases hv : x ∈ V
            · left; exact hv
            · right
              apply h4
              by_contra hq
              exact hc ⟨hxs, hv, hq⟩
          · exact h5 x h hxs

theorem checkWhile_true (b : HexBoard) (I : HexStatus) (E : Finset Nat) (fuel : Nat)
    (Q : List Nat) (V q : Finset Nat) :
    checkWhile b I E (fuel + 1) Q V q true = some true := by
  cases Q with
  | nil => rw [checkWhile]
  | cons top rest => rw [checkWhile]; simp

theorem reach_step {b : HexBoard} {I : HexStatus} {S : List Nat} {u e : Nat}
    (hu : b.Reach I S u) (he : e ∈ (b.hexAt u).edges) (hs : b.statusAt e = I) :
    b.Reach I S e := by
  obtain ⟨c, hc, hp⟩ := hu
  exact ⟨c, hc, hp.tail ⟨he, hs⟩⟩

theorem reach_mem_of_closed {b : HexBoard} {I : HexStatus} {S : List Nat} {E V q : Finset Nat}
    (h : DfsInv b I S E [] V q) (x : Nat) (hx : b.Reach I S x) : x ∈ V := by
  obtain ⟨c, hc, hp⟩ := hx
  induction hp with
  | refl =>
    rcases h.seeds c hc with h1 | h1
    · exact h1
    · cases h1
  | tail _ hstep ih =>
    rcases h.closed _ ih _ hstep.1 hstep.2 with h1 | h1
    · exact h1
    · cases h1

theorem checkWhile_spec (b : HexBoard) (I : HexStatus) (S : List Nat) (E : Finset Nat)
    (hn : ∀ e, e < b.cells → (b.hexAt e).n = e)
    (hedges : ∀ u, u < b.cells → ∀ e, e ∈ (b.hexAt u).edges → e < b.cells) (fuel : Nat) :
    ∀ (Q : List Nat) (V q : Finset Nat), DfsInv b I S E Q V q →
      Q.length + unseen b.cells V q < fuel →
      (checkWhile b I E fuel Q V q false = some true ∧
        ∃ g, g ∈ E ∧ b.statusAt g = I ∧ b.Reach I S g) ∨
      (checkWhile b I E fuel Q V q false = some false ∧ ∀ g, g ∈ E → ¬ b.Reach I S g) := by
  induction fuel with
  | zero => intro Q V q _ h; omega
  | succ fuel ih =>
    intro Q V q hinv hfuel
    cases Q with
    | nil =>
      right
      refine ⟨by rw [checkWhile], ?_⟩
      intro g hg hr
      exact hinv.notGoal g (Or.inl (reach_mem_of_closed hinv g hr)) hg
    | cons top rest =>
      rw [checkWhile]
      simp only [Bool.false_eq_true, if_false]
      have htop : top < b.cells := hinv.bound top (List.mem_cons_self _ _)
      have hrtop : b.Reach I S top := hinv.reach top (Or.inr (List.mem_cons_self _ _))
      have hpop := unseen_pop b.cells V q top
      simp only [List.length_cons] at hfuel
      rcases checkEdges_spec b I E (insert top V) hn (b.hexAt top).edges rest (q.erase top)
        (hedges top htop) with hA | hB
      · left
        obtain ⟨hw, e, he, hs, hE⟩ := hA
        rw [hw]
        obtain ⟨f, rfl⟩ : ∃ f, fuel = f + 1 := ⟨fuel - 1, by omega⟩
        exact ⟨checkWhile_true b I E f _ _ _, e, hE, hs, reach_step hrtop he hs⟩
      · obtain ⟨hw, h1, h2, h3, h4, h5, h6⟩ := hB
        rw [hw]
        generalize (checkEdges b I E (insert top V) (b.hexAt top).edges
          (rest, q.erase top, false)).1 = Q' at h1 h2 h3 h6
        generalize (checkEdges b I E (insert top V) (b.hexAt top).edges
          (rest, q.erase top, false)).2.1 = q' at h3 h4 h5 h6
        have hq' : ∀ x, x ∈ q' → x ∈ insert top V ∨ x ∈ Q' := by
          intro x hx
          rcases h3 x hx with h | h
          · have hxq := Finset.mem_of_mem_erase h
            have hxt := Finset.ne_of_mem_erase h
            rcases hinv.queued x hxq with h | h
            · left; exact Finset.mem_insert_of_mem h
            · rcases List.mem_cons.mp h with h | h
              · exact absurd h hxt
              · right; exact h2 x h
          · right; exact h
        have hold : ∀ x, x ∈ V ∨ x ∈ top :: rest → x ∈ insert top V ∨ x ∈ Q' := by
          intro x hx
          rcases hx with h | h
          · left; exact Finset.mem_insert_of_mem h
          · rcases List.mem_cons.mp h with h | h
            · left; rw [h]; exact Finset.mem_insert_self _ _
            · right; exact h2 x h
        have hnew : ∀ x, x ∈ insert top V ∨ x ∈ Q' →
            (x ∈ V ∨ x ∈ top :: rest) ∨
              (x ∈ (b.hexAt top).edges ∧ b.statusAt x = I ∧ x ∉ E) := by
          intro x hx
          rcases hx with h | h
          · rcases Finset.mem_insert.mp h with h | h
            · left; right; rw [h]; exact List.mem_cons_self _ _
            · left; left; exact h
          · rcases h1 x h with h | h
            · left; right; exact List.mem_cons_of_mem _ h
            · right; exact h
        apply ih Q' (insert top V) q' _ (by omega)
        refine ⟨?_, ?_, hq', ?_, ?_, ?_⟩
        · intro c hc
          exact hold c (hinv.seeds c hc)
        · intro u hu e he hs
          rcases Finset.mem_insert.mp hu with h | h
          · rw [h] at he
            rcases h5 e he hs with h | h
            · left; exact h
            · exact hq' e h
          · exact hold e (hinv.closed u h e he hs)
        · intro x hx
          rcases hnew x hx with h | h
          · exact hinv.reach x h
          · exact reach_step hrtop h.1 h.2.1
        · intro x hx
          rcases hnew x hx with h | h
          · exact hinv.notGoal x h
          · exact h.2.2
        · intro x hx
          rcases h1 x hx with h | h
          · exact hinv.bound x (List.mem_cons_of_mem _ h)
          · exact hedges top htop x h.1

/-! ## Lemmas: seeds and end nodes of `check` -/

theorem status_of_player (p : Player) :
    (if decide (p = Player.BLUE) then HexStatus.BLUE else HexStatus.RED) = p.status := by
  cases p <;> rfl

theorem div_mod_of_row (n r j : Nat) (hj : j < n) :
    (r * n + j) / n = r ∧ (r * n + j) % n = j := by
  have hn0 : 0 < n := by omega
  constructor
  · rw [Nat.add_comm, Nat.add_mul_div_right _ _ hn0, Nat.div_eq_of_lt hj]; omega
  · rw [Nat.add_comm, Nat.add_mul_mod_self_right, Nat.mod_eq_of_lt hj]

theorem row_col_decomp (n x : Nat) : x = (x / n) * n + x % n := by
  have := Nat.div_add_mod x n
  rw [Nat.mul_comm] at this
  omega

theorem seeds_iff (b : HexBoard) (p : Player) (hB : b.Built) (hA : b.Agree) (hn : 1 ≤ b.size)
    (x : Nat) :
    x ∈ ((List.range b.size).foldl (checkBorders b (decide (p = Player.BLUE))) ([], ∅)).1 ↔
      b.onStart p x ∧ b.statusAt x = p.status := by
  obtain ⟨_, hcore, _⟩ := built_cells b hB
  rw [(checkBorders_fold b _ b.size).1 x]
  cases p with
  | BLUE =>
    simp only [decide_True]
    constructor
    · rintro ⟨i, hi, hx, hm⟩
      obtain ⟨h1, _, _, _, h5, _⟩ := border_indices b hB.1 hn i hi
      rw [h1] at hx
      have hxc : x < b.cells := by rw [hx]; exact h5
      have hrow : x / b.size = b.size - 1 := by
        rw [hx, Nat.mul_comm]; exact (div_mod_of_row b.size (b.size - 1) i hi).1
      refine ⟨⟨hxc, ?_⟩, ((hA x hxc).1.mp hm)⟩
      show (b.hexAt x).i + 1 = b.size
      rw [(hcore x hxc).2.1, hrow]; omega
    · rintro ⟨⟨hxc, hrow⟩, hs⟩
      have hrow' : (b.hexAt x).i + 1 = b.size := hrow
      rw [(hcore x hxc).2.1] at hrow'
      have hmod : x % b.size < b.size := Nat.mod_lt _ (by omega)
      obtain ⟨h1, _, _, _, _, _⟩ := border_indices b hB.1 hn (x % b.size) hmod
      refine ⟨x % b.size, hmod, ?_, (hA x hxc).1.mpr hs⟩
      rw [h1]
      have hd := row_col_decomp b.size x
      have hq : x / b.size = b.size - 1 := by omega
      rw [hq, Nat.mul_comm] at hd
      exact hd
  | RED =>
    have hdec : decide (Player.RED = Player.BLUE) = false := by decide
    simp only [hdec]
    constructor
    · rintro ⟨i, hi, hx, hm⟩
      obtain ⟨_, h2, _, _, _, h6⟩ := border_indices b hB.1 hn i hi
      rw [h2] at hx
      have hxc : x < b.cells := by rw [hx]; omega
      have hcol : x % b.size = 0 := by
        have := (div_mod_of_row b.size i 0 (by omega)).2
        rw [hx]; simpa using this
      refine ⟨⟨hxc, ?_⟩, ((hA x hxc).2.mp hm)⟩
      show (b.hexAt x).j = 0
      rw [(hcore x hxc).2.2, hcol]
    · rintro ⟨⟨hxc, hcol⟩, hs⟩
      have hcol' : (b.hexAt x).j = 0 := hcol
      rw [(hcore x hxc).2.2] at hcol'
      have hdiv : x / b.size < b.size := by
        apply Nat.div_lt_of_lt_mul
        exact hxc
      obtain ⟨_, h2, _, _, _, _⟩ := border_indices b hB.1 hn (x / b.size) hdiv
      refine ⟨x / b.size, hdiv, ?_, (hA x hxc).2.mpr hs⟩
      rw [h2]
      have hd := row_col_decomp b.size x
      omega

theorem ends_iff (b : HexBoard) (p : Player) (hB : b.Built) (hA : b.Agree) (hn : 1 ≤ b.size)
    (x : Nat) :
    x ∈ ((List.range b.size).foldl (checkBorders b (decide (p = Player.BLUE))) ([], ∅)).2 ↔
      b.onGoal p x ∧ b.statusAt x = p.status := by
  obtain ⟨_, hcore, _⟩ := built_cells b hB
  rw [(checkBorders_fold b _ b.size).2.1 x]
  have hle : b.size ≤ b.cells := Nat.le_mul_of_pos_left _ hn
  cases p with
  | BLUE =>
    simp only [decide_True]
    constructor
    · rintro ⟨i, hi, hx, hm⟩
      obtain ⟨_, _, h3, _, _, _⟩ := border_indices b hB.1 hn i hi
      rw [h3] at hx
      have hxc : x < b.cells := by omega
      refine ⟨⟨hxc, ?_⟩, ((hA x hxc).1.mp hm)⟩
      show (b.hexAt x).i = 0
      rw [(hcore x hxc).2.1, hx]
      exact Nat.div_eq_of_lt hi
    · rintro ⟨⟨hxc, hrow⟩, hs⟩
      have hrow' : (b.hexAt x).i = 0 := hrow
      rw [(hcore x hxc).2.1] at hrow'
      have hx : x < b.size := by
        have hd := row_col_decomp b.size x
        have hmod : x % b.size < b.size := Nat.mod_lt _ (by omega)
        rw [hrow'] at hd
        omega
      obtain ⟨_, _, h3, _, _, _⟩ := border_indices b hB.1 hn x hx
      exact ⟨x, hx, h3.symm, (hA x hxc).1.mpr hs⟩
  | RED =>
    have hdec : decide (Player.RED = Player.BLUE) = false := by decide
    simp only [hdec]
    constructor
    · rintro ⟨i, hi, hx, hm⟩
      obtain ⟨_, _, _, h4, _, h6⟩ := border_indices b hB.1 hn i hi
      rw [h4] at hx
      have hxc : x < b.cells := by rw [hx]; exact h6
      have hx' : x = i * b.size + (b.size - 1) := by omega
      have hcol : x % b.size = b.size - 1 := by
        rw [hx']; exact (div_mod_of_row b.size i (b.size - 1) (by omega)).2
      refine ⟨⟨hxc, ?_⟩, ((hA x hxc).2.mp hm)⟩
      show (b.hexAt x).j + 1 = b.size
      rw [(hcore x hxc).2.2, hcol]; omega
    · rintro ⟨⟨hxc, hcol⟩, hs⟩
      have hcol' : (b.hexAt x).j + 1 = b.size := hcol
      rw [(hcore x hxc).2.2] at hcol'
      have hdiv : x / b.size < b.size := by
        apply Nat.div_lt_of_lt_mul
        exact hxc
      obtain ⟨_, _, _, h4, _, _⟩ := border_indices b hB.1 hn (x / b.size) hdiv
      refine ⟨x / b.size, hdiv, ?_, (hA x hxc).2.mpr hs⟩
      rw [h4]
      have hd := row_col_decomp b.size x
      omega

theorem start_not_goal (b : HexBoard) (p : Player) (hB : b.Built) (hn : 2 ≤ b.size) (x : Nat)
    (hs : b.onStart p x) (hg : b.onGoal p x) : False := by
  cases p with
  | BLUE =>
    have h1 : (b.hexAt x).i + 1 = b.size := hs.2
    have h2 : (b.hexAt x).i = 0 := hg.2
    omega
  | RED =>
    have h1 : (b.hexAt x).j = 0 := hs.2
    have h2 : (b.hexAt x).j + 1 = b.size := hg.2
    omega

/-- With enough fuel the embedded `check` returns, and its result says whether a winning
path exists. -/
theorem checkFuel_spec (b : HexBoard) (p : Player) (hB : b.Built) (hA : b.Agree)
    (hn : 2 ≤ b.size) (fuel : Nat) (hf : b.checkBound ≤ fuel) :
    (b.checkFuel p fuel = some true ∧ b.WinPath p) ∨
    (b.checkFuel p fuel = some false ∧ ¬ b.WinPath p) := by
  obtain ⟨_, hcore, hedges⟩ := built_cells b hB
  have hS := seeds_iff b p hB hA (by omega)
  have hE := ends_iff b p hB hA (by omega)
  have hlen := (checkBorders_fold b (decide (p = Player.BLUE)) b.size).2.2
  unfold HexBoard.checkFuel
  simp only [status_of_player]
  generalize (List.range b.size).foldl (checkBorders b (decide (p = Player.BLUE))) ([], ∅)
    = st at hS hE hlen
  by_cases hcond : st.1 ≠ [] ∧ st.2.card > 0
  · rw [if_pos hcond]
    have hinv : DfsInv b p.status st.1 st.2 st.1 ∅ ∅ := by
      refine ⟨fun c hc => Or.inr hc, ?_, ?_, ?_, ?_, ?_⟩
      · intro u hu; exact absurd hu (Finset.not_mem_empty u)
      · intro x hx; exact absurd hx (Finset.not_mem_empty x)
      · intro x hx
        rcases hx with h | h
        · exact absurd h (Finset.not_mem_empty x)
        · exact ⟨x, h, Relation.ReflTransGen.refl⟩
      · intro x hx hxe
        rcases hx with h | h
        · exact absurd h (Finset.not_mem_empty x)
        · exact start_not_goal b p hB hn x ((hS x).mp h).1 ((hE x).mp hxe).1
      · intro x hx
        exact ((hS x).mp hx).1.1
    have hmeas : st.1.length + unseen b.cells ∅ ∅ < fuel := by
      have := unseen_le b.cells ∅ ∅
      unfold HexBoard.checkBound at hf
      unfold HexBoard.cells at this ⊢
      omega
    rcases checkWhile_spec b p.status st.1 st.2 (fun e he => (hcore e he).1)
      (fun u hu e he => hedges u e hu he) fuel st.1 ∅ ∅ hinv hmeas with hA' | hB'
    · left
      obtain ⟨h1, g, hg, _, c, hc, hpath⟩ := hA'
      exact ⟨h1, c, g, ((hS c).mp hc).1, ((hS c).mp hc).2, ((hE g).mp hg).1,
        ((hE g).mp hg).2, hpath⟩
    · right
      obtain ⟨h1, h2⟩ := hB'
      refine ⟨h1, ?_⟩
      rintro ⟨s, g, hs1, hs2, hg1, hg2, hpath⟩
      exact h2 g ((hE g).mpr ⟨hg1, hg2⟩) ⟨s, (hS s).mpr ⟨hs1, hs2⟩, hpath⟩
  · rw [if_neg hcond]
    right
    refine ⟨rfl, ?_⟩
    rintro ⟨s, g, hs1, hs2, hg1, hg2, _⟩
    apply hcond
    constructor
    · intro he
      have := (hS s).mpr ⟨hs1, hs2⟩
      rw [he] at this
      exact absurd this (List.not_mem_nil s)
    · exact Finset.card_pos.mpr ⟨g, (hE g).mpr ⟨hg1, hg2⟩⟩

theorem check_spec (b : HexBoard) (p : Player) (hB : b.Built) (hA : b.Agree)
    (hn : 2 ≤ b.size) : (b.check p = true ↔ b.WinPath p) := by
  unfold HexBoard.check
  rcases checkFuel_spec b p hB hA hn b.checkBound (Nat.le_refl _) with h | h
  · rw [h.1]; simp [h.2]
  · rw [h.1]; simp [h.2]

/-! ## Lemmas: bounds, legality, `move` and `undo` -/

theorem usub_one_of_pos {x : Nat} (h0 : 1 ≤ x) (hx : x < 4294967296) : usub x 1 = x - 1 :=
  usub_of_le h0 hx

theorem usub_one_zero : usub 0 1 = 4294967295 := by
  unfold usub u32 U32
  norm_num

theorem isOOB_eq_false_iff (b : HexBoard) (x y : Nat) :
    b.isOOB x y = false ↔ usub x 1 < b.size ∧ usub y 1 < b.size := by
  unfold HexBoard.isOOB
  simp

theorem size_lt_of_sized (b : HexBoard) (hS : b.Sized) : b.size < 2147483648 := by
  have h := hS.2
  unfold HexBoard.cells at h
  rcases Nat.eq_zero_or_pos b.size with h0 | h0
  · omega
  · have : b.size ≤ b.size * b.size := Nat.le_mul_of_pos_left _ h0
    omega

theorem cellIndex_of_inBounds (b : HexBoard) (hS : b.Sized) (x y : Nat)
    (h : b.isOOB x y = false) :
    b.cellIndex x y = usub x 1 * b.size + usub y 1 ∧ b.cellIndex x y < b.cells := by
  obtain ⟨h1, h2⟩ := (isOOB_eq_false_iff b x y).mp h
  have hlt : usub x 1 * b.size + usub y 1 < b.size * b.size := mul_add_lt_sq h1 h2
  have hc := hS.2
  unfold HexBoard.cells at hc ⊢
  have hm : usub x 1 * b.size < 4294967296 := by omega
  unfold HexBoard.cellIndex
  rw [u32_of_lt hm, u32_of_lt (by omega)]
  exact ⟨rfl, hlt⟩

theorem inBounds_iff_coords (b : HexBoard) (hS : b.Sized) (x y : Nat)
    (hx : x < 4294967296) (hy : y < 4294967296) :
    b.isOOB x y = false ↔ (1 ≤ x ∧ x ≤ b.size ∧ 1 ≤ y ∧ y ≤ b.size) := by
  have hsz := size_lt_of_sized b hS
  rw [isOOB_eq_false_iff]
  rcases Nat.eq_zero_or_pos x with hx0 | hx0
  · subst hx0
    rw [usub_one_zero]
    constructor
    · intro h; omega
    · intro h; omega
  · rcases Nat.eq_zero_or_pos y with hy0 | hy0
    · subst hy0
      rw [usub_one_zero]
      constructor
      · intro h; omega
      · intro h; omega
    · rw [usub_one_of_pos hx0 hx, usub_one_of_pos hy0 hy]
      constructor
      · intro h; omega
      · intro h; omega

theorem isLegal_eq_true_iff (b : HexBoard) (x y : Nat) :
    b.isLegal x y = true ↔
      b.isOOB x y = false ∧ b.statusAt (b.cellIndex x y) = HexStatus.EMPTY := by
  unfold HexBoard.isLegal HexBoard.isEmpty HexBoard.statusAt
  simp

theorem hexAt_congr {b b' : HexBoard} (h : b'.edgeList = b.edgeList) (i : Nat) :
    b'.hexAt i = b.hexAt i := by
  unfold HexBoard.hexAt
  rw [h]

theorem setS_size (b : HexBoard) (i : Nat) (s : HexStatus) : (b.setS i s).size = b.size := by
  unfold HexBoard.setS
  rfl

theorem setS_occupied (b : HexBoard) (i : Nat) (s : HexStatus) :
    (b.setS i s).occupied = b.occupied := by
  unfold HexBoard.setS
  rfl

theorem setS_last (b : HexBoard) (i : Nat) (s : HexStatus) : (b.setS i s).last = b.last := by
  unfold HexBoard.setS
  rfl

theorem setS_blue (b : HexBoard) (i : Nat) (s : HexStatus) :
    (b.setS i s).blueEdgeList = b.blueEdgeList := by
  unfold HexBoard.setS
  rfl

theorem setS_red (b : HexBoard) (i : Nat) (s : HexStatus) :
    (b.setS i s).redEdgeList = b.redEdgeList := by
  unfold HexBoard.setS
  rfl

theorem setS_randomized (b : HexBoard) (i : Nat) (s : HexStatus) :
    (b.setS i s).randomized = b.randomized := by
  unfold HexBoard.setS
  rfl

theorem setS_gwins (b : HexBoard) (i : Nat) (s : HexStatus) : (b.setS i s).gwins = b.gwins := by
  unfold HexBoard.setS
  rfl

theorem move_of_legal (b : HexBoard) (p : Player) (x y : Nat) (h : b.isLegal x y = true) :
    (b.move p x y).size = b.size ∧
    (b.move p x y).edgeList = (b.setS (b.cellIndex x y) p.status).edgeList ∧
    (b.move p x y).blueEdgeList =
      (if p = Player.BLUE then insert (b.cellIndex x y) b.blueEdgeList else b.blueEdgeList) ∧
    (b.move p x y).redEdgeList =
      (if p = Player.BLUE then b.redEdgeList else insert (b.cellIndex x y) b.redEdgeList) ∧
    (b.move p x y).occupied = u32 (b.occupied + 1) ∧
    (b.move p x y).randomized = [] ∧
    (b.move p x y).last = p ∧
    (b.move p x y).gwins = b.gwins := by
  unfold HexBoard.move
  rw [if_pos h]
  cases p
  · simp only [eq_self_iff_true, if_true, setS_size, setS_occupied, setS_last, setS_blue,
      setS_red, setS_randomized, setS_gwins, and_self]
  · simp only [reduceCtorEq, if_false, setS_size, setS_occupied, setS_last, setS_blue,
      setS_red, setS_randomized, setS_gwins, and_self]

theorem move_of_illegal (b : HexBoard) (p : Player) (x y : Nat) (h : b.isLegal x y = false) :
    b.move p x y = b := by
  unfold HexBoard.move
  rw [h]
  rfl

theorem hexAt_setS_same (b : HexBoard) (i : Nat) (s : HexStatus) :
    ((b.setS i s).hexAt i).s = HexStatus.EMPTY → s = HexStatus.EMPTY ∨ b.edgeList.length ≤ i := by
  intro h
  rw [hexAt_setS] at h
  by_cases hi : i < b.edgeList.length
  · rw [if_pos ⟨rfl, hi⟩] at h
    exact Or.inl h
  · exact Or.inr (Nat.le_of_not_lt hi)

theorem undoAt_fields (b : HexBoard) (p : Player) (idx : Nat) :
    (b.undoAt p idx).size = b.size ∧
    (b.undoAt p idx).edgeList = (b.setS idx HexStatus.EMPTY).edgeList ∧
    (b.undoAt p idx).blueEdgeList = b.blueEdgeList ∧
    (b.undoAt p idx).redEdgeList = b.redEdgeList ∧
    (b.undoAt p idx).occupied = usub b.occupied 1 ∧
    (b.undoAt p idx).randomized = b.randomized ∧
    (b.undoAt p idx).last = b.last ∧
    (b.undoAt p idx).gwins = b.gwins := by
  have hs : ((b.setS idx HexStatus.EMPTY).hexAt idx).s = HexStatus.EMPTY := by
    rw [hexAt_setS]
    split
    · rfl
    · next hn =>
      have hle : b.edgeList.length ≤ idx := by
        by_contra hc
        exact hn ⟨rfl, Nat.lt_of_not_le hc⟩
      exact statusAt_oob b idx hle
  have hh : ∀ b' : HexBoard, b'.edgeList = (b.setS idx HexStatus.EMPTY).edgeList →
      (b'.hexAt idx).s = HexStatus.EMPTY := by
    intro b' e
    rw [hexAt_congr e, hs]
  unfold HexBoard.undoAt
  dsimp only
  split_ifs with h1 h2
  · exfalso
    have h : HexStatus.EMPTY = HexStatus.BLUE := (hh _ (by rfl)).symm.trans h1.2
    cases h
  · exfalso
    have h : HexStatus.EMPTY = HexStatus.RED := (hh _ (by rfl)).symm.trans h2.2
    cases h
  · simp only [setS_size, setS_occupied, setS_last, setS_blue, setS_red, setS_randomized,
      setS_gwins, and_self]

theorem undo_of_occupied (b : HexBoard) (p : Player) (x y : Nat)
    (h1 : b.isOOB x y = false) (h2 : b.statusAt (b.cellIndex x y) ≠ HexStatus.EMPTY) :
    b.undo p x y = b.undoAt p (b.cellIndex x y) := by
  unfold HexBoard.undo HexBoard.isEmpty
  revert h2
  generalize b.cellIndex x y = idx
  intro h2
  have h2' : ¬ (b.hexAt idx).s = HexStatus.EMPTY := h2
  have hcond : (!b.isOOB x y && !decide ((b.hexAt idx).s = HexStatus.EMPTY)) = true := by
    rw [h1]; simp [h2']
  rw [if_pos hcond]

theorem undo_of_not (b : HexBoard) (p : Player) (x y : Nat)
    (h : b.isOOB x y = true ∨ b.statusAt (b.cellIndex x y) = HexStatus.EMPTY) :
    b.undo p x y = b := by
  unfold HexBoard.undo HexBoard.isEmpty
  revert h
  generalize b.cellIndex x y = idx
  intro h
  have hcond : (!b.isOOB x y && !decide ((b.hexAt idx).s = HexStatus.EMPTY)) = false := by
    rcases h with h | h
    · rw [h]; rfl
    · have h' : (b.hexAt idx).s = HexStatus.EMPTY := h
      simp [h']
  rw [hcond]
  rfl

theorem usub_one_inj {x x' : Nat} (hx : x < 4294967296) (hx' : x' < 4294967296)
    (h : usub x 1 = usub x' 1) : x = x' := by
  unfold usub u32 U32 at h
  omega

theorem isOOB_congr {b b' : HexBoard} (h : b'.size = b.size) (x y : Nat) :
    b'.isOOB x y = b.isOOB x y := by
  unfold HexBoard.isOOB
  rw [h]

theorem cellIndex_congr {b b' : HexBoard} (h : b'.size = b.size) (x y : Nat) :
    b'.cellIndex x y = b.cellIndex x y := by
  unfold HexBoard.cellIndex
  rw [h]

theorem isLegal_eq (b : HexBoard) (x y : Nat) :
    b.isLegal x y = (!b.isOOB x y && decide (b.statusAt (b.cellIndex x y) = HexStatus.EMPTY)) := by
  unfold HexBoard.isLegal HexBoard.isEmpty HexBoard.statusAt
  rfl

theorem cellIndex_inj (b : HexBoard) (hS : b.Sized) (x y x' y' : Nat)
    (hx : x < 4294967296) (hy : y < 4294967296) (hx' : x' < 4294967296) (hy' : y' < 4294967296)
    (h1 : b.isOOB x y = false) (h2 : b.isOOB x' y' = false)
    (h : b.cellIndex x y = b.cellIndex x' y') : x = x' ∧ y = y' := by
  obtain ⟨a1, a2⟩ := (isOOB_eq_false_iff b x y).mp h1
  obtain ⟨c1, c2⟩ := (isOOB_eq_false_iff b x' y').mp h2
  rw [(cellIndex_of_inBounds b hS x y h1).1, (cellIndex_of_inBounds b hS x' y' h2).1] at h
  have d1 := div_mod_of_row b.size (usub x 1) (usub y 1) a2
  have d2 := div_mod_of_row b.size (usub x' 1) (usub y' 1) c2
  rw [h] at d1
  exact ⟨usub_one_inj hx hx' (d1.1.symm.trans d2.1), usub_one_inj hy hy' (d1.2.symm.trans d2.2)⟩

theorem move_statusAt (b : HexBoard) (p : Player) (x y : Nat) (h : b.isLegal x y = true)
    (j : Nat) :
    (b.move p x y).statusAt j =
      if b.cellIndex x y = j ∧ j < b.edgeList.length then p.status else b.statusAt j := by
  rw [statusAt_congr (move_of_legal b p x y h).2.1, statusAt_setS]

theorem status_ne_empty (p : Player) : p.status ≠ HexStatus.EMPTY := by
  cases p <;> decide

theorem undoAt_statusAt (b : HexBoard) (p : Player) (idx j : Nat) :
    (b.undoAt p idx).statusAt j =
      if idx = j ∧ j < b.edgeList.length then HexStatus.EMPTY else b.statusAt j := by
  rw [statusAt_congr (undoAt_fields b p idx).2.1, statusAt_setS]

theorem usub_succ_one {n : Nat} (h : n < 4294967296) : usub (u32 (n + 1)) 1 = n := by
  unfold usub u32 U32
  omega

/-! ## Lemmas: statuses laid down by the constructor -/

theorem foldl_preserves {α β : Type} (P : α → Prop) (f : α → β → α)
    (hf : ∀ a x, P a → P (f a x)) (l : List β) (a : α) (h : P a) : P (l.foldl f a) := by
  induction l generalizing a with
  | nil => exact h
  | cons x l ih => exact ih (f a x) (hf a x h)

theorem pushEdge_status (a e : Nat) (cells : List Hex)
    (h : ∀ idx, (cells.getD idx (Hex.ctor 0 0 0)).s = HexStatus.EMPTY) :
    ∀ idx, ((pushEdge a e cells).getD idx (Hex.ctor 0 0 0)).s = HexStatus.EMPTY := by
  intro idx
  unfold pushEdge
  rw [getD_modify]
  split
  · exact h idx
  · exact h idx

theorem ctorCell_status (i : Nat) (st : List Hex × Nat) (j : Nat)
    (h : ∀ idx, (st.1.getD idx (Hex.ctor 0 0 0)).s = HexStatus.EMPTY) :
    ∀ idx, ((ctorCell i st j).1.getD idx (Hex.ctor 0 0 0)).s = HexStatus.EMPTY := by
  have hset : ∀ idx, ((st.1.set st.2 (Hex.ctor st.2 i j)).getD idx (Hex.ctor 0 0 0)).s
      = HexStatus.EMPTY := by
    intro idx
    rw [getD_set_hex]
    split
    · rfl
    · exact h idx
  unfold ctorCell
  dsimp only
  split_ifs
  · exact pushEdge_status _ _ _ (pushEdge_status _ _ _ hset)
  · exact hset

theorem ctorLink_status (size i : Nat) (cells : List Hex) (k : Nat)
    (h : ∀ idx, (cells.getD idx (Hex.ctor 0 0 0)).s = HexStatus.EMPTY) :
    ∀ idx, ((ctorLink size i cells k).getD idx (Hex.ctor 0 0 0)).s = HexStatus.EMPTY := by
  have h2 := pushEdge_status (k + size * (i - 1)) (k + size * i) _
    (pushEdge_status (k + size * i) (k + size * (i - 1)) _ h)
  unfold ctorLink
  dsimp only
  split_ifs
  · exact pushEdge_status _ _ _ (pushEdge_status _ _ _ h2)
  · exact h2

theorem ctorRow_status (size : Nat) (st : List Hex × Nat) (i : Nat)
    (h : ∀ idx, (st.1.getD idx (Hex.ctor 0 0 0)).s = HexStatus.EMPTY) :
    ∀ idx, ((ctorRow size st i).1.getD idx (Hex.ctor 0 0 0)).s = HexStatus.EMPTY := by
  have h1 := foldl_preserves
    (fun s : List Hex × Nat => ∀ idx, (s.1.getD idx (Hex.ctor 0 0 0)).s = HexStatus.EMPTY)
    (ctorCell i) (fun a x ha => ctorCell_status i a x ha) (List.range size) st h
  unfold ctorRow
  dsimp only
  split_ifs
  · exact foldl_preserves
      (fun c : List Hex => ∀ idx, (c.getD idx (Hex.ctor 0 0 0)).s = HexStatus.EMPTY)
      (ctorLink size i) (fun a x ha => ctorLink_status size i a x ha) (List.range size) _ h1
  · exact h1

theorem ctor_status (n : Nat) (idx : Nat) : (HexBoard.ctor n).statusAt idx = HexStatus.EMPTY := by
  have h0 : ∀ idx, ((List.replicate (u32 (n * n)) (Hex.ctor 0 0 0), 0).1.getD idx
      (Hex.ctor 0 0 0)).s = HexStatus.EMPTY := by
    intro idx
    generalize u32 (n * n) = m
    by_cases hi : idx < m
    · simp [List.getD_eq_getElem?_getD, List.getElem?_replicate, hi, Hex.ctor]
    · simp [List.getD_eq_getElem?_getD, List.getElem?_replicate, hi, Hex.ctor]
  exact foldl_preserves
    (fun s : List Hex × Nat => ∀ idx, (s.1.getD idx (Hex.ctor 0 0 0)).s = HexStatus.EMPTY)
    (ctorRow n) (fun a x ha => ctorRow_status n a x ha) (List.range n) _ h0 idx

/-! ## Lemmas: termination of the search of `check` without assumptions on the sets -/

theorem checkWhile_mono (b : HexBoard) (I : HexStatus) (E : Finset Nat) (fuel : Nat) :
    ∀ (Q : List Nat) (V q : Finset Nat) (w r : Bool),
      checkWhile b I E fuel Q V q w = some r →
      ∀ k, checkWhile b I E (fuel + k) Q V q w = some r := by
  induction fuel with
  | zero =>
    intro Q V q w r h
    rw [checkWhile] at h
    cases h
  | succ fuel ih =>
    intro Q V q w r h k
    rw [Nat.add_right_comm]
    cases Q with
    | nil =>
      rw [checkWhile] at h ⊢
      exact h
    | cons top rest =>
      rw [checkWhile] at h ⊢
      cases w with
      | true => simpa using h
      | false =>
        simp only [Bool.false_eq_true, if_false] at h ⊢
        exact ih _ _ _ _ r h k

theorem checkWhile_isSome (b : HexBoard) (I : HexStatus) (E : Finset Nat)
    (hn : ∀ e, e < b.cells → (b.hexAt e).n = e)
    (hedges : ∀ u, u < b.cells → ∀ e, e ∈ (b.hexAt u).edges → e < b.cells) (fuel : Nat) :
    ∀ (Q : List Nat) (V q : Finset Nat), (∀ x, x ∈ Q → x < b.cells) →
      Q.length + unseen b.cells V q < fuel →
      ∃ r, checkWhile b I E fuel Q V q false = some r := by
  induction fuel with
  | zero => intro Q V q _ h; omega
  | succ fuel ih =>
    intro Q V q hQ hfuel
    cases Q with
    | nil => exact ⟨false, by rw [checkWhile]⟩
    | cons top rest =>
      rw [checkWhile]
      simp only [Bool.false_eq_true, if_false]
      have htop : top < b.cells := hQ top (List.mem_cons_self _ _)
      have hpop := unseen_pop b.cells V q top
      simp only [List.length_cons] at hfuel
      rcases checkEdges_spec b I E (insert top V) hn (b.hexAt top).edges rest (q.erase top)
        (hedges top htop) with hA | hB
      · rw [hA.1]
        obtain ⟨f, rfl⟩ : ∃ f, fuel = f + 1 := ⟨fuel - 1, by omega⟩
        exact ⟨true, checkWhile_true b I E f _ _ _⟩
      · obtain ⟨hw, h1, _, _, _, _, h6⟩ := hB
        rw [hw]
        apply ih _ _ _ _ (by omega)
        intro x hx
        rcases h1 x hx with h | h
        · exact hQ x (List.mem_cons_of_mem _ h)
        · exact hedges top htop x h.1

theorem checkFuel_isSome (b : HexBoard) (p : Player) (hB : b.Built) (hn : 1 ≤ b.size)
    (fuel : Nat) (hf : b.checkBound ≤ fuel) : ∃ r, b.checkFuel p fuel = some r := by
  obtain ⟨_, hcore, hedges⟩ := built_cells b hB
  obtain ⟨hseed, _, hlen⟩ := checkBorders_fold b (decide (p = Player.BLUE)) b.size
  unfold HexBoard.checkFuel
  simp only [status_of_player]
  generalize (List.range b.size).foldl (checkBorders b (decide (p = Player.BLUE))) ([], ∅)
    = st at hseed hlen
  by_cases hcond : st.1 ≠ [] ∧ st.2.card > 0
  · rw [if_pos hcond]
    have hmeas : st.1.length + unseen b.cells ∅ ∅ < fuel := by
      have := unseen_le b.cells ∅ ∅
      unfold HexBoard.checkBound at hf
      unfold HexBoard.cells at this ⊢
      omega
    apply checkWhile_isSome b _ st.2 (fun e he => (hcore e he).1)
      (fun u hu e he => hedges u e hu he) fuel st.1 ∅ ∅ _ hmeas
    intro x hx
    obtain ⟨i, hi, hxi, _⟩ := (hseed x).mp hx
    obtain ⟨h1, h2, _, _, h5, h6⟩ := border_indices b hB.1 hn i hi
    cases hp : decide (p = Player.BLUE) with
    | true =>
      rw [hp, h1] at hxi
      rw [hxi]; exact h5
    | false =>
      rw [hp, h2] at hxi
      rw [hxi]
      have : i * b.size + b.size - 1 < b.cells := h6
      omega
  · rw [if_neg hcond]
    exact ⟨false, rfl⟩

theorem checkFuel_stable (b : HexBoard) (p : Player) (fuel k : Nat) (r : Bool)
    (h : b.checkFuel p fuel = some r) : b.checkFuel p (fuel + k) = some r := by
  unfold HexBoard.checkFuel at h ⊢
  simp only [status_of_player] at h ⊢
  generalize (List.range b.size).foldl (checkBorders b (decide (p = Player.BLUE))) ([], ∅)
    = st at h ⊢
  by_cases hc : st.1 ≠ [] ∧ st.2.card > 0
  · rw [if_pos hc] at h ⊢
    exact checkWhile_mono b _ _ fuel _ _ _ _ r h k
  · rw [if_neg hc] at h ⊢
    exact h

/-! ## Lemmas: the confidence value through the scan of `getAIMove` -/

theorem fillCell_gwins (v : List HexStatus) (st : HexBoard × Nat) (i : Nat) :
    (fillCell v st i).1.gwins = st.1.gwins := by
  unfold fillCell HexBoard.setS
  dsimp only
  split_ifs <;> rfl

theorem reshuffleCell_gwins (v : List HexStatus) (b : HexBoard) (i : Nat) :
    (reshuffleCell v b i).gwins = b.gwins := by
  unfold reshuffleCell HexBoard.setS
  dsimp only
  split_ifs <;> rfl

theorem revertCell_gwins (b : HexBoard) (h : Nat) : (revertCell b h).gwins = b.gwins := by
  unfold revertCell HexBoard.setS
  dsimp only
  split_ifs <;> rfl

theorem randomize_gwins (b : HexBoard) (sh : List HexStatus → List HexStatus) :
    (b.randomize sh).gwins = b.gwins := by
  unfold HexBoard.randomize
  dsimp only
  split_ifs
  · exact foldl_preserves (fun s : HexBoard × Nat => s.1.gwins = b.gwins) _
      (fun a x ha => (fillCell_gwins _ a x).trans ha) _ _ rfl
  · exact foldl_preserves (fun s : HexBoard => s.gwins = b.gwins) _
      (fun a x ha => (reshuffleCell_gwins _ a x).trans ha) _ _ rfl

theorem revertRandom_gwins (b : HexBoard) : b.revertRandom.gwins = b.gwins := by
  unfold HexBoard.revertRandom
  exact foldl_preserves (fun s : HexBoard => s.gwins = b.gwins) _
    (fun a x ha => (revertCell_gwins a x).trans ha) _ _ rfl

theorem undo_gwins (b : HexBoard) (p : Player) (x y : Nat) :
    (b.undo p x y).gwins = b.gwins := by
  unfold HexBoard.undo
  split_ifs
  · exact (undoAt_fields b p _).2.2.2.2.2.2.2
  · rfl

theorem move_gwins (b : HexBoard) (p : Player) (x y : Nat) :
    (b.move p x y).gwins = b.gwins := by
  cases h : b.isLegal x y with
  | true => exact (move_of_legal b p x y h).2.2.2.2.2.2.2
  | false => rw [move_of_illegal b p x y h]

theorem aiTrial_fst (p : Player) (sh : Nat → List HexStatus → List HexStatus)
    (st : HexBoard × ℚ) (j : Nat) : (aiTrial p sh st j).1 = st.1.randomize (sh j) := by
  unfold aiTrial
  rfl

theorem aiTrial_snd (p : Player) (sh : Nat → List HexStatus → List HexStatus)
    (st : HexBoard × ℚ) (j : Nat) :
    (aiTrial p sh st j).2 = st.2 ∨ (aiTrial p sh st j).2 = st.2 + 1 := by
  unfold aiTrial
  dsimp only
  split_ifs
  · exact Or.inr rfl
  · exact Or.inl rfl

theorem aiTrial_fold_gwins (p : Player) (sh : Nat → List HexStatus → List HexStatus)
    (l : List Nat) (st : HexBoard × ℚ) :
    (l.foldl (aiTrial p sh) st).1.gwins = st.1.gwins :=
  foldl_preserves (fun s : HexBoard × ℚ => s.1.gwins = st.1.gwins) _
    (fun a x ha => by
      dsimp only at ha ⊢
      rw [aiTrial_fst, randomize_gwins]
      exact ha) _ _ rfl

theorem aiTrial_fold_count (p : Player) (sh : Nat → List HexStatus → List HexStatus)
    (l : List Nat) (st : HexBoard × ℚ) :
    st.2 ≤ (l.foldl (aiTrial p sh) st).2 ∧
    (l.foldl (aiTrial p sh) st).2 ≤ st.2 + (l.length : ℚ) := by
  induction l generalizing st with
  | nil => simp
  | cons j l ih =>
    rw [List.foldl_cons]
    obtain ⟨h1, h2⟩ := ih (aiTrial p sh st j)
    rw [List.length_cons]
    push_cast
    rcases aiTrial_snd p sh st j with h | h
    · rw [h] at h1 h2
      constructor <;> linarith
    · rw [h] at h1 h2
      constructor <;> linarith

/-- The win rate computed for a candidate lies between 0 and 1. -/
theorem aiRate_bounds (p : Player) (sh : Nat → List HexStatus → List HexStatus) (N : Nat)
    (hN : 1 ≤ N) (b0 : HexBoard) :
    0 ≤ ((List.range N).foldl (aiTrial p sh) (b0, 0)).2 / (N : ℚ) ∧
    ((List.range N).foldl (aiTrial p sh) (b0, 0)).2 / (N : ℚ) ≤ 1 := by
  obtain ⟨h1, h2⟩ := aiTrial_fold_count p sh (List.range N) (b0, 0)
  rw [List.length_range] at h2
  simp only [zero_add] at h1 h2
  have hpos : (0 : ℚ) < (N : ℚ) := by exact_mod_cast hN
  constructor
  · exact div_nonneg h1 (le_of_lt hpos)
  · rw [div_le_one hpos]
    exact h2

theorem aiCell_of_illegal (p : Player) (N : Nat)
    (sh : Nat → Nat → List HexStatus → List HexStatus) (st : HexBoard × Nat × Nat) (i : Nat)
    (h : st.1.isLegal (u32 (i / st.1.size + 1)) (u32 (i % st.1.size + 1)) = false) :
    aiCell p N sh st i = st := by
  unfold aiCell
  dsimp only
  rw [h]
  rfl

theorem aiCell_legal_eq (p : Player) (N : Nat)
    (sh : Nat → Nat → List HexStatus → List HexStatus) (st : HexBoard × Nat × Nat) (i : Nat)
    (h : st.1.isLegal (u32 (i / st.1.size + 1)) (u32 (i % st.1.size + 1)) = true)
    (r : HexBoard × ℚ) (tx ty : Nat)
    (htx : tx = u32 (i / st.1.size + 1)) (hty : ty = u32 (i % st.1.size + 1))
    (hr : r = (List.range N).foldl (aiTrial p (sh i)) (st.1.move p tx ty, 0)) :
    aiCell p N sh st i =
      (((if r.1.gwins < r.2 / (N : ℚ) then
            (({ r.1 with gwins := r.2 / (N : ℚ) } : HexBoard), tx, ty)
          else (r.1, st.2.1, st.2.2)).1.revertRandom).undo p tx ty,
       (if r.1.gwins < r.2 / (N : ℚ) then
            (({ r.1 with gwins := r.2 / (N : ℚ) } : HexBoard), tx, ty)
          else (r.1, st.2.1, st.2.2)).2.1,
       (if r.1.gwins < r.2 / (N : ℚ) then
            (({ r.1 with gwins := r.2 / (N : ℚ) } : HexBoard), tx, ty)
          else (r.1, st.2.1, st.2.2)).2.2) := by
  subst hr htx hty
  unfold aiCell
  dsimp only
  rw [if_pos h]

/-- The confidence value and the output coordinates after the iteration of a legal cell. -/
theorem aiCell_of_legal (p : Player) (N : Nat)
    (sh : Nat → Nat → List HexStatus → List HexStatus) (st : HexBoard × Nat × Nat) (i : Nat)
    (h : st.1.isLegal (u32 (i / st.1.size + 1)) (u32 (i % st.1.size + 1)) = true) :
    (st.1.gwins <
        ((List.range N).foldl (aiTrial p (sh i))
          (st.1.move p (u32 (i / st.1.size + 1)) (u32 (i % st.1.size + 1)), 0)).2 / (N : ℚ) →
      (aiCell p N sh st i).1.gwins =
        ((List.range N).foldl (aiTrial p (sh i))
          (st.1.move p (u32 (i / st.1.size + 1)) (u32 (i % st.1.size + 1)), 0)).2 / (N : ℚ) ∧
      (aiCell p N sh st i).2 = (u32 (i / st.1.size + 1), u32 (i % st.1.size + 1))) ∧
    (¬ st.1.gwins <
        ((List.range N).foldl (aiTrial p (sh i))
          (st.1.move p (u32 (i / st.1.size + 1)) (u32 (i % st.1.size + 1)), 0)).2 / (N : ℚ) →
      (aiCell p N sh st i).1.gwins = st.1.gwins ∧ (aiCell p N sh st i).2 = st.2) := by
  have hg : ((List.range N).foldl (aiTrial p (sh i))
      (st.1.move p (u32 (i / st.1.size + 1)) (u32 (i % st.1.size + 1)), 0)).1.gwins
      = st.1.gwins := by
    rw [aiTrial_fold_gwins, move_gwins]
  rw [aiCell_legal_eq p N sh st i h _ _ _ rfl rfl rfl]
  revert hg
  generalize (List.range N).foldl (aiTrial p (sh i))
      (st.1.move p (u32 (i / st.1.size + 1)) (u32 (i % st.1.size + 1)), 0) = r
  generalize u32 (i / st.1.size + 1) = tx
  generalize u32 (i % st.1.size + 1) = ty
  intro hg
  rw [hg]
  constructor
  · intro hlt
    rw [if_pos hlt]
    constructor
    · dsimp only
      rw [undo_gwins, revertRandom_gwins]
    · dsimp only
  · intro hlt
    rw [if_neg hlt]
    constructor
    · dsimp only
      rw [undo_gwins, revertRandom_gwins]
      exact hg
    · dsimp only

theorem aiCell_gwins_bounds (p : Player) (N : Nat) (hN : 1 ≤ N)
    (sh : Nat → Nat → List HexStatus → List HexStatus) (st : HexBoard × Nat × Nat) (i : Nat)
    (h : 0 ≤ st.1.gwins ∧ st.1.gwins ≤ 1) :
    0 ≤ (aiCell p N sh st i).1.gwins ∧ (aiCell p N sh st i).1.gwins ≤ 1 := by
  cases hl : st.1.isLegal (u32 (i / st.1.size + 1)) (u32 (i % st.1.size + 1)) with
  | false => rw [aiCell_of_illegal p N sh st i hl]; exact h
  | true =>
    obtain ⟨h1, h2⟩ := aiCell_of_legal p N sh st i hl
    by_cases hlt : st.1.gwins <
        ((List.range N).foldl (aiTrial p (sh i))
          (st.1.move p (u32 (i / st.1.size + 1)) (u32 (i % st.1.size + 1)), 0)).2 / (N : ℚ)
    · rw [(h1 hlt).1]
      exact aiRate_bounds p (sh i) N hN _
    · rw [(h2 hlt).1]
      exact h

theorem isLegal_congr {b b' : HexBoard} (h1 : b'.size = b.size)
    (h2 : b'.edgeList = b.edgeList) (x y : Nat) : b'.isLegal x y = b.isLegal x y := by
  rw [isLegal_eq, isLegal_eq b, isOOB_congr h1, cellIndex_congr h1, statusAt_congr h2]

/-! ## Lemmas: statuses and counter through one candidate of `getAIMove` -/

theorem countP_modify_gain (P : Hex → Bool) (f : Hex → Hex) (l : List Hex) (i : Nat) (d : Hex)
    (hi : i < l.length) (h0 : P (l.getD i d) = false) (h1 : P (f (l.getD i d)) = true) :
    (l.modify f i).countP P = l.countP P + 1 := by
  induction l generalizing i with
  | nil => simp at hi
  | cons a l ih =>
    cases i with
    | zero =>
      simp only [List.getD_cons_zero] at h0 h1
      simp [List.countP_cons, h0, h1]
    | succ i =>
      simp only [List.getD_cons_succ] at h0 h1
      simp only [List.length_cons] at hi
      rw [List.modify_succ_cons, List.countP_cons, List.countP_cons, ih i (by omega) h0 h1]
      omega

theorem nonEmpty_setS (b : HexBoard) (idx : Nat) (s : HexStatus)
    (hi : idx < b.edgeList.length) (hE : b.statusAt idx = HexStatus.EMPTY)
    (hs : s ≠ HexStatus.EMPTY) : (b.setS idx s).nonEmpty = b.nonEmpty + 1 := by
  unfold HexBoard.nonEmpty HexBoard.setS
  apply countP_modify_gain _ _ _ _ (Hex.ctor 0 0 0) hi
  · have h : (b.edgeList.getD idx (Hex.ctor 0 0 0)).s = HexStatus.EMPTY := hE
    show decide ((b.edgeList.getD idx (Hex.ctor 0 0 0)).s ≠ HexStatus.EMPTY) = false
    rw [h]
    rfl
  · simp [hs]

theorem nonEmpty_congr {b b' : HexBoard} (h : b'.edgeList = b.edgeList) :
    b'.nonEmpty = b.nonEmpty := by
  unfold HexBoard.nonEmpty
  rw [h]

theorem emptyCells_congr {b b' : HexBoard} (h : ∀ i, b'.statusAt i = b.statusAt i) (t : Nat) :
    b'.emptyCells t = b.emptyCells t := by
  unfold HexBoard.emptyCells
  congr 1
  funext i
  rw [h i]

theorem nonEmpty_of_status {b b' : HexBoard} (hl : b'.edgeList.length = b.edgeList.length)
    (h : ∀ i, b'.statusAt i = b.statusAt i) : b'.nonEmpty = b.nonEmpty := by
  have h1 := emptyCells_length_add_nonEmpty b'
  have h2 := emptyCells_length_add_nonEmpty b
  rw [hl, emptyCells_congr h] at h1
  omega

theorem aiTrial_fold_fst (p : Player) (sh : Nat → List HexStatus → List HexStatus) (N : Nat)
    (st : HexBoard × ℚ) :
    ((List.range N).foldl (aiTrial p sh) st).1 = st.1.randomizeN sh N := by
  induction N with
  | zero => rfl
  | succ N ih =>
    rw [List.range_succ, List.foldl_append, List.foldl_cons, List.foldl_nil, aiTrial_fst, ih]
    rfl

theorem revertRandom_of_nil (c : HexBoard) (h : c.randomized = []) : c.revertRandom = c := by
  unfold HexBoard.revertRandom
  rw [h]
  rfl

/-- After the fills of a candidate, `revertRandom` brings statuses and counter back to
those of the board `b0` on which the fills started. -/
theorem revert_frame (b0 c : HexBoard) (hS : b0.Sized) (hocc : b0.occupied = b0.nonEmpty)
    (hF : Filled b0 c) :
    c.revertRandom.size = b0.size ∧
    c.revertRandom.edgeList.length = b0.edgeList.length ∧
    (∀ i, c.revertRandom.statusAt i = b0.statusAt i) ∧
    c.revertRandom.occupied = b0.occupied := by
  obtain ⟨_, _, h3, h4⟩ := sized_free b0 hS hocc
  obtain ⟨r1, r2, _, r4⟩ := revert_fold c.randomized c
  refine ⟨?_, ?_, ?_, ?_⟩
  · show (c.randomized.foldl revertCell c).size = _
    rw [r1, hF.size]
  · show (c.randomized.foldl revertCell c).edgeList.length = _
    rw [r2, hF.len]
  · intro i
    show (c.randomized.foldl revertCell c).statusAt i = _
    rw [r4 i]
    by_cases hm : i ∈ c.randomized
    · by_cases hi : i < c.edgeList.length
      · rw [if_pos ⟨hm, hi⟩]
        rw [hF.led, mem_emptyCells] at hm
        exact hm.2.symm
      · rw [if_neg (fun h => hi h.2)]
        rw [hF.led, mem_emptyCells] at hm
        rw [hF.len, hS.1] at hi
        exact absurd hm.1 hi
    · rw [if_neg (fun h => hm h.1)]
      exact hF.keep i (by rw [← hF.led]; exact hm)
  · show (c.randomized.foldl revertCell c).occupied = _
    have hlen : c.randomized.length = b0.cells - b0.occupied := by rw [hF.led, h3]
    rw [revert_fold_occupied c.randomized c (by rw [hF.occ, hlen]; omega)
      (by rw [hF.occ]; have := hS.2; omega), hF.occ, hlen]
    omega

theorem Filled.with_gwins {b b' : HexBoard} (hF : Filled b b') (g : ℚ) :
    Filled b { b' with gwins := g } :=
  ⟨hF.size, hF.len, hF.occ, hF.led, fun i hi => hF.keep i hi, fun i hi => hF.full i hi⟩

/-- Statuses and counter after the trials of a candidate and the `revertRandom` that
follows, for any trial count, on the board `c` left by the trials up to its `gwins`. -/
theorem trials_revert_frame (b0 : HexBoard) (sh : Nat → List HexStatus → List HexStatus)
    (N : Nat) (hS : b0.Sized) (hL : b0.randomized = []) (hocc : b0.occupied = b0.nonEmpty)
    (hperm : ∀ j l, (sh j l).Perm l) (c : HexBoard)
    (hc : c = b0.randomizeN sh N ∨ ∃ g, c = { b0.randomizeN sh N with gwins := g }) :
    c.revertRandom.size = b0.size ∧
    c.revertRandom.edgeList.length = b0.edgeList.length ∧
    (∀ i, c.revertRandom.statusAt i = b0.statusAt i) ∧
    c.revertRandom.occupied = b0.occupied := by
  cases N with
  | zero =>
    have hr : b0.randomizeN sh 0 = b0 := rfl
    rw [hr] at hc
    rcases hc with hc | ⟨g, hc⟩
    · rw [hc, revertRandom_of_nil b0 hL]
      exact ⟨rfl, rfl, fun _ => rfl, rfl⟩
    · have e : ({ b0 with gwins := g } : HexBoard).revertRandom = { b0 with gwins := g } :=
        revertRandom_of_nil { b0 with gwins := g } hL
      rw [hc, e]
      exact ⟨rfl, rfl, fun _ => rfl, rfl⟩
  | succ k =>
    have hF := randomizeN_filled b0 sh hS hL hocc hperm k
    rcases hc with hc | ⟨g, hc⟩
    · rw [hc]
      exact revert_frame b0 _ hS hocc hF
    · rw [hc]
      exact revert_frame b0 _ hS hocc (hF.with_gwins g)

theorem nonEmpty_le_length (b : HexBoard) : b.nonEmpty ≤ b.edgeList.length := by
  unfold HexBoard.nonEmpty
  exact List.countP_le_length _

/-- One candidate of `getAIMove`: the tentative move, the trials, `revertRandom` and `undo`
together leave the size, the statuses and the counter as they were. -/
theorem candidate_frame (b : HexBoard) (p : Player) (tx ty N : Nat)
    (sh : Nat → List HexStatus → List HexStatus) (hS : b.Sized)
    (hocc : b.occupied = b.nonEmpty) (hperm : ∀ j l, (sh j l).Perm l)
    (h : b.isLegal tx ty = true) (c : HexBoard)
    (hc : c = (b.move p tx ty).randomizeN sh N ∨
      ∃ g, c = { (b.move p tx ty).randomizeN sh N with gwins := g }) :
    ((c.revertRandom).undo p tx ty).size = b.size ∧
    ((c.revertRandom).undo p tx ty).edgeList.length = b.edgeList.length ∧
    (∀ j, ((c.revertRandom).undo p tx ty).statusAt j = b.statusAt j) ∧
    ((c.revertRandom).undo p tx ty).occupied = b.occupied := by
  obtain ⟨hoob, hemp⟩ := (isLegal_eq_true_iff b tx ty).mp h
  obtain ⟨_, hlt⟩ := cellIndex_of_inBounds b hS tx ty hoob
  obtain ⟨m1, m2, _, _, m5, m6, _, _⟩ := move_of_legal b p tx ty h
  have hst := move_statusAt b p tx ty h
  have hlen : b.cellIndex tx ty < b.edgeList.length := by rw [hS.1]; exact hlt
  have hlen0 : (b.move p tx ty).edgeList.length = b.edgeList.length := by
    rw [m2, setS_length]
  have hcells0 : (b.move p tx ty).cells = b.cells := by
    unfold HexBoard.cells
    rw [m1]
  have hS0 : (b.move p tx ty).Sized := ⟨by rw [hlen0, hcells0]; exact hS.1,
    by rw [hcells0]; exact hS.2⟩
  have hne0 : (b.move p tx ty).nonEmpty = b.nonEmpty + 1 :=
    (nonEmpty_congr m2).trans (nonEmpty_setS b _ _ hlen hemp (status_ne_empty p))
  have hbound : b.nonEmpty + 1 ≤ b.cells := by
    have := nonEmpty_le_length (b.move p tx ty)
    rw [hne0, hlen0, hS.1] at this
    exact this
  have hc2 := hS.2
  have hocc0 : (b.move p tx ty).occupied = (b.move p tx ty).nonEmpty := by
    rw [m5, hne0, hocc]
    exact u32_of_lt (by omega)
  obtain ⟨d1, d2, d3, d4⟩ := trials_revert_frame (b.move p tx ty) sh N hS0 m6 hocc0 hperm c hc
  revert d1 d2 d3 d4
  generalize c.revertRandom = d
  intro d1 d2 d3 d4
  have hsz : d.size = b.size := d1.trans m1
  have hidx : d.cellIndex tx ty = b.cellIndex tx ty := cellIndex_congr hsz tx ty
  have hu : d.undo p tx ty = d.undoAt p (b.cellIndex tx ty) := by
    rw [← hidx]
    apply undo_of_occupied
    · rw [isOOB_congr hsz]; exact hoob
    · rw [hidx, d3, hst, if_pos ⟨rfl, hlen⟩]
      exact status_ne_empty p
  rw [hu]
  obtain ⟨u1, u2, _, _, u5, _, _, _⟩ := undoAt_fields d p (b.cellIndex tx ty)
  refine ⟨u1.trans hsz, ?_, ?_, ?_⟩
  · rw [u2, setS_length, d2, hlen0]
  · intro j
    rw [undoAt_statusAt, d3, hst, d2, hlen0]
    by_cases hj : b.cellIndex tx ty = j ∧ j < b.edgeList.length
    · rw [if_pos hj, ← hj.1]
      exact hemp.symm
    · rw [if_neg hj, if_neg hj]
  · rw [u5, d4, m5]
    exact usub_succ_one (by omega)

theorem aiCell_frame (p : Player) (N : Nat)
    (sh : Nat → Nat → List HexStatus → List HexStatus) (st : HexBoard × Nat × Nat) (i : Nat)
    (hS : st.1.Sized) (hocc : st.1.occupied = st.1.nonEmpty)
    (hperm : ∀ j l, (sh i j l).Perm l) :
    (aiCell p N sh st i).1.size = st.1.size ∧
    (aiCell p N sh st i).1.edgeList.length = st.1.edgeList.length ∧
    (∀ j, (aiCell p N sh st i).1.statusAt j = st.1.statusAt j) ∧
    (aiCell p N sh st i).1.occupied = st.1.occupied := by
  cases hl : st.1.isLegal (u32 (i / st.1.size + 1)) (u32 (i % st.1.size + 1)) with
  | false =>
    rw [aiCell_of_illegal p N sh st i hl]
    exact ⟨rfl, rfl, fun _ => rfl, rfl⟩
  | true =>
    rw [aiCell_legal_eq p N sh st i hl _ _ _ rfl rfl rfl]
    have hr := aiTrial_fold_fst p (sh i) N
      (st.1.move p (u32 (i / st.1.size + 1)) (u32 (i % st.1.size + 1)), 0)
    revert hr
    generalize (List.range N).foldl (aiTrial p (sh i))
      (st.1.move p (u32 (i / st.1.size + 1)) (u32 (i % st.1.size + 1)), 0) = r
    intro hr
    dsimp only at hr ⊢
    apply candidate_frame st.1 p _ _ N (sh i) hS hocc hperm hl
    split_ifs
    · exact Or.inr ⟨_, by dsimp only; rw [hr]⟩
    · exact Or.inl hr

/-! ## Lemmas: the scan of `getAIMove` keeps the first best candidate -/

theorem aiScan_succ (b : HexBoard) (p : Player) (x y N : Nat)
    (sh : Nat → Nat → List HexStatus → List HexStatus) (k : Nat) :
    b.aiScan p x y N sh (k + 1) = aiCell p N sh (b.aiScan p x y N sh k) k := by
  unfold HexBoard.aiScan
  rw [List.range_succ, List.foldl_append, List.foldl_cons, List.foldl_nil]

theorem getAIMove_eq_aiScan (b : HexBoard) (p : Player) (x y N : Nat)
    (sh : Nat → Nat → List HexStatus → List HexStatus) :
    b.getAIMove p x y N sh = b.aiScan p x y N sh (u32 (b.size * b.size)) := by
  unfold HexBoard.getAIMove HexBoard.aiScan
  rfl

theorem aiScan_frame (b : HexBoard) (p : Player) (x y N : Nat)
    (sh : Nat → Nat → List HexStatus → List HexStatus) (hS : b.Sized)
    (hocc : b.occupied = b.nonEmpty) (hperm : ∀ i j l, (sh i j l).Perm l) (k : Nat) :
    (b.aiScan p x y N sh k).1.size = b.size ∧
    (b.aiScan p x y N sh k).1.edgeList.length = b.edgeList.length ∧
    (∀ j, (b.aiScan p x y N sh k).1.statusAt j = b.statusAt j) ∧
    (b.aiScan p x y N sh k).1.occupied = b.occupied := by
  induction k with
  | zero => exact ⟨rfl, rfl, fun _ => rfl, rfl⟩
  | succ k ih =>
    rw [aiScan_succ]
    obtain ⟨a1, a2, a3, a4⟩ := ih
    have hcells : (b.aiScan p x y N sh k).1.cells = b.cells := by
      unfold HexBoard.cells
      rw [a1]
    have hSa : (b.aiScan p x y N sh k).1.Sized :=
      ⟨by rw [a2, hcells]; exact hS.1, by rw [hcells]; exact hS.2⟩
    have hocca : (b.aiScan p x y N sh k).1.occupied = (b.aiScan p x y N sh k).1.nonEmpty := by
      rw [a4, hocc, nonEmpty_of_status a2 a3]
    obtain ⟨f1, f2, f3, f4⟩ := aiCell_frame p N sh _ k hSa hocca (hperm k)
    exact ⟨f1.trans a1, f2.trans a2, fun j => (f3 j).trans (a3 j), f4.trans a4⟩

theorem isLegal_of_status {b b' : HexBoard} (h1 : b'.size = b.size)
    (h2 : ∀ j, b'.statusAt j = b.statusAt j) (x y : Nat) : b'.isLegal x y = b.isLegal x y := by
  rw [isLegal_eq, isLegal_eq b, isOOB_congr h1, cellIndex_congr h1, h2]

/-- One iteration of the cell loop, in terms of the candidate's legality on the board `b`
of the call and of its win rate. -/
theorem aiScan_step (b : HexBoard) (p : Player) (x y N : Nat)
    (sh : Nat → Nat → List HexStatus → List HexStatus) (hS : b.Sized)
    (hocc : b.occupied = b.nonEmpty) (hperm : ∀ i j l, (sh i j l).Perm l) (t : Nat) :
    (b.isLegal (b.cellX t) (b.cellY t) = false →
      b.aiScan p x y N sh (t + 1) = b.aiScan p x y N sh t) ∧
    (b.isLegal (b.cellX t) (b.cellY t) = true →
      ((b.aiScan p x y N sh t).1.gwins < b.aiWinRate p x y N sh t →
        (b.aiScan p x y N sh (t + 1)).1.gwins = b.aiWinRate p x y N sh t ∧
        (b.aiScan p x y N sh (t + 1)).2 = (b.cellX t, b.cellY t)) ∧
      (¬ (b.aiScan p x y N sh t).1.gwins < b.aiWinRate p x y N sh t →
        (b.aiScan p x y N sh (t + 1)).1.gwins = (b.aiScan p x y N sh t).1.gwins ∧
        (b.aiScan p x y N sh (t + 1)).2 = (b.aiScan p x y N sh t).2)) := by
  obtain ⟨a1, _, a3, _⟩ := aiScan_frame b p x y N sh hS hocc hperm t
  have hleg : (b.aiScan p x y N sh t).1.isLegal
      (u32 (t / (b.aiScan p x y N sh t).1.size + 1))
      (u32 (t % (b.aiScan p x y N sh t).1.size + 1)) = b.isLegal (b.cellX t) (b.cellY t) := by
    rw [isLegal_of_status a1 a3, a1]
    rfl
  have hxy : (u32 (t / (b.aiScan p x y N sh t).1.size + 1),
      u32 (t % (b.aiScan p x y N sh t).1.size + 1)) = (b.cellX t, b.cellY t) := by
    rw [a1]
    rfl
  rw [aiScan_succ]
  constructor
  · intro hl
    exact aiCell_of_illegal p N sh _ t (hleg.trans hl)
  · intro hl
    have h := aiCell_of_legal p N sh (b.aiScan p x y N sh t) t (hleg.trans hl)
    rw [hxy] at h
    exact h

theorem scanBest_all (b : HexBoard) (p : Player) (x y N : Nat)
    (sh : Nat → Nat → List HexStatus → List HexStatus) (hS : b.Sized)
    (hocc : b.occupied = b.nonEmpty) (hperm : ∀ i j l, (sh i j l).Perm l)
    (t : Nat) : b.ScanBest p x y N sh t (b.aiScan p x y N sh t) := by
  induction t with
  | zero =>
    left
    exact ⟨fun j hj => absurd hj (Nat.not_lt_zero j), rfl, rfl⟩
  | succ t ih =>
    obtain ⟨s1, s2⟩ := aiScan_step b p x y N sh hS hocc hperm t
    cases hl : b.isLegal (b.cellX t) (b.cellY t) with
    | false =>
      rw [s1 hl]
      rcases ih with ⟨h1, h2, h3⟩ | ⟨k, hk, hkl, hkp, h1, h2, h3, h4⟩
      · left
        refine ⟨?_, h2, h3⟩
        intro j hj hjl
        rcases Nat.lt_succ_iff_lt_or_eq.mp hj with h | h
        · exact h1 j h hjl
        · rw [h, hl] at hjl
          cases hjl
      · right
        refine ⟨k, Nat.lt_succ_of_lt hk, hkl, hkp, ?_, h2, h3, h4⟩
        intro j hj hjl
        rcases Nat.lt_succ_iff_lt_or_eq.mp hj with h | h
        · exact h1 j h hjl
        · rw [h, hl] at hjl
          cases hjl
    | true =>
      obtain ⟨u1, u2⟩ := s2 hl
      by_cases hlt : (b.aiScan p x y N sh t).1.gwins < b.aiWinRate p x y N sh t
      · obtain ⟨g1, g2⟩ := u1 hlt
        right
        rcases ih with ⟨h1, h2, h3⟩ | ⟨k, hk, hkl, hkp, h1, h2, h3, h4⟩
        · rw [h2] at hlt
          refine ⟨t, Nat.lt_succ_self t, hl, hlt, ?_, ?_, g2, g1⟩
          · intro j hj hjl
            rcases Nat.lt_succ_iff_lt_or_eq.mp hj with h | h
            · exact le_trans (h1 j h hjl) (le_of_lt hlt)
            · rw [h]
          · intro j hj hjl
            exact lt_of_le_of_lt (h1 j hj hjl) hlt
        · rw [h4] at hlt
          refine ⟨t, Nat.lt_succ_self t, hl, lt_trans hkp hlt, ?_, ?_, g2, g1⟩
          · intro j hj hjl
            rcases Nat.lt_succ_iff_lt_or_eq.mp hj with h | h
            · exact le_trans (h1 j h hjl) (le_of_lt hlt)
            · rw [h]
          · intro j hj hjl
            exact lt_of_le_of_lt (h1 j hj hjl) hlt
      · obtain ⟨g1, g2⟩ := u2 hlt
        rcases ih with ⟨h1, h2, h3⟩ | ⟨k, hk, hkl, hkp, h1, h2, h3, h4⟩
        · left
          rw [h2] at hlt
          refine ⟨?_, g1.trans h2, g2.trans h3⟩
          intro j hj hjl
          rcases Nat.lt_succ_iff_lt_or_eq.mp hj with h | h
          · exact h1 j h hjl
          · rw [h]
            exact not_lt.mp hlt
        · right
          rw [h4] at hlt
          refine ⟨k, Nat.lt_succ_of_lt hk, hkl, hkp, ?_, h2, g2.trans h3, g1.trans h4⟩
          intro j hj hjl
          rcases Nat.lt_succ_iff_lt_or_eq.mp hj with h | h
          · exact h1 j h hjl
          · rw [h]
            exact not_lt.mp hlt

/-! ## Lemmas: complete colourings of the size-3 board -/

theorem mem_colourings (n : Nat) (l : List HexStatus) (hl : l.length = n)
    (h : ∀ s, s ∈ l → s = HexStatus.BLUE ∨ s = HexStatus.RED) : l ∈ colourings n := by
  induction n generalizing l with
  | zero =>
    rw [List.length_eq_zero.mp hl]
    exact List.mem_singleton.mpr rfl
  | succ n ih =>
    cases l with
    | nil => simp at hl
    | cons a l =>
      have hl' : l.length = n := by simpa using hl
      have hmem := ih l hl' (fun s hs => h s (List.mem_cons_of_mem _ hs))
      unfold colourings
      rw [List.mem_flatMap]
      refine ⟨l, hmem, ?_⟩
      rcases h a (List.mem_cons_self _ _) with ha | ha
      · rw [ha]; exact List.mem_cons_self _ _
      · rw [ha]; exact List.mem_cons_of_mem _ (List.mem_singleton.mpr rfl)

theorem zipWith_erased_status (L : List Hex) :
    List.zipWith (fun h s => { h with s := s })
      (L.map (fun h => { h with s := HexStatus.EMPTY })) (L.map (fun h => h.s)) = L := by
  induction L with
  | nil => rfl
  | cons a L ih =>
    rw [List.map_cons, List.map_cons, List.zipWith_cons_cons, ih]

theorem status_getD_map (L : List Hex) (i : Nat) :
    (L.map (fun h => h.s)).getD i HexStatus.EMPTY = (L.getD i (Hex.ctor 0 0 0)).s :=
  List.getD_map L (Hex.ctor 0 0 0) (fun h : Hex => h.s)

theorem winPath_congr {b b' : HexBoard} (hs : b'.size = b.size)
    (he : b'.edgeList = b.edgeList) (p : Player) : b'.WinPath p ↔ b.WinPath p := by
  have hStep : b'.Step = b.Step := by
    funext s u v
    unfold HexBoard.Step
    rw [hexAt_congr he, statusAt_congr he]
  have hcells : b'.cells = b.cells := by
    unfold HexBoard.cells
    rw [hs]
  have hh : ∀ i, b'.hexAt i = b.hexAt i := hexAt_congr he
  have hst : ∀ i, b'.statusAt i = b.statusAt i := statusAt_congr he
  unfold HexBoard.WinPath HexBoard.onStart HexBoard.onGoal
  simp only [hStep, hcells, hh, hst, hs]

/-- A board of size 3 with the constructor's topology and no `EMPTY` cell has the cell
vector of the painted board of its status list, and that list is a complete colouring. -/
theorem paint_of_full (b : HexBoard) (hB : b.Built) (h3 : b.size = 3)
    (hfull : ∀ i, i < b.cells → b.statusAt i ≠ HexStatus.EMPTY) :
    b.edgeList.map (fun h => h.s) ∈ colourings 9 ∧
    (paint (b.edgeList.map (fun h => h.s))).edgeList = b.edgeList := by
  obtain ⟨hlen, _, _⟩ := built_cells b hB
  have hcells : b.cells = 9 := by
    unfold HexBoard.cells
    rw [h3]
  rw [hcells] at hlen
  constructor
  · apply mem_colourings 9 _ (by rw [List.length_map]; exact hlen)
    intro s hs
    obtain ⟨i, hi, hsi⟩ := List.getElem_of_mem hs
    rw [List.length_map, hlen] at hi
    have hne := hfull i (by rw [hcells]; exact hi)
    have hst : b.statusAt i = s := by
      rw [← hsi]
      unfold HexBoard.statusAt HexBoard.hexAt
      rw [← status_getD_map, List.getD_eq_getElem?_getD, List.getElem?_eq_getElem]
      rfl
    rw [hst] at hne
    cases s with
    | EMPTY => exact absurd rfl hne
    | BLUE => exact Or.inl rfl
    | RED => exact Or.inr rfl
  · have h2 := hB.2
    rw [h3] at h2
    unfold paint
    show List.zipWith (fun h s => { h with s := s }) (HexBoard.ctor 3).edgeList _ = _
    rw [← h2]
    exact zipWith_erased_status b.edgeList

theorem paint_size (l : List HexStatus) : (paint l).size = 3 := rfl

theorem paint_cells (l : List HexStatus) : (paint l).cells = 9 := rfl

theorem paint_blue (l : List HexStatus) :
    (paint l).blueEdgeList = ((List.range 9).filter
      (fun i => decide (l.getD i HexStatus.EMPTY = HexStatus.BLUE))).toFinset := rfl

theorem paint_red (l : List HexStatus) :
    (paint l).redEdgeList = ((List.range 9).filter
      (fun i => decide (l.getD i HexStatus.EMPTY = HexStatus.RED))).toFinset := rfl

theorem paint_built (b : HexBoard) (hB : b.Built) (h3 : b.size = 3) (l : List HexStatus)
    (he : (paint l).edgeList = b.edgeList) : (paint l).Built := by
  constructor
  · rw [paint_cells]
    decide
  · rw [he, paint_size]
    have h2 := hB.2
    rw [h3] at h2
    exact h2

theorem paint_agree (b : HexBoard)
    (he : (paint (b.edgeList.map (fun h => h.s))).edgeList = b.edgeList) :
    (paint (b.edgeList.map (fun h => h.s))).Agree := by
  intro i hi
  rw [paint_cells] at hi
  have hst : (paint (b.edgeList.map (fun h => h.s))).statusAt i
      = (b.edgeList.map (fun h => h.s)).getD i HexStatus.EMPTY := by
    rw [statusAt_congr he]
    unfold HexBoard.statusAt HexBoard.hexAt
    exact (status_getD_map _ _).symm
  rw [paint_blue, paint_red, hst]
  simp only [List.mem_toFinset, List.mem_filter, List.mem_range, decide_eq_true_eq]
  exact ⟨⟨fun h => h.2, fun h => ⟨hi, h⟩⟩, ⟨fun h => h.2, fun h => ⟨hi, h⟩⟩⟩

theorem colourings_single_winner : ∀ l, l ∈ colourings 9 →
    (paint l).check Player.BLUE ≠ (paint l).check Player.RED := by
  decide!

/-! ## Lemmas: the neighbour lists laid down by the constructor -/

theorem edges_pushEdge (a e : Nat) (cells : List Hex) (idx : Nat) :
    ((pushEdge a e cells).getD idx (Hex.ctor 0 0 0)).edges =
      if a = idx ∧ idx < cells.length then (cells.getD idx (Hex.ctor 0 0 0)).edges ++ [e]
      else (cells.getD idx (Hex.ctor 0 0 0)).edges := by
  unfold pushEdge
  rw [getD_modify]
  split <;> rfl

theorem edges_set (c : Nat) (h : Hex) (cells : List Hex) (idx : Nat) :
    ((cells.set c h).getD idx (Hex.ctor 0 0 0)).edges =
      if c = idx ∧ idx < cells.length then h.edges
      else (cells.getD idx (Hex.ctor 0 0 0)).edges := by
  rw [getD_set_hex]
  split <;> rfl

theorem pushEdge_length (a e : Nat) (cells : List Hex) :
    (pushEdge a e cells).length = cells.length := by
  unfold pushEdge
  rw [List.length_modify]

theorem cell_eq_iff {n i k r j : Nat} (hk : k < n) (hj : j < n) :
    i * n + k = r * n + j ↔ i = r ∧ k = j := by
  constructor
  · intro h
    have h1 := div_mod_of_row n i k hk
    have h2 := div_mod_of_row n r j hj
    rw [h] at h1
    exact ⟨h1.1.symm.trans h2.1, h1.2.symm.trans h2.2⟩
  · rintro ⟨rfl, rfl⟩
    rfl

theorem rowPart_self (n r j : Nat) :
    rowPart n r (j + 1) r j = if 0 < j then [r * n + j - 1] else [] := by
  unfold rowPart
  split_ifs <;> first | omega | rfl

theorem rowPart_prev (n r j k : Nat) (hj : j < n) (hk : k + 1 = j) :
    rowPart n r (j + 1) r k = rowPart n r j r k ++ [r * n + j] := by
  unfold rowPart
  subst hk
  split_ifs <;> first | omega | simp [Nat.add_assoc]

theorem rowPart_other (n r j i k : Nat) (h1 : ¬ (i = r ∧ k = j)) (h2 : ¬ (i = r ∧ k + 1 = j)) :
    rowPart n r (j + 1) i k = rowPart n r j i k := by
  unfold rowPart
  split_ifs <;> first | omega | rfl

theorem upPart_row_nil (n r k : Nat) : upPart n r 0 r k = [] := by
  unfold upPart
  split_ifs <;> first | omega | rfl

theorem downPart_row_nil (n r t k : Nat) : downPart n r t r k = [] := by
  unfold downPart
  split_ifs <;> first | omega | rfl

theorem ctorCell_edges (n r j : Nat) (st : List Hex × Nat) (hr : r < n) (hj : j < n)
    (hc : st.2 = r * n + j) (hlen : st.1.length = n * n)
    (h : ∀ i k, i < n → k < n →
      (st.1.getD (i * n + k) (Hex.ctor 0 0 0)).edges = nbrsAt n r j r 0 i k) :
    ∀ i k, i < n → k < n →
      ((ctorCell r st j).1.getD (i * n + k) (Hex.ctor 0 0 0)).edges
        = nbrsAt n r (j + 1) r 0 i k := by
  intro i k hi hk
  have hidx : i * n + k < n * n := mul_add_lt_sq hi hk
  have hold := h i k hi hk
  have e1 : (r * n + j = i * n + k) ↔ (i = r ∧ k = j) := by
    rw [eq_comm]; exact cell_eq_iff hk hj
  have hself : (i = r ∧ k = j) →
      (if 0 < j then [r * n + j - 1] else []) = nbrsAt n r (j + 1) r 0 i k := by
    rintro ⟨rfl, rfl⟩
    unfold nbrsAt
    rw [rowPart_self, upPart_row_nil, downPart_row_nil, List.append_nil, List.append_nil]
  have hoth : ¬ (i = r ∧ k = j) → ¬ (i = r ∧ k + 1 = j) →
      nbrsAt n r j r 0 i k = nbrsAt n r (j + 1) r 0 i k := by
    intro c1 c2
    unfold nbrsAt
    rw [rowPart_other n r j i k c1 c2]
  unfold ctorCell
  simp only []
  by_cases hj0 : j > 0
  · have e2 : (r * n + j - 1 = i * n + k) ↔ (i = r ∧ k + 1 = j) := by
      have hj1 : j - 1 < n := by omega
      have := cell_eq_iff (i := i) (r := r) hk hj1
      constructor
      · intro hh
        have h3 := this.mp (by omega)
        exact ⟨h3.1, by omega⟩
      · rintro ⟨rfl, rfl⟩
        omega
    rw [if_pos hj0, edges_pushEdge, edges_pushEdge, edges_set, pushEdge_length,
      List.length_set, hc, hlen, hold]
    simp only [hidx, and_true, e1, e2]
    by_cases c1 : i = r ∧ k = j
    · have c2 : ¬ (i = r ∧ k + 1 = j) := by omega
      rw [if_neg c2, if_pos c1, if_pos c1, ← hself c1, if_pos hj0]
      rfl
    · rw [if_neg c1, if_neg c1]
      by_cases c2 : i = r ∧ k + 1 = j
      · rw [if_pos c2]
        obtain ⟨rfl, hkj⟩ := c2
        unfold nbrsAt
        rw [rowPart_prev n i j k hj hkj, upPart_row_nil, downPart_row_nil]
        simp only [List.append_nil]
      · rw [if_neg c2]
        exact hoth c1 c2
  · have hj00 : j = 0 := by omega
    rw [if_neg hj0, edges_set, hc, hlen, hold]
    simp only [hidx, and_true, e1]
    by_cases c1 : i = r ∧ k = j
    · rw [if_pos c1, ← hself c1, if_neg hj0]
      rfl
    · rw [if_neg c1]
      exact hoth c1 (by omega)

theorem upPart_before (n r t : Nat) : upPart n r t r t = [] := by
  unfold upPart
  split_ifs <;> first | omega | rfl

theorem upPart_self (n r t : Nat) :
    upPart n (r + 1) (t + 1) (r + 1) t =
      [r * n + t] ++ (if t + 1 < n then [r * n + t + 1] else []) := by
  unfold upPart
  split_ifs <;> first | omega | simp

theorem upPart_other (n r t i k : Nat) (h : ¬ (i = r ∧ k = t)) :
    upPart n r (t + 1) i k = upPart n r t i k := by
  unfold upPart
  split_ifs <;> first | omega | rfl

theorem downPart_same (n r t : Nat) (hr : r + 1 < n) :
    downPart n (r + 1) (t + 1) r t = downPart n (r + 1) t r t ++ [(r + 1) * n + t] := by
  unfold downPart
  split_ifs <;> first | omega | simp

theorem downPart_diag (n r t : Nat) (hr : r + 1 < n) :
    downPart n (r + 1) t r (t + 1) = [] ∧
    downPart n (r + 1) (t + 1) r (t + 1) = [(r + 1) * n + t] := by
  unfold downPart
  constructor
  · split_ifs <;> first | omega | rfl
  · split_ifs <;> first | omega | simp

theorem downPart_other (n r t i k : Nat) (h1 : ¬ (i + 1 = r ∧ k = t))
    (h2 : ¬ (i + 1 = r ∧ k = t + 1)) :
    downPart n r (t + 1) i k = downPart n r t i k := by
  unfold downPart
  split_ifs <;> first | omega | rfl

theorem ctorLink_edges (n r t : Nat) (cells : List Hex) (hr : r + 1 < n) (ht : t < n)
    (hn : n < 4294967296) (hlen : cells.length = n * n)
    (h : ∀ i k, i < n → k < n →
      (cells.getD (i * n + k) (Hex.ctor 0 0 0)).edges = nbrsAt n (r + 2) 0 (r + 1) t i k) :
    ∀ i k, i < n → k < n →
      ((ctorLink n (r + 1) cells t).getD (i * n + k) (Hex.ctor 0 0 0)).edges
        = nbrsAt n (r + 2) 0 (r + 1) (t + 1) i k := by
  intro i k hi hk
  have hidx : i * n + k < n * n := mul_add_lt_sq hi hk
  have hold := h i k hi hk
  have hus : usub n 1 = n - 1 := usub_of_le (by omega) hn
  have a1 : t + n * (r + 1) = (r + 1) * n + t := by ring
  have a2 : t + n * (r + 1 - 1) = r * n + t := by
    rw [Nat.add_sub_cancel]; ring
  have eA : ((r + 1) * n + t = i * n + k) ↔ (i = r + 1 ∧ k = t) := by
    rw [eq_comm]; exact cell_eq_iff hk ht
  have eB : (r * n + t = i * n + k) ↔ (i = r ∧ k = t) := by
    rw [eq_comm]; exact cell_eq_iff hk ht
  have eC : t + 1 < n → ((r * n + t + 1 = i * n + k) ↔ (i = r ∧ k = t + 1)) := by
    intro ht1
    rw [Nat.add_assoc, eq_comm]
    exact cell_eq_iff hk ht1
  have hE : ((ctorLink n (r + 1) cells t).getD (i * n + k) (Hex.ctor 0 0 0)).edges =
      if i = r + 1 ∧ k = t then
        (cells.getD (i * n + k) (Hex.ctor 0 0 0)).edges ++
          ([r * n + t] ++ (if t + 1 < n then [r * n + t + 1] else []))
      else if i = r ∧ k = t then
        (cells.getD (i * n + k) (Hex.ctor 0 0 0)).edges ++ [(r + 1) * n + t]
      else if i = r ∧ k = t + 1 then
        (cells.getD (i * n + k) (Hex.ctor 0 0 0)).edges ++ [(r + 1) * n + t]
      else (cells.getD (i * n + k) (Hex.ctor 0 0 0)).edges := by
    unfold ctorLink
    simp only [a1, a2, hus]
    by_cases ht1 : t < n - 1
    · have ht1' : t + 1 < n := by omega
      rw [if_pos ht1, if_pos ht1']
      simp only [edges_pushEdge, pushEdge_length, hlen, hidx, and_true, eA, eB, eC ht1']
      split_ifs <;> first | rfl | omega | simp
    · have ht1' : ¬ t + 1 < n := by omega
      rw [if_neg ht1, if_neg ht1']
      simp only [edges_pushEdge, pushEdge_length, hlen, hidx, and_true, eA, eB]
      split_ifs <;> first | rfl | omega
  rw [hE, hold]
  by_cases cA : i = r + 1 ∧ k = t
  · rw [if_pos cA]
    obtain ⟨rfl, rfl⟩ := cA
    unfold nbrsAt
    rw [upPart_self, upPart_before, downPart_row_nil, downPart_row_nil]
    simp only [List.append_nil, List.nil_append]
  · rw [if_neg cA]
    by_cases cB : i = r ∧ k = t
    · rw [if_pos cB]
      obtain ⟨rfl, rfl⟩ := cB
      unfold nbrsAt
      rw [downPart_same n i k hr, upPart_other n (i + 1) k i k (by omega)]
      simp only [List.append_assoc]
    · rw [if_neg cB]
      by_cases cC : i = r ∧ k = t + 1
      · rw [if_pos cC]
        obtain ⟨rfl, rfl⟩ := cC
        unfold nbrsAt
        rw [(downPart_diag n i t hr).1, (downPart_diag n i t hr).2,
          upPart_other n (i + 1) t i (t + 1) (by omega)]
        simp only [List.append_nil, List.append_assoc]
      · rw [if_neg cC]
        unfold nbrsAt
        rw [upPart_other n (r + 1) t i k cA,
          downPart_other n (r + 1) t i k (by omega) (by omega)]

theorem rowPart_next (n r i k : Nat) (hk : k < n) :
    rowPart n r n i k = rowPart n (r + 1) 0 i k := by
  unfold rowPart
  split_ifs <;> first | omega | rfl

theorem upPart_next (n r i k : Nat) (hk : k < n) :
    upPart n r n i k = upPart n (r + 1) 0 i k := by
  unfold upPart
  split_ifs <;> first | omega | rfl

theorem downPart_next (n r i k : Nat) (hk : k < n) :
    downPart n r n i k = downPart n (r + 1) 0 i k := by
  unfold downPart
  split_ifs <;> first | omega | rfl

theorem linkParts_zero (n i k : Nat) :
    upPart n 0 0 i k = upPart n 1 0 i k ∧ downPart n 0 0 i k = downPart n 1 0 i k := by
  unfold upPart downPart
  constructor
  · split_ifs <;> first | omega | rfl
  · split_ifs <;> first | omega | rfl

theorem nbrsAt_start (n i k : Nat) : nbrsAt n 0 0 0 0 i k = [] := by
  unfold nbrsAt rowPart upPart downPart
  split_ifs <;> first | omega | rfl

theorem rowPart_final (n i k : Nat) (hi : i < n) :
    rowPart n n 0 i k =
      (if 0 < k then [i * n + k - 1] else []) ++ (if k + 1 < n then [i * n + k + 1] else []) := by
  unfold rowPart
  split_ifs <;> first | omega | rfl

theorem upPart_final (n i k : Nat) (hi : i < n) :
    upPart n n 0 i k =
      (if 0 < i then [(i - 1) * n + k] else []) ++
      (if 0 < i ∧ k + 1 < n then [(i - 1) * n + k + 1] else []) := by
  unfold upPart
  split_ifs <;> first | omega | rfl

theorem downPart_final (n i k : Nat) :
    downPart n n 0 i k =
      (if 0 < k ∧ i + 1 < n then [(i + 1) * n + k - 1] else []) ++
      (if i + 1 < n then [(i + 1) * n + k] else []) := by
  unfold downPart
  split_ifs <;> first | omega | rfl

theorem nbrsAt_final (n i k : Nat) (hi : i < n) :
    nbrsAt n n 0 n 0 i k = hexNeighbours n i k := by
  unfold nbrsAt hexNeighbours
  rw [rowPart_final n i k hi, upPart_final n i k hi, downPart_final]
  simp only [List.append_assoc]

theorem ctorCell_length (r : Nat) (st : List Hex × Nat) (j : Nat) :
    (ctorCell r st j).1.length = st.1.length ∧ (ctorCell r st j).2 = st.2 + 1 := by
  constructor
  · unfold ctorCell
    simp only []
    split_ifs
    · rw [pushEdge_length, pushEdge_length, List.length_set]
    · rw [List.length_set]
  · unfold ctorCell
    simp only []

theorem ctorLink_length (n r : Nat) (cells : List Hex) (t : Nat) :
    (ctorLink n r cells t).length = cells.length := by
  unfold ctorLink
  simp only []
  split_ifs
  · rw [pushEdge_length, pushEdge_length, pushEdge_length, pushEdge_length]
  · rw [pushEdge_length, pushEdge_length]

theorem ctorCell_fold_edges (n r : Nat) (st : List Hex × Nat) (hr : r < n)
    (hc : st.2 = r * n) (hlen : st.1.length = n * n)
    (h : ∀ i k, i < n → k < n →
      (st.1.getD (i * n + k) (Hex.ctor 0 0 0)).edges = nbrsAt n r 0 r 0 i k)
    (j : Nat) (hj : j ≤ n) :
    ((List.range j).foldl (ctorCell r) st).2 = r * n + j ∧
    ((List.range j).foldl (ctorCell r) st).1.length = n * n ∧
    ∀ i k, i < n → k < n →
      (((List.range j).foldl (ctorCell r) st).1.getD (i * n + k) (Hex.ctor 0 0 0)).edges
        = nbrsAt n r j r 0 i k := by
  induction j with
  | zero => exact ⟨hc, hlen, h⟩
  | succ j ih =>
    obtain ⟨h1, h2, h3⟩ := ih (Nat.le_of_succ_le hj)
    rw [List.range_succ, List.foldl_append, List.foldl_cons, List.foldl_nil]
    have hj' : j < n := hj
    generalize List.foldl (ctorCell r) st (List.range j) = st' at h1 h2 h3 ⊢
    obtain ⟨l1, l2⟩ := ctorCell_length r st' j
    exact ⟨by rw [l2, h1]; rfl, by rw [l1, h2], ctorCell_edges n r j st' hr hj' h1 h2 h3⟩

theorem ctorLink_fold_edges (n r : Nat) (cells : List Hex) (hr : r + 1 < n)
    (hn : n < 4294967296) (hlen : cells.length = n * n)
    (h : ∀ i k, i < n → k < n →
      (cells.getD (i * n + k) (Hex.ctor 0 0 0)).edges = nbrsAt n (r + 2) 0 (r + 1) 0 i k)
    (t : Nat) (ht : t ≤ n) :
    ((List.range t).foldl (ctorLink n (r + 1)) cells).length = n * n ∧
    ∀ i k, i < n → k < n →
      (((List.range t).foldl (ctorLink n (r + 1)) cells).getD (i * n + k)
        (Hex.ctor 0 0 0)).edges = nbrsAt n (r + 2) 0 (r + 1) t i k := by
  induction t with
  | zero => exact ⟨hlen, h⟩
  | succ t ih =>
    obtain ⟨h1, h2⟩ := ih (Nat.le_of_succ_le ht)
    rw [List.range_succ, List.foldl_append, List.foldl_cons, List.foldl_nil]
    have ht' : t < n := ht
    generalize List.foldl (ctorLink n (r + 1)) cells (List.range t) = cells' at h1 h2 ⊢
    exact ⟨by rw [ctorLink_length, h1], ctorLink_edges n r t cells' hr ht' hn h1 h2⟩

theorem ctorRow_edges (n r : Nat) (st : List Hex × Nat) (hr : r < n) (hn : n < 4294967296)
    (hc : st.2 = r * n) (hlen : st.1.length = n * n)
    (h : ∀ i k, i < n → k < n →
      (st.1.getD (i * n + k) (Hex.ctor 0 0 0)).edges = nbrsAt n r 0 r 0 i k) :
    (ctorRow n st r).2 = (r + 1) * n ∧
    (ctorRow n st r).1.length = n * n ∧
    ∀ i k, i < n → k < n →
      ((ctorRow n st r).1.getD (i * n + k) (Hex.ctor 0 0 0)).edges
        = nbrsAt n (r + 1) 0 (r + 1) 0 i k := by
  obtain ⟨h1, h2, h3⟩ := ctorCell_fold_edges n r st hr hc hlen h n (Nat.le_refl _)
  have e : r * n + n = (r + 1) * n := by ring
  rw [e] at h1
  unfold ctorRow
  generalize List.foldl (ctorCell r) st (List.range n) = st' at h1 h2 h3
  by_cases hpos : r > 0
  · rw [if_pos hpos]
    obtain ⟨r', rfl⟩ : ∃ r', r = r' + 1 := ⟨r - 1, by omega⟩
    have h3' : ∀ i k, i < n → k < n →
        (st'.1.getD (i * n + k) (Hex.ctor 0 0 0)).edges
          = nbrsAt n (r' + 2) 0 (r' + 1) 0 i k := by
      intro i k hi hk
      rw [h3 i k hi hk]
      unfold nbrsAt
      rw [rowPart_next n (r' + 1) i k hk]
    obtain ⟨g1, g2⟩ := ctorLink_fold_edges n r' st'.1 hr hn h2 h3' n (Nat.le_refl _)
    refine ⟨h1, g1, ?_⟩
    intro i k hi hk
    show ((List.foldl (ctorLink n (r' + 1)) st'.1 (List.range n)).getD (i * n + k)
      (Hex.ctor 0 0 0)).edges = _
    rw [g2 i k hi hk]
    unfold nbrsAt
    rw [upPart_next n (r' + 1) i k hk, downPart_next n (r' + 1) i k hk]
  · rw [if_neg hpos]
    have hr0 : r = 0 := by omega
    subst hr0
    refine ⟨h1, h2, ?_⟩
    intro i k hi hk
    rw [h3 i k hi hk]
    unfold nbrsAt
    rw [rowPart_next n 0 i k hk, (linkParts_zero n i k).1, (linkParts_zero n i k).2]

theorem ctorRow_fold_edges (n : Nat) (hn : n * n < 4294967296) (r : Nat) (hr : r ≤ n) :
    ((List.range r).foldl (ctorRow n) (List.replicate (u32 (n * n)) (Hex.ctor 0 0 0), 0)).2
      = r * n ∧
    ((List.range r).foldl (ctorRow n)
      (List.replicate (u32 (n * n)) (Hex.ctor 0 0 0), 0)).1.length = n * n ∧
    ∀ i k, i < n → k < n →
      (((List.range r).foldl (ctorRow n)
        (List.replicate (u32 (n * n)) (Hex.ctor 0 0 0), 0)).1.getD (i * n + k)
          (Hex.ctor 0 0 0)).edges = nbrsAt n r 0 r 0 i k := by
  have hn' : n < 4294967296 := by
    rcases Nat.eq_zero_or_pos n with h0 | h0
    · omega
    · have : n ≤ n * n := Nat.le_mul_of_pos_left _ h0
      omega
  induction r with
  | zero =>
    rw [List.range_zero, List.foldl_nil]
    refine ⟨by rw [Nat.zero_mul], by rw [List.length_replicate, u32_of_lt hn], ?_⟩
    intro i k _ _
    rw [nbrsAt_start]
    show ((List.replicate (u32 (n * n)) (Hex.ctor 0 0 0)).getD (i * n + k) (Hex.ctor 0 0 0)).edges
      = []
    rw [List.getD_eq_getElem?_getD, List.getElem?_replicate]
    split <;> rfl
  | succ r ih =>
    obtain ⟨h1, h2, h3⟩ := ih (Nat.le_of_succ_le hr)
    rw [List.range_succ, List.foldl_append, List.foldl_cons, List.foldl_nil]
    have hr' : r < n := hr
    generalize List.foldl (ctorRow n) (List.replicate (u32 (n * n)) (Hex.ctor 0 0 0), 0)
      (List.range r) = st at h1 h2 h3 ⊢
    exact ctorRow_edges n r st hr' hn' h1 h2 h3

/-- The neighbour list that the constructor stores for every cell. -/
theorem ctor_edges (n : Nat) (hn : n * n < 4294967296) (i k : Nat) (hi : i < n) (hk : k < n) :
    ((HexBoard.ctor n).hexAt (i * n + k)).edges = hexNeighbours n i k := by
  rw [← nbrsAt_final n i k hi]
  exact (ctorRow_fold_edges n hn n (Nat.le_refl _)).2.2 i k hi hk

theorem mem_ite_singleton (c : Prop) [Decidable c] (a x : Nat) :
    x ∈ (if c then [a] else []) ↔ c ∧ x = a := by
  split_ifs with h
  · simp [h]
  · simp [h]

/-- Membership in the neighbour list in terms of coordinates. -/
theorem mem_hexNeighbours (n i k i' k' : Nat) (hk : k < n) (hk' : k' < n) :
    i' * n + k' ∈ hexNeighbours n i k ↔
      (i' = i ∧ k' + 1 = k) ∨ (i' = i ∧ k' = k + 1) ∨ (i' + 1 = i ∧ k' = k) ∨
      (i' + 1 = i ∧ k' = k + 1) ∨ ((i' = i + 1 ∧ k' + 1 = k) ∧ i + 1 < n) ∨
      ((i' = i + 1 ∧ k' = k) ∧ i + 1 < n) := by
  have m1 : (0 < k ∧ i' * n + k' = i * n + k - 1) ↔ (i' = i ∧ k' + 1 = k) := by
    constructor
    · rintro ⟨h0, h⟩
      have := (cell_eq_iff (i := i') (r := i) hk' (by omega : k - 1 < n)).mp (by omega)
      omega
    · rintro ⟨rfl, rfl⟩
      exact ⟨by omega, by omega⟩
  have m2 : (k + 1 < n ∧ i' * n + k' = i * n + k + 1) ↔ (i' = i ∧ k' = k + 1) := by
    constructor
    · rintro ⟨h0, h⟩
      exact (cell_eq_iff (i := i') (r := i) hk' h0).mp (by omega)
    · rintro ⟨rfl, rfl⟩
      exact ⟨hk', by omega⟩
  have m3 : (0 < i ∧ i' * n + k' = (i - 1) * n + k) ↔ (i' + 1 = i ∧ k' = k) := by
    constructor
    · rintro ⟨h0, h⟩
      have := (cell_eq_iff (i := i') (r := i - 1) hk' hk).mp h
      omega
    · rintro ⟨rfl, rfl⟩
      exact ⟨by omega, by rw [Nat.add_sub_cancel]⟩
  have m4 : ((0 < i ∧ k + 1 < n) ∧ i' * n + k' = (i - 1) * n + k + 1) ↔
      (i' + 1 = i ∧ k' = k + 1) := by
    constructor
    · rintro ⟨⟨h0, h1⟩, h⟩
      have := (cell_eq_iff (i := i') (r := i - 1) hk' h1).mp (by omega)
      omega
    · rintro ⟨rfl, rfl⟩
      exact ⟨⟨by omega, hk'⟩, by rw [Nat.add_sub_cancel]; omega⟩
  have m5 : ((0 < k ∧ i + 1 < n) ∧ i' * n + k' = (i + 1) * n + k - 1) ↔
      ((i' = i + 1 ∧ k' + 1 = k) ∧ i + 1 < n) := by
    constructor
    · rintro ⟨⟨h0, h1⟩, h⟩
      have := (cell_eq_iff (i := i') (r := i + 1) hk' (by omega : k - 1 < n)).mp (by omega)
      omega
    · rintro ⟨⟨rfl, rfl⟩, h1⟩
      exact ⟨⟨by omega, h1⟩, by omega⟩
  have m6 : (i + 1 < n ∧ i' * n + k' = (i + 1) * n + k) ↔
      ((i' = i + 1 ∧ k' = k) ∧ i + 1 < n) := by
    constructor
    · rintro ⟨h1, h⟩
      exact ⟨(cell_eq_iff (i := i') (r := i + 1) hk' hk).mp h, h1⟩
    · rintro ⟨⟨rfl, rfl⟩, h1⟩
      exact ⟨h1, rfl⟩
  unfold hexNeighbours
  simp only [List.mem_append, mem_ite_singleton, m1, m2, m3, m4, m5, m6, or_assoc]

theorem hexNeighbours_length (n i k : Nat) : (hexNeighbours n i k).length ≤ 6 := by
  unfold hexNeighbours
  simp only [List.length_append]
  have h : ∀ (c : Prop) [Decidable c] (a : Nat), (if c then [a] else []).length ≤ 1 := by
    intro c _ a
    split_ifs <;> simp
  have h1 := h (0 < k) (i * n + k - 1)
  have h2 := h (k + 1 < n) (i * n + k + 1)
  have h3 := h (0 < i) ((i - 1) * n + k)
  have h4 := h (0 < i ∧ k + 1 < n) ((i - 1) * n + k + 1)
  have h5 := h (0 < k ∧ i + 1 < n) ((i + 1) * n + k - 1)
  have h6 := h (i + 1 < n) ((i + 1) * n + k)
  omega

theorem hexNeighbours_nodup (n i k : Nat) (hk : k < n) :
    (hexNeighbours n i k).Nodup ∧ i * n + k ∉ hexNeighbours n i k := by
  have e1 : (i + 1) * n = i * n + n := by ring
  have e2 : 0 < i → (i - 1) * n + n = i * n := by
    intro h
    obtain ⟨m, rfl⟩ : ∃ m, i = m + 1 := ⟨i - 1, by omega⟩
    rw [Nat.add_sub_cancel]
    ring
  unfold hexNeighbours
  constructor
  · split_ifs with c1 c2 c3 c4 c5 c6 <;>
      simp only [List.nil_append, List.append_nil, List.singleton_append, List.cons_append,
        List.nodup_cons, List.mem_cons, List.mem_singleton, List.not_mem_nil, List.nodup_nil,
        or_false, not_or, and_true, not_false_eq_true] <;>
      first | (have h9 := e2 (by omega); omega) | omega
  · split_ifs with c1 c2 c3 c4 c5 c6 <;>
      simp only [List.nil_append, List.append_nil, List.singleton_append, List.cons_append,
        List.mem_cons, List.mem_singleton, List.not_mem_nil,
        or_false, not_or, not_false_eq_true] <;>
      first | (have h9 := e2 (by omega); omega) | omega

/-- The neighbour relation between cells of the grid is symmetric. -/
theorem hexNeighbours_symm (n i k i' k' : Nat) (hi : i < n) (hk : k < n) (hi' : i' < n)
    (hk' : k' < n) (h : i' * n + k' ∈ hexNeighbours n i k) :
    i * n + k ∈ hexNeighbours n i' k' := by
  rw [mem_hexNeighbours n i k i' k' hk hk'] at h
  rw [mem_hexNeighbours n i' k' i k hk' hk]
  rcases h with h | h | h | h | h | h
  · exact Or.inr (Or.inl ⟨by omega, by omega⟩)
  · exact Or.inl ⟨by omega, by omega⟩
  · exact Or.inr (Or.inr (Or.inr (Or.inr (Or.inr ⟨⟨by omega, by omega⟩, by omega⟩))))
  · exact Or.inr (Or.inr (Or.inr (Or.inr (Or.inl ⟨⟨by omega, by omega⟩, by omega⟩))))
  · exact Or.inr (Or.inr (Or.inr (Or.inl ⟨by omega, by omega⟩)))
  · exact Or.inr (Or.inr (Or.inl ⟨by omega, by omega⟩))

/-! ## The undo slip and its consequences -/

/-- C4 (failing input): on the size-3 board holding one Blue stone at (1,1), `undo(Blue,1,1)`
empties the cell and decrements `occupied` from 1 to 0, but the cell index 0 stays in
Blue's set. -/
theorem undo_leaves_index_in_set :
    board3Blue11.statusAt 0 = HexStatus.BLUE ∧
    board3Blue11.blueEdgeList = {0} ∧
    board3Blue11.occupied = 1 ∧
    (board3Blue11.undo Player.BLUE 1 1).statusAt 0 = HexStatus.EMPTY ∧
    (board3Blue11.undo Player.BLUE 1 1).occupied = 0 ∧
    0 ∈ (board3Blue11.undo Player.BLUE 1 1).blueEdgeList := by
  decide!

/-- C5 (failing input): the state reached from the fresh size-3 board by `move(Blue,1,1)`
followed by `undo(Blue,1,1)` has cell 0 `EMPTY` while 0 is in Blue's set, so the statuses
do not agree with the sets. -/
theorem reachable_state_breaks_agreement :
    (board3.run [Op.move Player.BLUE 1 1, Op.undo Player.BLUE 1 1]).statusAt 0
        = HexStatus.EMPTY ∧
    0 ∈ (board3.run [Op.move Player.BLUE 1 1, Op.undo Player.BLUE 1 1]).blueEdgeList ∧
    ¬ (board3.run [Op.move Player.BLUE 1 1, Op.undo Player.BLUE 1 1]).Agree := by
  refine ⟨by decide!, by decide!, ?_⟩
  intro h
  have h0 := (h 0 (by decide!)).1
  exact absurd (h0.mp (by decide!)) (by decide!)

/-- C2 (failing input): on the empty size-3 board with Blue to move, one trial per cell,
output coordinates holding (0,0) and permutation outcomes `shLose`, no candidate wins its
trial, `getAIMove` never writes the output coordinates, and the returned (0,0) is out of
bounds. -/
theorem getAIMove_returns_untouched_coordinates :
    (∀ i j l, (shLose i j l).Perm l) ∧
    board3.isLegal 1 1 = true ∧
    (board3.getAIMove Player.BLUE 0 0 1 shLose).2 = (0, 0) ∧
    board3.isOOB 0 0 = true := by
  refine ⟨?_, by decide!, by decide!, by decide!⟩
  intro i j l
  unfold shLose
  split
  · exact List.Perm.refl l
  · exact List.reverse_perm l

/-- C3 (failing input): on the empty size-3 board, `getAIMove` for Blue with one trial per
cell and identity shuffles returns with Blue's set equal to {4,5,6,7,8}, although it was
empty before the call and every cell is `EMPTY` again. -/
theorem getAIMove_corrupts_player_set :
    (∀ i j l, (shId i j l).Perm l) ∧
    board3.Agree ∧
    board3.occupied = board3.nonEmpty ∧
    board3.blueEdgeList = ∅ ∧
    (board3.getAIMove Player.BLUE 0 0 1 shId).1.blueEdgeList = {4, 5, 6, 7, 8} ∧
    (∀ i, i < 9 → (board3.getAIMove Player.BLUE 0 0 1 shId).1.statusAt i = HexStatus.EMPTY) := by
  refine ⟨fun _ _ l => List.Perm.refl l, ?_, by decide!, by decide!, by decide!, by decide!⟩
  intro i hi
  have hi9 : i < 9 := hi
  interval_cases i <;> decide!

/-! ## The completion sampler: fill, reshuffle, revert -/

/-- C6: on a board with empty ledger, sets agreeing with the statuses and `occupied` equal
to the number of non-`EMPTY` cells, `k ≥ 1` calls of `randomize` followed by one
`revertRandom` leave every cell's status, both per-player sets and `occupied` as they
were, whatever permutations the shuffles produce. -/
theorem randomize_revert_roundtrip (b : HexBoard)
    (sh : Nat → List HexStatus → List HexStatus) (k : Nat)
    (hS : b.Sized) (hL : b.randomized = []) (hA : b.Agree) (hocc : b.occupied = b.nonEmpty)
    (hk : 1 ≤ k) (hperm : ∀ j l, (sh j l).Perm l) :
    (∀ i, i < b.cells → ((b.randomizeN sh k).revertRandom).statusAt i = b.statusAt i) ∧
    ((b.randomizeN sh k).revertRandom).blueEdgeList = b.blueEdgeList ∧
    ((b.randomizeN sh k).revertRandom).redEdgeList = b.redEdgeList ∧
    ((b.randomizeN sh k).revertRandom).occupied = b.occupied := by
  obtain ⟨k, rfl⟩ : ∃ k', k = k' + 1 := ⟨k - 1, by omega⟩
  have hF := randomizeN_filled b sh hS hL hocc hperm k
  have hI := randomizeN_setInv b sh hS hL hocc hA hperm k
  generalize b.randomizeN sh (k + 1) = bk at hF hI
  obtain ⟨_, _, h3, h4⟩ := sized_free b hS hocc
  obtain ⟨r1, r2, _, r4⟩ := revert_fold bk.randomized bk
  have hin : ∀ h, h ∈ bk.randomized → h < b.cells := by
    intro h hh
    rw [hF.led, mem_emptyCells] at hh
    exact hh.1
  have hI2 : SetInv b bk.revertRandom :=
    revert_fold_setInv bk.randomized b bk hF.size (by rw [hF.len]; exact hS.1) hin hI
  have hst : ∀ i, i < b.cells → bk.revertRandom.statusAt i = b.statusAt i := by
    intro i hi
    show (bk.randomized.foldl revertCell bk).statusAt i = _
    rw [r4 i]
    by_cases hm : i ∈ bk.randomized
    · rw [if_pos ⟨hm, by rw [hF.len, hS.1]; exact hi⟩]
      rw [hF.led, mem_emptyCells] at hm
      exact hm.2.symm
    · rw [if_neg (fun h => hm h.1)]
      exact hF.keep i (by rw [← hF.led]; exact hm)
  have hcells : bk.revertRandom.cells = b.cells := by
    show (bk.randomized.foldl revertCell bk).size * (bk.randomized.foldl revertCell bk).size = _
    rw [r1, hF.size]; rfl
  refine ⟨hst, ?_, ?_, ?_⟩
  · ext a
    by_cases ha : a < b.cells
    · rw [(hI2.agree a (by rw [hcells]; exact ha)).1, hst a ha, (hA a ha).1]
    · exact hI2.outB a (Nat.le_of_not_lt ha)
  · ext a
    by_cases ha : a < b.cells
    · rw [(hI2.agree a (by rw [hcells]; exact ha)).2, hst a ha, (hA a ha).2]
    · exact hI2.outR a (Nat.le_of_not_lt ha)
  · show (bk.randomized.foldl revertCell bk).occupied = _
    have hlen : bk.randomized.length = b.cells - b.occupied := by rw [hF.led, h3]
    rw [revert_fold_occupied bk.randomized bk (by rw [hF.occ, hlen]; omega)
      (by rw [hF.occ]; have := hS.2; omega), hF.occ, hlen]
    omega

/-- Instance of `randomize_revert_roundtrip`: the size-3 board holding one Blue stone, two
fills with reversing shuffles, then the revert. -/
theorem randomize_revert_roundtrip_witness :
    (∀ i, i < board3Blue11.cells →
      ((board3Blue11.randomizeN shRev 2).revertRandom).statusAt i = board3Blue11.statusAt i) ∧
    ((board3Blue11.randomizeN shRev 2).revertRandom).blueEdgeList = board3Blue11.blueEdgeList ∧
    ((board3Blue11.randomizeN shRev 2).revertRandom).redEdgeList = board3Blue11.redEdgeList ∧
    ((board3Blue11.randomizeN shRev 2).revertRandom).occupied = board3Blue11.occupied :=
  randomize_revert_roundtrip board3Blue11 shRev 2 (by decide!) (by decide!) (by decide!)
    (by decide!) (by decide) (fun _ l => List.reverse_perm l)

/-- C7 (counterexample): the state reached from the fresh size-3 board by `randomize` and
`revertRandom` keeps a populated ledger, and the `randomize` that follows leaves every
cell `EMPTY`, so the board is not full. -/
theorem randomize_after_revert_not_full :
    (∀ op, op ∈ [Op.randomize id, Op.revertRandom] → op.Valid) ∧
    board3Reverted = board3.run [Op.randomize id, Op.revertRandom] ∧
    (board3Reverted.randomize id).statusAt 0 = HexStatus.EMPTY ∧
    ¬ (board3Reverted.randomize id).Full := by
  refine ⟨?_, rfl, by decide!, by decide!⟩
  intro op hop
  simp only [List.mem_cons, List.mem_singleton, List.mem_nil_iff, or_false] at hop
  rcases hop with rfl | rfl
  · exact fun l => List.Perm.refl l
  · exact True.intro

/-- C7 (amended): on a board whose ledger is empty and whose `occupied` equals the number
of non-`EMPTY` cells, after `k ≥ 1` successive calls of `randomize` no cell is `EMPTY`
and `occupied == size * size`, whatever permutations the shuffles produce. -/
theorem randomizeN_full (b : HexBoard) (sh : Nat → List HexStatus → List HexStatus) (k : Nat)
    (hS : b.Sized) (hL : b.randomized = []) (hocc : b.occupied = b.nonEmpty)
    (hk : 1 ≤ k) (hperm : ∀ j l, (sh j l).Perm l) :
    (b.randomizeN sh k).Full := by
  obtain ⟨k, rfl⟩ : ∃ k', k = k' + 1 := ⟨k - 1, by omega⟩
  have hF := randomizeN_filled b sh hS hL hocc hperm k
  refine ⟨?_, ?_⟩
  · intro i hi
    rw [hF.cells_eq] at hi
    exact hF.all_nonEmpty i hi
  · rw [hF.occ, hF.cells_eq]

/-- Instance of `randomizeN_full`: the size-3 board holding one Blue stone, two fills with
reversing shuffles. -/
theorem randomizeN_full_witness : (board3Blue11.randomizeN shRev 2).Full :=
  randomizeN_full board3Blue11 shRev 2 (by decide!) (by decide!) (by decide!) (by decide)
    (fun _ l => List.reverse_perm l)

/-- C8 (counterexample): after `randomize` and `revertRandom` on the fresh size-3 board
the ledger still lists the nine cells. -/
theorem revertRandom_ledger_not_empty :
    ((board3.randomize id).revertRandom).randomized = [0, 1, 2, 3, 4, 5, 6, 7, 8] ∧
    ((board3.randomize id).revertRandom).randomized ≠ [] := by
  decide!

/-- C8 (amended): `revertRandom` leaves the ledger exactly as it was, and a legal `move`
empties it; so a ledger populated by `randomize` stays populated across `revertRandom`
until the next legal move. -/
theorem revertRandom_keeps_ledger (b : HexBoard) :
    b.revertRandom.randomized = b.randomized ∧
    (∀ p x y, b.isLegal x y = true → (b.move p x y).randomized = []) := by
  refine ⟨(revert_fold b.randomized b).2.2.1, ?_⟩
  intro p x y h
  unfold HexBoard.move
  rw [if_pos h]

/-- Instance of `revertRandom_keeps_ledger`: the size-3 board after a fill and its revert;
the legal move is Blue's (1,1). -/
theorem revertRandom_keeps_ledger_witness :
    board3Reverted.revertRandom.randomized = board3Reverted.randomized ∧
    board3Reverted.isLegal 1 1 = true ∧
    (board3Reverted.move Player.BLUE 1 1).randomized = [] :=
  ⟨(revertRandom_keeps_ledger board3Reverted).1, by decide!,
   (revertRandom_keeps_ledger board3Reverted).2 Player.BLUE 1 1 (by decide!)⟩

/-- C9: when `randomize` runs with an empty ledger on a board whose `occupied` equals the
number of non-`EMPTY` cells, with `freeCount = size*size - occupied`, exactly
`freeCount/2` of the previously `EMPTY` cells become Blue and `freeCount/2` become Red,
plus one more Red cell if `freeCount` is odd and the last mover is Blue, or one more Blue
cell if it is odd and the last mover is Red; every previously `EMPTY` cell receives a
colour and no other cell changes. -/
theorem randomize_balanced_split (b : HexBoard) (sh : List HexStatus → List HexStatus)
    (hS : b.Sized) (hL : b.randomized = []) (hocc : b.occupied = b.nonEmpty)
    (hperm : ∀ l, (sh l).Perm l) :
    b.turned (b.randomize sh) HexStatus.BLUE =
      (b.cells - b.occupied) / 2 +
        (if (b.cells - b.occupied) % 2 = 1 ∧ b.last = Player.RED then 1 else 0) ∧
    b.turned (b.randomize sh) HexStatus.RED =
      (b.cells - b.occupied) / 2 +
        (if (b.cells - b.occupied) % 2 = 1 ∧ b.last = Player.BLUE then 1 else 0) ∧
    (∀ i, i < b.cells → b.statusAt i = HexStatus.EMPTY →
      (b.randomize sh).statusAt i ≠ HexStatus.EMPTY) ∧
    (∀ i, i < b.cells → b.statusAt i ≠ HexStatus.EMPTY →
      (b.randomize sh).statusAt i = b.statusAt i) := by
  obtain ⟨hF, hlab⟩ := randomize_fresh b sh hS hL hocc hperm
  obtain ⟨hcb, hcr⟩ := freshLabels_count b hS hocc
  refine ⟨?_, ?_, ?_, ?_⟩
  · rw [turned_eq_count, hlab, (hperm _).count_eq, hcb]
  · rw [turned_eq_count, hlab, (hperm _).count_eq, hcr]
  · intro i hi he
    exact hF.full i ((mem_emptyCells b _ i).mpr ⟨hi, he⟩)
  · intro i _ hne
    exact hF.keep i (fun hm => hne ((mem_emptyCells b _ i).mp hm).2)

/-- Instance of `randomize_balanced_split`: the size-3 board holding one Blue stone (eight
free cells) and a reversing shuffle. -/
theorem randomize_balanced_split_witness :
    board3Blue11.turned (board3Blue11.randomize List.reverse) HexStatus.BLUE =
      (board3Blue11.cells - board3Blue11.occupied) / 2 +
        (if (board3Blue11.cells - board3Blue11.occupied) % 2 = 1 ∧
          board3Blue11.last = Player.RED then 1 else 0) ∧
    board3Blue11.turned (board3Blue11.randomize List.reverse) HexStatus.RED =
      (board3Blue11.cells - board3Blue11.occupied) / 2 +
        (if (board3Blue11.cells - board3Blue11.occupied) % 2 = 1 ∧
          board3Blue11.last = Player.BLUE then 1 else 0) ∧
    (∀ i, i < board3Blue11.cells → board3Blue11.statusAt i = HexStatus.EMPTY →
      (board3Blue11.randomize List.reverse).statusAt i ≠ HexStatus.EMPTY) ∧
    (∀ i, i < board3Blue11.cells → board3Blue11.statusAt i ≠ HexStatus.EMPTY →
      (board3Blue11.randomize List.reverse).statusAt i = board3Blue11.statusAt i) :=
  randomize_balanced_split board3Blue11 List.reverse (by decide!) (by decide!) (by decide!)
    (fun l => List.reverse_perm l)

/-- C10 (counterexample): the board reached from the fresh size-3 board by the calls
`move(Blue,1,1)`, `randomize`, `revertRandom`, `revertRandom`, `move(Red,1,2)`, `randomize`
has a populated ledger `[2,3,4,5,6,7,8,0,0,0,0,0,0,0,0]` written by that last fill, all its
cells are non-`EMPTY` and the sets agree with the statuses; the reshuffle with the reversal
as permutation changes the number of Blue cells among the ledger's cells from 1 to 7 and
turns the stone on cell 0 from Blue to Red. -/
theorem reshuffle_changes_split_on_padded_ledger :
    (∀ op, op ∈ paddedLedgerCalls → op.Valid) ∧
    boardPaddedLedger = board3.run paddedLedgerCalls ∧
    boardPaddedLedger.randomized = [2, 3, 4, 5, 6, 7, 8, 0, 0, 0, 0, 0, 0, 0, 0] ∧
    boardPaddedLedger.Sized ∧
    boardPaddedLedger.randomized ≠ [] ∧
    (∀ h, h ∈ boardPaddedLedger.randomized →
      h < boardPaddedLedger.cells ∧ boardPaddedLedger.statusAt h ≠ HexStatus.EMPTY) ∧
    boardPaddedLedger.Agree ∧
    (∀ l : List HexStatus, l.reverse.Perm l) ∧
    boardPaddedLedger.countAmong boardPaddedLedger.randomized HexStatus.BLUE = 1 ∧
    (boardPaddedLedger.randomize List.reverse).countAmong boardPaddedLedger.randomized
      HexStatus.BLUE = 7 ∧
    boardPaddedLedger.statusAt 0 = HexStatus.BLUE ∧
    (boardPaddedLedger.randomize List.reverse).statusAt 0 = HexStatus.RED := by
  refine ⟨?_, rfl, by decide!, by decide!, by decide!, by decide!, by decide!,
    fun l => List.reverse_perm l, by decide!, by decide!, by decide!, by decide!⟩
  intro op hop
  unfold paddedLedgerCalls at hop
  simp only [List.mem_cons, List.mem_singleton, List.mem_nil_iff, or_false] at hop
  rcases hop with rfl | rfl | rfl | rfl | rfl | rfl
  · exact True.intro
  · exact fun l => List.Perm.refl l
  · exact True.intro
  · exact True.intro
  · exact True.intro
  · exact fun l => List.reverse_perm l

/-- C10 (amended): when `randomize` runs with a populated ledger of pairwise distinct cell
indices whose cells are all non-`EMPTY` and the per-player sets agree with the statuses,
the numbers of Blue and of Red cells among the ledger's cells are the same after the call
as before, every cell outside the ledger keeps its status, the ledger is unchanged, and
the sets still agree with the statuses. -/
theorem reshuffle_keeps_split (b : HexBoard) (sh : List HexStatus → List HexStatus)
    (hS : b.Sized) (hL : b.randomized ≠ []) (hnd : b.randomized.Nodup)
    (hin : ∀ h, h ∈ b.randomized → h < b.cells ∧ b.statusAt h ≠ HexStatus.EMPTY)
    (hA : b.Agree) (hperm : ∀ l, (sh l).Perm l) :
    (b.randomize sh).countAmong b.randomized HexStatus.BLUE
      = b.countAmong b.randomized HexStatus.BLUE ∧
    (b.randomize sh).countAmong b.randomized HexStatus.RED
      = b.countAmong b.randomized HexStatus.RED ∧
    (∀ i, i < b.cells → i ∉ b.randomized → (b.randomize sh).statusAt i = b.statusAt i) ∧
    (b.randomize sh).randomized = b.randomized ∧
    (b.randomize sh).Agree := by
  obtain ⟨_, _, _, h4, h5, h6⟩ :=
    randomize_populated b sh hS hL hnd (fun h hh => (hin h hh).1) hperm
  have hI := randomize_populated_setInv b sh hS hL hnd hin hA hperm
  have hcount : ∀ (b' : HexBoard) (s : HexStatus),
      b'.countAmong b.randomized s = (b.randomized.map b'.statusAt).count s := by
    intro b' s
    unfold HexBoard.countAmong
    rw [hnd.dedup, List.count, List.countP_map, List.countP_eq_length_filter]
    rfl
  refine ⟨?_, ?_, fun i _ hi => h6 i hi, h4, hI.agree⟩
  · rw [hcount, hcount, h5, (hperm _).count_eq]
  · rw [hcount, hcount, h5, (hperm _).count_eq]

/-- Instance of `reshuffle_keeps_split`: the size-3 board holding one Blue stone after a
first fill, reshuffled with the reversal. -/
theorem reshuffle_keeps_split_witness :
    ((board3Blue11.randomize id).randomize List.reverse).countAmong
        (board3Blue11.randomize id).randomized HexStatus.BLUE
      = (board3Blue11.randomize id).countAmong
        (board3Blue11.randomize id).randomized HexStatus.BLUE ∧
    ((board3Blue11.randomize id).randomize List.reverse).countAmong
        (board3Blue11.randomize id).randomized HexStatus.RED
      = (board3Blue11.randomize id).countAmong
        (board3Blue11.randomize id).randomized HexStatus.RED ∧
    (∀ i, i < (board3Blue11.randomize id).cells → i ∉ (board3Blue11.randomize id).randomized →
      ((board3Blue11.randomize id).randomize List.reverse).statusAt i
        = (board3Blue11.randomize id).statusAt i) ∧
    ((board3Blue11.randomize id).randomize List.reverse).randomized
      = (board3Blue11.randomize id).randomized ∧
    ((board3Blue11.randomize id).randomize List.reverse).Agree :=
  reshuffle_keeps_split (board3Blue11.randomize id) List.reverse (by decide!) (by decide!)
    (by decide!) (by decide!) (by decide!) (fun l => List.reverse_perm l)

/-! ## The connectivity win detector -/

/-- C1: on every board of size at least 3 that carries the constructor's topology and
whose per-player sets agree with the statuses, `check(Blue)` is true iff there is a path
of Blue cells, consecutive cells being neighbours, from a Blue cell of the bottom row to a
Blue cell of the top row, and `check(Red)` is true iff there is such a path of Red cells
from the left column to the right column; the loop of `check` finishes within
`checkBound` evaluations of its condition, with that result. -/
theorem check_iff_winPath (b : HexBoard) (hB : b.Built) (hA : b.Agree) (h3 : 3 ≤ b.size) :
    (b.check Player.BLUE = true ↔ b.WinPath Player.BLUE) ∧
    (b.check Player.RED = true ↔ b.WinPath Player.RED) ∧
    (∀ p fuel, b.checkBound ≤ fuel → b.checkFuel p fuel = some (b.check p)) := by
  refine ⟨check_spec b _ hB hA (by omega), check_spec b _ hB hA (by omega), ?_⟩
  intro p fuel hf
  have h0 := check_spec b p hB hA (by omega)
  rcases checkFuel_spec b p hB hA (by omega) fuel hf with h | h
  · rw [h.1, h0.mpr h.2]
  · rw [h.1]
    cases hc : b.check p
    · rfl
    · exact absurd (h0.mp hc) h.2

/-- Instance of `check_iff_winPath`: the size-3 board with Blue on (1,1), (2,1), (3,1) and
no Red stone, where `check(Blue)` is true and `check(Red)` is false. -/
theorem check_iff_winPath_witness :
    ((board3BlueColumn.check Player.BLUE = true ↔ board3BlueColumn.WinPath Player.BLUE) ∧
     (board3BlueColumn.check Player.RED = true ↔ board3BlueColumn.WinPath Player.RED) ∧
     (∀ p fuel, board3BlueColumn.checkBound ≤ fuel →
        board3BlueColumn.checkFuel p fuel = some (board3BlueColumn.check p))) ∧
    board3BlueColumn.check Player.BLUE = true ∧
    board3BlueColumn.check Player.RED = false :=
  ⟨check_iff_winPath board3BlueColumn (by decide!) (by decide!) (by decide!),
   by decide!, by decide!⟩

/-! ## Legality, `move` and `undo` -/

/-- C13: on a board whose cell vector has `size * size` entries, for all 32-bit
coordinates, `isLegal(x, y)` is true iff `1 ≤ x ≤ size`, `1 ≤ y ≤ size` and the cell at
position `(x-1) * size + (y-1)` is `EMPTY`; `x = 0` and `y = 0` are rejected; in bounds the
only position of `edgeList` indexed is that cell, which is inside the vector, and out of
bounds no position is indexed. -/
theorem isLegal_iff_inBounds_and_empty (b : HexBoard) (x y : Nat) (hS : b.Sized)
    (hx : x < 4294967296) (hy : y < 4294967296) :
    (b.isLegal x y = true ↔
      (1 ≤ x ∧ x ≤ b.size ∧ 1 ≤ y ∧ y ≤ b.size) ∧
        b.statusAt ((x - 1) * b.size + (y - 1)) = HexStatus.EMPTY) ∧
    (b.isOOB x y = false ↔ (1 ≤ x ∧ x ≤ b.size ∧ 1 ≤ y ∧ y ≤ b.size)) ∧
    (b.isOOB x y = false →
      b.isLegalReads x y = [(x - 1) * b.size + (y - 1)] ∧
      (x - 1) * b.size + (y - 1) < b.edgeList.length) ∧
    (b.isOOB x y = true → b.isLegalReads x y = []) := by
  have hb := inBounds_iff_coords b hS x y hx hy
  have hidx : b.isOOB x y = false → b.cellIndex x y = (x - 1) * b.size + (y - 1) ∧
      (x - 1) * b.size + (y - 1) < b.edgeList.length := by
    intro h
    obtain ⟨c1, c2, c3, c4⟩ := hb.mp h
    have hc := cellIndex_of_inBounds b hS x y h
    rw [usub_one_of_pos c1 hx, usub_one_of_pos c3 hy] at hc
    rw [hS.1, ← hc.1]
    exact ⟨rfl, hc.2⟩
  refine ⟨?_, hb, ?_, ?_⟩
  · rw [isLegal_eq_true_iff]
    constructor
    · rintro ⟨h1, h2⟩
      rw [(hidx h1).1] at h2
      exact ⟨hb.mp h1, h2⟩
    · rintro ⟨h1, h2⟩
      have h1' := hb.mpr h1
      rw [← (hidx h1').1] at h2
      exact ⟨h1', h2⟩
  · intro h
    refine ⟨?_, (hidx h).2⟩
    unfold HexBoard.isLegalReads
    rw [h, (hidx h).1]
    rfl
  · intro h
    unfold HexBoard.isLegalReads
    rw [h]
    rfl

/-- Witness for C13: on the empty size-3 board `isLegal(1,1)` is true. -/
theorem isLegal_iff_inBounds_and_empty_witness : board3.isLegal 1 1 = true :=
  (isLegal_iff_inBounds_and_empty board3 1 1 (by decide!) (by decide) (by decide)).1.mpr
    ⟨by decide, by decide!⟩

/-- C11: on a board whose cell vector has `size * size` entries, a legal `move(p, x, y)`
with 32-bit coordinates sets the status of cell `(x-1) * size + (y-1)` to the colour of
`p`, inserts that index into the set of `p` and leaves the other set as it was, increments
`occupied` by one (in `unsigned` arithmetic; exactly one below the largest value), empties
the ledger, sets `last` to `p`, and leaves the status of every other cell unchanged;
afterwards `isLegal(x, y)` is false and `isLegal` of all other 32-bit coordinates is
unchanged. -/
theorem move_legal_effect (b : HexBoard) (p : Player) (x y : Nat) (hS : b.Sized)
    (hx : x < 4294967296) (hy : y < 4294967296) (h : b.isLegal x y = true) :
    b.cellIndex x y = (x - 1) * b.size + (y - 1) ∧
    (b.move p x y).statusAt (b.cellIndex x y) = p.status ∧
    (p = Player.BLUE → p.status = HexStatus.BLUE ∧
      (b.move p x y).blueEdgeList = insert (b.cellIndex x y) b.blueEdgeList ∧
      (b.move p x y).redEdgeList = b.redEdgeList) ∧
    (p = Player.RED → p.status = HexStatus.RED ∧
      (b.move p x y).redEdgeList = insert (b.cellIndex x y) b.redEdgeList ∧
      (b.move p x y).blueEdgeList = b.blueEdgeList) ∧
    (b.move p x y).occupied = u32 (b.occupied + 1) ∧
    (b.occupied < 4294967295 → (b.move p x y).occupied = b.occupied + 1) ∧
    (b.move p x y).randomized = [] ∧
    (b.move p x y).last = p ∧
    (∀ j, j ≠ b.cellIndex x y → (b.move p x y).statusAt j = b.statusAt j) ∧
    (b.move p x y).isLegal x y = false ∧
    (∀ x' y', x' < 4294967296 → y' < 4294967296 → (x', y') ≠ (x, y) →
      (b.move p x y).isLegal x' y' = b.isLegal x' y') := by
  obtain ⟨hoob, hemp⟩ := (isLegal_eq_true_iff b x y).mp h
  obtain ⟨c1, c2, c3, c4⟩ := (inBounds_iff_coords b hS x y hx hy).mp hoob
  obtain ⟨hidx, hlt⟩ := cellIndex_of_inBounds b hS x y hoob
  rw [usub_one_of_pos c1 hx, usub_one_of_pos c3 hy] at hidx
  obtain ⟨m1, m2, m3, m4, m5, m6, m7, m8⟩ := move_of_legal b p x y h
  have hst := move_statusAt b p x y h
  have hlen : b.cellIndex x y < b.edgeList.length := by rw [hS.1]; exact hlt
  have hself : (b.move p x y).statusAt (b.cellIndex x y) = p.status := by
    rw [hst, if_pos ⟨rfl, hlen⟩]
  have hoth : ∀ j, j ≠ b.cellIndex x y → (b.move p x y).statusAt j = b.statusAt j := by
    intro j hj
    rw [hst, if_neg (fun hc => hj hc.1.symm)]
  refine ⟨hidx, hself, ?_, ?_, m5, ?_, m6, m7, hoth, ?_, ?_⟩
  · intro hp
    subst hp
    rw [m3, m4]
    exact ⟨rfl, rfl, rfl⟩
  · intro hp
    subst hp
    rw [m3, m4]
    exact ⟨rfl, rfl, rfl⟩
  · intro ho
    rw [m5]
    exact u32_of_lt (by omega)
  · rw [isLegal_eq, cellIndex_congr m1, hself]
    have := status_ne_empty p
    simp [this]
  · intro x' y' hx' hy' hne
    rw [isLegal_eq, isLegal_eq b, isOOB_congr m1, cellIndex_congr m1]
    cases hb : b.isOOB x' y' with
    | true => simp only [Bool.not_true, Bool.false_and]
    | false =>
      have hj : b.cellIndex x' y' ≠ b.cellIndex x y := by
        intro hc
        obtain ⟨e1, e2⟩ := cellIndex_inj b hS x' y' x y hx' hy' hx hy hb hoob hc
        exact hne (by rw [e1, e2])
      rw [hoth _ hj]

/-- Witness for C11: on the empty size-3 board, where `isLegal(1,1)` and `isLegal(2,2)` are
true, after `move(Blue,1,1)` `isLegal(1,1)` is false and `isLegal(2,2)` is true. -/
theorem move_legal_effect_witness :
    board3.isLegal 1 1 = true ∧ board3.isLegal 2 2 = true ∧
    (board3.move Player.BLUE 1 1).isLegal 1 1 = false ∧
    (board3.move Player.BLUE 1 1).isLegal 2 2 = true :=
  have h := move_legal_effect board3 Player.BLUE 1 1 (by decide!) (by decide) (by decide)
    (by decide!)
  ⟨by decide!, by decide!, h.2.2.2.2.2.2.2.2.2.1,
    (h.2.2.2.2.2.2.2.2.2.2 2 2 (by decide) (by decide) (by decide)).trans (by decide!)⟩

/-- C12: when `(x, y)` is out of bounds, or in bounds with a cell that is not `EMPTY`,
`move(p, x, y)` returns the board unchanged (statuses, both sets, `occupied`, ledger and
`last`), and every position of `edgeList` it indexes is inside the vector, none being
indexed out of bounds. -/
theorem move_illegal_noop (b : HexBoard) (p : Player) (x y : Nat) (hS : b.Sized)
    (h : b.isOOB x y = true ∨
      (b.isOOB x y = false ∧ b.statusAt (b.cellIndex x y) ≠ HexStatus.EMPTY)) :
    b.isLegal x y = false ∧
    b.move p x y = b ∧
    (∀ i, i ∈ b.moveReads x y → i < b.edgeList.length) ∧
    (b.isOOB x y = true → b.moveReads x y = []) := by
  have hl : b.isLegal x y = false := by
    rw [isLegal_eq]
    rcases h with h | ⟨h1, h2⟩
    · rw [h]; rfl
    · simp [h2]
  have hr : b.moveReads x y = b.isLegalReads x y := by
    unfold HexBoard.moveReads
    rw [hl]
    simp
  refine ⟨hl, move_of_illegal b p x y hl, ?_, ?_⟩
  · intro i hi
    rw [hr] at hi
    unfold HexBoard.isLegalReads at hi
    cases hb : b.isOOB x y with
    | true => rw [hb] at hi; simp at hi
    | false =>
      rw [hb] at hi
      simp only [Bool.false_eq_true, if_false, List.mem_singleton] at hi
      rw [hi, hS.1]
      exact (cellIndex_of_inBounds b hS x y hb).2
  · intro hb
    rw [hr]
    unfold HexBoard.isLegalReads
    rw [hb]
    rfl

/-- Witness for C12: on the size-3 board with a Blue stone at (1,1), `move(Red,1,1)` (cell
taken) changes nothing. -/
theorem move_illegal_noop_witness :
    board3Blue11.move Player.RED 1 1 = board3Blue11 :=
  (move_illegal_noop board3Blue11 Player.RED 1 1 (by decide!)
    (Or.inr ⟨by decide!, by decide!⟩)).2.1

/-- C14: on a board whose cell vector has `size * size` entries and whose counter holds an
`unsigned` value, a legal `move(p, x, y)` followed by `undo(p, x, y)` leaves cell `(x, y)`
`EMPTY`, every other cell with the status it had, and `occupied` with the value it had
before the move. -/
theorem move_undo_roundtrip (b : HexBoard) (p : Player) (x y : Nat) (hS : b.Sized)
    (hocc : b.occupied < 4294967296) (h : b.isLegal x y = true) :
    ((b.move p x y).undo p x y).statusAt (b.cellIndex x y) = HexStatus.EMPTY ∧
    (∀ j, j ≠ b.cellIndex x y → ((b.move p x y).undo p x y).statusAt j = b.statusAt j) ∧
    ((b.move p x y).undo p x y).occupied = b.occupied := by
  obtain ⟨hoob, hemp⟩ := (isLegal_eq_true_iff b x y).mp h
  obtain ⟨hidx, hlt⟩ := cellIndex_of_inBounds b hS x y hoob
  obtain ⟨m1, m2, m3, m4, m5, m6, m7, m8⟩ := move_of_legal b p x y h
  have hst := move_statusAt b p x y h
  have hlen : b.cellIndex x y < b.edgeList.length := by rw [hS.1]; exact hlt
  have hlen' : (b.move p x y).edgeList.length = b.edgeList.length := by
    rw [m2, setS_length]
  have hu : (b.move p x y).undo p x y = (b.move p x y).undoAt p (b.cellIndex x y) := by
    rw [← cellIndex_congr m1 x y]
    apply undo_of_occupied
    · rw [isOOB_congr m1]; exact hoob
    · rw [cellIndex_congr m1, hst, if_pos ⟨rfl, hlen⟩]
      exact status_ne_empty p
  rw [hu]
  refine ⟨?_, ?_, ?_⟩
  · rw [undoAt_statusAt, if_pos ⟨rfl, by rw [hlen']; exact hlen⟩]
  · intro j hj
    rw [undoAt_statusAt, if_neg (fun hc => hj hc.1.symm), hst, if_neg (fun hc => hj hc.1.symm)]
  · rw [(undoAt_fields _ p _).2.2.2.2.1, m5]
    exact usub_succ_one hocc

/-- Witness for C14: Blue's move at (1,1) on the empty size-3 board and its undo. -/
theorem move_undo_roundtrip_witness :
    ((board3.move Player.BLUE 1 1).undo Player.BLUE 1 1).statusAt (board3.cellIndex 1 1)
        = HexStatus.EMPTY ∧
    ((board3.move Player.BLUE 1 1).undo Player.BLUE 1 1).occupied = board3.occupied :=
  have h := move_undo_roundtrip board3 Player.BLUE 1 1 (by decide!) (by decide!) (by decide!)
  ⟨h.1, h.2.2⟩

/-- C15: when `(x, y)` is out of bounds or its cell is `EMPTY`, `undo(p, x, y)` returns the
board unchanged (statuses, both sets, `occupied`, ledger and `last`); out of bounds it
indexes no position of `edgeList`, and every position it indexes is inside the vector. -/
theorem undo_invalid_noop (b : HexBoard) (p : Player) (x y : Nat) (hS : b.Sized)
    (h : b.isOOB x y = true ∨ b.statusAt (b.cellIndex x y) = HexStatus.EMPTY) :
    b.undo p x y = b ∧
    (b.isOOB x y = true → b.undoReads x y = []) ∧
    (∀ i, i ∈ b.undoReads x y → i < b.edgeList.length) := by
  refine ⟨undo_of_not b p x y h, ?_, ?_⟩
  · intro hb
    unfold HexBoard.undoReads
    rw [hb]
    rfl
  · intro i hi
    unfold HexBoard.undoReads at hi
    cases hb : b.isOOB x y with
    | true => rw [hb] at hi; simp at hi
    | false =>
      have hc := (cellIndex_of_inBounds b hS x y hb).2
      rw [← hS.1] at hc
      rw [hb] at hi
      revert hi hc
      generalize b.cellIndex x y = idx
      intro hi hc
      have : i = idx := by
        simp only [Bool.false_eq_true, if_false, List.mem_append, List.mem_singleton] at hi
        rcases hi with hi | hi
        · exact hi
        · split at hi
          · simp at hi; exact hi
          · simp at hi
      rw [this]
      exact hc

/-- Witness for C15: on the empty size-3 board `undo(Blue,1,1)` and the out-of-bounds
`undo(Blue,0,4)` change nothing. -/
theorem undo_invalid_noop_witness :
    board3.undo Player.BLUE 1 1 = board3 ∧ board3.undo Player.BLUE 0 4 = board3 :=
  ⟨(undo_invalid_noop board3 Player.BLUE 1 1 (by decide!) (Or.inr (by decide!))).1,
   (undo_invalid_noop board3 Player.BLUE 0 4 (by decide!) (Or.inl (by decide!))).1⟩

/-! ## The completion sampler under the identity shuffle -/

theorem labelCounts_eq (free : Nat) (last : Player) (h : free < 4294967296) :
    labelCounts free last =
      (free / 2 + (if free % 2 = 1 ∧ last = Player.RED then 1 else 0),
       free - (free / 2 + (if free % 2 = 1 ∧ last = Player.RED then 1 else 0))) := by
  have h1 : u32 (free / 2 + 1) = free / 2 + 1 := u32_of_lt (by omega)
  unfold labelCounts
  rw [h1]
  rcases Nat.mod_two_eq_zero_or_one free with h0 | h0 <;> cases last <;>
    simp [h0] <;> omega

/-- C20: with the identity as the outcome of the shuffle, on a board whose cell vector has
`size * size` entries, whose ledger is empty and whose `occupied` equals the number of
non-`EMPTY` cells, `randomize` gives `BLUE` to the first `ForBlue` cells that were `EMPTY`,
in increasing index order, and `RED` to the remaining ones, where
`freeCount = size * size - occupied` and `ForBlue = freeCount / 2`, plus one when
`freeCount` is odd and `last` is Red; the ledger afterwards is the list of the previously
`EMPTY` cell indices in increasing order, and the other cells keep their status. -/
theorem randomize_identity_deterministic (b : HexBoard) (hS : b.Sized)
    (hL : b.randomized = []) (hocc : b.occupied = b.nonEmpty) :
    (b.emptyCells b.cells).length = b.cells - b.occupied ∧
    (b.emptyCells b.cells).map (b.randomize id).statusAt =
      List.replicate ((b.cells - b.occupied) / 2 +
          (if (b.cells - b.occupied) % 2 = 1 ∧ b.last = Player.RED then 1 else 0))
        HexStatus.BLUE ++
      List.replicate ((b.cells - b.occupied) - ((b.cells - b.occupied) / 2 +
          (if (b.cells - b.occupied) % 2 = 1 ∧ b.last = Player.RED then 1 else 0)))
        HexStatus.RED ∧
    (b.randomize id).randomized = b.emptyCells b.cells ∧
    (∀ i, b.statusAt i ≠ HexStatus.EMPTY → (b.randomize id).statusAt i = b.statusAt i) := by
  obtain ⟨h1, h2, h3, h4⟩ := sized_free b hS hocc
  obtain ⟨hF, hlab⟩ := randomize_fresh b id hS hL hocc (fun l => List.Perm.refl l)
  have hfree : b.cells - b.occupied < 4294967296 := by
    have := hS.2
    omega
  refine ⟨h3, ?_, hF.led, ?_⟩
  · rw [hlab]
    unfold HexBoard.freshLabels
    rw [h2, labelCounts_eq _ _ hfree]
    rfl
  · intro i hi
    apply hF.keep
    unfold HexBoard.emptyCells
    simp [hi]

/-- Witness for C20: on the empty size-3 board (nine free cells, last mover Blue) the
identity shuffle colours cells 0..3 Blue and cells 4..8 Red, and the ledger lists 0..8. -/
theorem randomize_identity_deterministic_witness :
    (board3.emptyCells board3.cells).map (board3.randomize id).statusAt =
      List.replicate 4 HexStatus.BLUE ++ List.replicate 5 HexStatus.RED ∧
    (board3.randomize id).randomized = [0, 1, 2, 3, 4, 5, 6, 7, 8] :=
  have h := randomize_identity_deterministic board3 (by decide!) (by decide!) (by decide!)
  ⟨h.2.1.trans (by decide!), h.2.2.1.trans (by decide!)⟩

/-! ## The freshly constructed board -/

/-- C21: for every size `n ≥ 3` whose cell count `n * n` fits the `int` counter of the
constructor, `HexBoard(n)` has exactly `n * n` cells, every cell `EMPTY`, `occupied = 0`,
both per-player sets empty and an empty ledger. -/
theorem ctor_fresh (n : Nat) (hn : 3 ≤ n) (hsz : n * n < 2147483648) :
    (HexBoard.ctor n).size = n ∧
    (HexBoard.ctor n).edgeList.length = n * n ∧
    (∀ i, i < n * n → (HexBoard.ctor n).statusAt i = HexStatus.EMPTY) ∧
    (HexBoard.ctor n).occupied = 0 ∧
    (HexBoard.ctor n).blueEdgeList = ∅ ∧
    (HexBoard.ctor n).redEdgeList = ∅ ∧
    (HexBoard.ctor n).randomized = [] := by
  have hlen := (ctor_inv n (by omega)).len
  exact ⟨by unfold HexBoard.ctor; rfl, hlen, fun i _ => ctor_status n i,
    by unfold HexBoard.ctor; rfl, by unfold HexBoard.ctor; rfl, by unfold HexBoard.ctor; rfl,
    by unfold HexBoard.ctor; rfl⟩

/-- Witness for C21: the board of size 3 has nine cells and `occupied = 0`. -/
theorem ctor_fresh_witness :
    (HexBoard.ctor 3).edgeList.length = 3 * 3 ∧ (HexBoard.ctor 3).occupied = 0 :=
  have h := ctor_fresh 3 (by decide) (by decide)
  ⟨h.2.1, h.2.2.2.1⟩

/-! ## Termination of `check` -/

/-- C26: on a board of size `n ≥ 1` with the topology laid down by the constructor, whatever
the cell statuses and whatever the contents of the two per-player sets, the `while` loop of
`check(p)` finishes: `size * size + size + 1` evaluations of its condition suffice (every
pop either removes a border seed, of which there are at most `size`, or a cell pushed as a
neighbour, and a cell is pushed as a neighbour at most once), which is at most
`2 * n * n + 1` evaluations, that is at most `2 * n * n` iterations; with any larger
bound the result is the same. -/
theorem check_terminates (b : HexBoard) (p : Player) (hB : b.Built) (hn : 1 ≤ b.size) :
    b.checkBound ≤ 2 * (b.size * b.size) + 1 ∧
    ∀ fuel, b.checkBound ≤ fuel → b.checkFuel p fuel = some (b.check p) := by
  have hle : b.size ≤ b.size * b.size := Nat.le_mul_of_pos_left _ hn
  refine ⟨by unfold HexBoard.checkBound; omega, ?_⟩
  intro fuel hf
  obtain ⟨r, hr⟩ := checkFuel_isSome b p hB hn b.checkBound (Nat.le_refl _)
  have hc : b.check p = r := by
    unfold HexBoard.check
    rw [hr]
    rfl
  obtain ⟨k, rfl⟩ : ∃ k, fuel = b.checkBound + k := ⟨fuel - b.checkBound, by omega⟩
  rw [hc]
  exact checkFuel_stable b p _ k r hr

/-- Witness for C26: the size-3 board whose Blue set names every cell while all cells are
`EMPTY`; the search over it finishes within 19 evaluations of the loop condition. -/
theorem check_terminates_witness :
    ({ board3 with blueEdgeList := {0, 1, 2, 3, 4, 5, 6, 7, 8} } : HexBoard).checkFuel
      Player.BLUE 19 =
    some (({ board3 with blueEdgeList := {0, 1, 2, 3, 4, 5, 6, 7, 8} } : HexBoard).check
      Player.BLUE) :=
  (check_terminates { board3 with blueEdgeList := {0, 1, 2, 3, 4, 5, 6, 7, 8} } Player.BLUE
    (by decide!) (by decide)).2 19 (by decide)

/-! ## The AI move selector -/

/-- C17: for every board, player, trial count `N ≥ 1` and every outcome of the shuffles,
the confidence `gwins` left by `getAIMove` satisfies `0 ≤ gwins ≤ 1` (in exact rational
arithmetic), and it is 0 when no cell is legal. -/
theorem getAIMove_confidence_bounds (b : HexBoard) (p : Player) (x y N : Nat)
    (sh : Nat → Nat → List HexStatus → List HexStatus) (hN : 1 ≤ N) :
    0 ≤ (b.getAIMove p x y N sh).1.gwins ∧ (b.getAIMove p x y N sh).1.gwins ≤ 1 ∧
    ((∀ i, b.isLegal (u32 (i / b.size + 1)) (u32 (i % b.size + 1)) = false) →
      (b.getAIMove p x y N sh).1.gwins = 0) := by
  unfold HexBoard.getAIMove
  refine ⟨?_, ?_, ?_⟩
  · exact (foldl_preserves
      (fun s : HexBoard × Nat × Nat => 0 ≤ s.1.gwins ∧ s.1.gwins ≤ 1) _
      (fun a i ha => aiCell_gwins_bounds p N hN sh a i ha) _ _
      ⟨le_refl _, zero_le_one⟩).1
  · exact (foldl_preserves
      (fun s : HexBoard × Nat × Nat => 0 ≤ s.1.gwins ∧ s.1.gwins ≤ 1) _
      (fun a i ha => aiCell_gwins_bounds p N hN sh a i ha) _ _
      ⟨le_refl _, zero_le_one⟩).2
  · intro hno
    have hfix := foldl_preserves
      (fun s : HexBoard × Nat × Nat => s = (({ b with gwins := 0 } : HexBoard), x, y))
      (aiCell p N sh)
      (fun a i ha => by
        rw [ha]
        apply aiCell_of_illegal
        exact (isLegal_congr (b := b) rfl rfl _ _).trans (hno i))
      (List.range (u32 (b.size * b.size))) _ rfl
    rw [hfix]

/-- Witness for C17: Blue's selection on the empty size-3 board with one trial per cell and
identity shuffles. -/
theorem getAIMove_confidence_bounds_witness :
    0 ≤ (board3.getAIMove Player.BLUE 0 0 1 shId).1.gwins ∧
    (board3.getAIMove Player.BLUE 0 0 1 shId).1.gwins ≤ 1 :=
  have h := getAIMove_confidence_bounds board3 Player.BLUE 0 0 1 shId (by decide)
  ⟨h.1, h.2.1⟩

/-- C24: on a board whose cell vector has `size * size` entries and whose `occupied`
equals the number of non-`EMPTY` cells, for every player, every trial count `N ≥ 0` and
all permutation outcomes of the shuffles, after `getAIMove` every cell has the status it
had before the call and `occupied` has its previous value. -/
theorem getAIMove_restores_statuses (b : HexBoard) (p : Player) (x y N : Nat)
    (sh : Nat → Nat → List HexStatus → List HexStatus) (hS : b.Sized)
    (hocc : b.occupied = b.nonEmpty) (hperm : ∀ i j l, (sh i j l).Perm l) :
    (∀ i, (b.getAIMove p x y N sh).1.statusAt i = b.statusAt i) ∧
    (b.getAIMove p x y N sh).1.occupied = b.occupied ∧
    (b.getAIMove p x y N sh).1.size = b.size := by
  unfold HexBoard.getAIMove
  have hinv := foldl_preserves
    (fun s : HexBoard × Nat × Nat => s.1.size = b.size ∧
      s.1.edgeList.length = b.edgeList.length ∧ (∀ j, s.1.statusAt j = b.statusAt j) ∧
      s.1.occupied = b.occupied)
    (aiCell p N sh)
    (fun a i ha => by
      obtain ⟨a1, a2, a3, a4⟩ := ha
      have hcells : a.1.cells = b.cells := by
        unfold HexBoard.cells
        rw [a1]
      have hSa : a.1.Sized := ⟨by rw [a2, hcells]; exact hS.1, by rw [hcells]; exact hS.2⟩
      have hocca : a.1.occupied = a.1.nonEmpty := by
        rw [a4, hocc, nonEmpty_of_status a2 a3]
      obtain ⟨f1, f2, f3, f4⟩ := aiCell_frame p N sh a i hSa hocca (hperm i)
      exact ⟨f1.trans a1, f2.trans a2, fun j => (f3 j).trans (a3 j), f4.trans a4⟩)
    (List.range (u32 (b.size * b.size))) (({ b with gwins := 0 } : HexBoard), x, y)
    ⟨rfl, rfl, fun _ => rfl, rfl⟩
  exact ⟨hinv.2.2.1, hinv.2.2.2, hinv.1⟩

/-- Witness for C24: Blue's selection on the size-3 board holding one Blue stone, two
trials per cell with reversing shuffles. -/
theorem getAIMove_restores_statuses_witness :
    (∀ i, (board3Blue11.getAIMove Player.BLUE 0 0 2 (fun _ => shRev)).1.statusAt i
      = board3Blue11.statusAt i) ∧
    (board3Blue11.getAIMove Player.BLUE 0 0 2 (fun _ => shRev)).1.occupied
      = board3Blue11.occupied :=
  have h := getAIMove_restores_statuses board3Blue11 Player.BLUE 0 0 2 (fun _ => shRev)
    (by decide!) (by decide!) (fun _ _ l => List.reverse_perm l)
  ⟨h.1, h.2.1⟩

/-! ## Scan-order tie-breaking of `getAIMove` -/

/-- C16: on a board whose cell vector has `size * size` entries and whose `occupied` equals
the number of non-`EMPTY` cells, for every player, `N ≥ 1` and all permutation outcomes of
the shuffles such that some legal cell obtains a win rate greater than 0, `getAIMove`
returns the coordinates `(k / size + 1, k % size + 1)` of a legal cell `k` whose win rate
is at least that of every legal cell and strictly greater than that of every legal cell
before it in row-major order, and `gwins` equals that win rate.  The win rate of a cell is
the value `wins / N` computed in its iteration of the scan. -/
theorem getAIMove_first_maximum (b : HexBoard) (p : Player) (x y N : Nat)
    (sh : Nat → Nat → List HexStatus → List HexStatus) (hS : b.Sized)
    (hocc : b.occupied = b.nonEmpty) (hperm : ∀ i j l, (sh i j l).Perm l) (hN : 1 ≤ N)
    (hex : ∃ k, k < b.cells ∧ b.isLegal (b.cellX k) (b.cellY k) = true ∧
      0 < b.aiWinRate p x y N sh k) :
    ∃ k, k < b.cells ∧ b.cellX k = k / b.size + 1 ∧ b.cellY k = k % b.size + 1 ∧
      b.isLegal (k / b.size + 1) (k % b.size + 1) = true ∧
      (∀ j, j < b.cells → b.isLegal (b.cellX j) (b.cellY j) = true →
        b.aiWinRate p x y N sh j ≤ b.aiWinRate p x y N sh k) ∧
      (∀ j, j < k → b.isLegal (b.cellX j) (b.cellY j) = true →
        b.aiWinRate p x y N sh j < b.aiWinRate p x y N sh k) ∧
      (b.getAIMove p x y N sh).2 = (k / b.size + 1, k % b.size + 1) ∧
      (b.getAIMove p x y N sh).1.gwins = b.aiWinRate p x y N sh k := by
  have hN' : 0 < N := hN
  have hc2 := hS.2
  have hu : u32 (b.size * b.size) = b.cells := u32_of_lt (by
    unfold HexBoard.cells at hc2
    omega)
  rw [getAIMove_eq_aiScan, hu]
  rcases scanBest_all b p x y N sh hS hocc hperm b.cells with
    ⟨h1, _, _⟩ | ⟨k, hk, hkl, _, h1, h2, h3, h4⟩
  · obtain ⟨k, hk, hkl, hkp⟩ := hex
    exact absurd (h1 k hk hkl) (not_le.mpr hkp)
  · have hsz := size_lt_of_sized b hS
    have hpos : 0 < b.size := by
      rcases Nat.eq_zero_or_pos b.size with h0 | h0
      · unfold HexBoard.cells at hk
        rw [h0] at hk
        omega
      · exact h0
    have hdiv : k / b.size < b.size := Nat.div_lt_of_lt_mul hk
    have hmod : k % b.size < b.size := Nat.mod_lt _ hpos
    have hX : b.cellX k = k / b.size + 1 := u32_of_lt (by omega)
    have hY : b.cellY k = k % b.size + 1 := u32_of_lt (by omega)
    rw [hX, hY] at hkl h3
    exact ⟨k, hk, hX, hY, hkl, h1, h2, h3, h4⟩

/-- Witness for C16: Blue's selection on the empty size-3 board with one trial per cell and
identity shuffles, where the candidate of cell 6 wins its trial. -/
theorem getAIMove_first_maximum_witness :
    ∃ k, k < board3.cells ∧
      board3.isLegal (k / board3.size + 1) (k % board3.size + 1) = true ∧
      (board3.getAIMove Player.BLUE 0 0 1 shId).2
        = (k / board3.size + 1, k % board3.size + 1) ∧
      (board3.getAIMove Player.BLUE 0 0 1 shId).1.gwins
        = board3.aiWinRate Player.BLUE 0 0 1 shId k :=
  have h := getAIMove_first_maximum board3 Player.BLUE 0 0 1 shId (by decide!) (by decide!)
    (fun _ _ l => List.Perm.refl l) (by decide) ⟨6, by decide!, by decide!, by decide!⟩
  h.elim (fun k hk => ⟨k, hk.1, hk.2.2.2.1, hk.2.2.2.2.2.2.1, hk.2.2.2.2.2.2.2⟩)

/-! ## Winners on the full size-3 board -/

/-- On the size-3 board with the constructor's topology, when no cell is `EMPTY` (every
cell is Blue or Red) and the per-player sets agree with the statuses, exactly one of
`check(Blue)` and `check(Red)` is true. -/
theorem full_board3_single_winner (b : HexBoard) (hB : b.Built) (h3 : b.size = 3)
    (hA : b.Agree) (hfull : ∀ i, i < b.cells → b.statusAt i ≠ HexStatus.EMPTY) :
    (b.check Player.BLUE = true ∧ b.check Player.RED = false) ∨
    (b.check Player.BLUE = false ∧ b.check Player.RED = true) := by
  obtain ⟨hmem, he⟩ := paint_of_full b hB h3 hfull
  have hs : (paint (b.edgeList.map (fun h => h.s))).size = b.size := by
    rw [h3, paint_size]
  have hB' := paint_built b hB h3 _ he
  have hA' := paint_agree b he
  have e : ∀ p, b.check p = (paint (b.edgeList.map (fun h => h.s))).check p := by
    intro p
    have h1 := check_spec b p hB hA (by omega)
    have h2 := check_spec _ p hB' hA' (by rw [paint_size]; decide)
    have h4 := winPath_congr hs he p
    exact Bool.eq_iff_iff.mpr (h1.trans (h4.symm.trans h2.symm))
  have hall := colourings_single_winner _ hmem
  rw [e Player.BLUE, e Player.RED]
  revert hall
  generalize (paint (b.edgeList.map (fun h => h.s))).check Player.BLUE = u
  generalize (paint (b.edgeList.map (fun h => h.s))).check Player.RED = v
  cases u <;> cases v <;> simp

/-- Instance of `full_board3_single_winner`: the size-3 board filled by one `randomize`
with the identity shuffle (cells 0..3 Blue, cells 4..8 Red) has exactly one winner. -/
theorem full_board3_single_winner_witness :
    ((board3.randomize id).check Player.BLUE = true ∧
      (board3.randomize id).check Player.RED = false) ∨
    ((board3.randomize id).check Player.BLUE = false ∧
      (board3.randomize id).check Player.RED = true) :=
  full_board3_single_winner (board3.randomize id) (by decide!) (by decide!) (by decide!)
    (by decide!)

/-- C25 (failing input): `getAIMove(Blue, N = 1)` on the fresh size-3 board with identity
shuffles reaches the candidate of cell 7, coordinates (3,2), which is legal; the board of
its trial is full, with statuses B,B,B,B,R,R,R,B,R, but Blue's set still holds the index 6
left there by the `undo` of an earlier candidate while cell 6 is Red, and on this board
`check(Blue)` and `check(Red)` are both true. -/
theorem monte_carlo_trial_two_winners :
    board3.cellX 7 = 3 ∧ board3.cellY 7 = 2 ∧
    (board3.aiScan Player.BLUE 0 0 1 shId 7).1.isLegal 3 2 = true ∧
    (aiTrial Player.BLUE (shId 7)
      ((board3.aiScan Player.BLUE 0 0 1 shId 7).1.move Player.BLUE 3 2, 0) 0).1
      = trialBoard32 ∧
    (List.range 9).map trialBoard32.statusAt =
      [HexStatus.BLUE, HexStatus.BLUE, HexStatus.BLUE, HexStatus.BLUE, HexStatus.RED,
       HexStatus.RED, HexStatus.RED, HexStatus.BLUE, HexStatus.RED] ∧
    trialBoard32.Full ∧
    6 ∈ trialBoard32.blueEdgeList ∧
    ¬ trialBoard32.Agree ∧
    trialBoard32.check Player.BLUE = true ∧
    trialBoard32.check Player.RED = true := by
  refine ⟨by decide!, by decide!, by decide!, ?_, by decide!, by decide!, by decide!,
    by decide!, by decide!, by decide!⟩
  rw [aiTrial_fst]
  unfold trialBoard32
  dsimp only

/-! ## Hex adjacency laid down by the constructor -/

/-- C19 (counterexample): on the size-3 board the cell in row 1, column 1 (index 4) has
the neighbour sequence `[3, 5, 1, 2, 6, 7]`: the down-diagonal neighbour 6 comes before
the down-same-column neighbour 7, whereas the order left, right, up-same-column,
up-diagonal, down-same-column, down-diagonal is `[3, 5, 1, 2, 7, 6]`. -/
theorem neighbour_order_down_diagonal_first :
    ((HexBoard.ctor 3).hexAt (1 * 3 + 1)).edges = [3, 5, 1, 2, 6, 7] ∧
    hexNeighboursDownFirst 3 1 1 = [3, 5, 1, 2, 7, 6] ∧
    ((HexBoard.ctor 3).hexAt (1 * 3 + 1)).edges ≠ hexNeighboursDownFirst 3 1 1 := by
  decide!

/-- C19 (amended): for every size `n ≥ 3` whose cell count fits the `int` counter of the
constructor and every cell (row `i`, column `k`), the neighbour sequence stored at
construction lists the neighbours in the order left, right, up-same-column, up-diagonal,
down-diagonal, down-same-column, those outside the grid being omitted. -/
theorem neighbour_order (n : Nat) (hn : 3 ≤ n) (hsz : n * n < 2147483648) (i k : Nat)
    (hi : i < n) (hk : k < n) :
    ((HexBoard.ctor n).hexAt (i * n + k)).edges = hexNeighbours n i k :=
  ctor_edges n (by omega) i k hi hk

/-- Witness for C19 (amended): the cell in row 1, column 1 of the size-3 board. -/
theorem neighbour_order_witness :
    ((HexBoard.ctor 3).hexAt (1 * 3 + 1)).edges = hexNeighbours 3 1 1 :=
  neighbour_order 3 (by decide) (by decide) 1 1 (by decide) (by decide)

/-- C18: for every size `n ≥ 1` whose cell count fits the `int` counter of the constructor
and every cell (row `i`, column `k`) of the constructed board: every stored neighbour is a
cell of the grid; the cell in row `i'`, column `k'` is a stored neighbour iff `(i', k')` is
one of `(i, k-1)`, `(i, k+1)`, `(i-1, k)`, `(i-1, k+1)`, `(i+1, k-1)`, `(i+1, k)`; the
list has no duplicate, does not contain the cell itself and has at most 6 entries; and
adjacency is symmetric. -/
theorem hex_adjacency (n : Nat) (hn : 1 ≤ n) (hsz : n * n < 2147483648) (i k : Nat)
    (hi : i < n) (hk : k < n) :
    (∀ e, e ∈ ((HexBoard.ctor n).hexAt (i * n + k)).edges → e < n * n) ∧
    (∀ i' k', i' < n → k' < n →
      (i' * n + k' ∈ ((HexBoard.ctor n).hexAt (i * n + k)).edges ↔
        (i' = i ∧ k' + 1 = k) ∨ (i' = i ∧ k' = k + 1) ∨ (i' + 1 = i ∧ k' = k) ∨
        (i' + 1 = i ∧ k' = k + 1) ∨ (i' = i + 1 ∧ k' + 1 = k) ∨ (i' = i + 1 ∧ k' = k))) ∧
    ((HexBoard.ctor n).hexAt (i * n + k)).edges.Nodup ∧
    i * n + k ∉ ((HexBoard.ctor n).hexAt (i * n + k)).edges ∧
    ((HexBoard.ctor n).hexAt (i * n + k)).edges.length ≤ 6 ∧
    (∀ i' k', i' < n → k' < n →
      (i' * n + k' ∈ ((HexBoard.ctor n).hexAt (i * n + k)).edges ↔
        i * n + k ∈ ((HexBoard.ctor n).hexAt (i' * n + k')).edges)) := by
  have hE := ctor_edges n (by omega) i k hi hk
  have hmem : ∀ i' k', i' < n → k' < n →
      (i' * n + k' ∈ hexNeighbours n i k ↔
        (i' = i ∧ k' + 1 = k) ∨ (i' = i ∧ k' = k + 1) ∨ (i' + 1 = i ∧ k' = k) ∨
        (i' + 1 = i ∧ k' = k + 1) ∨ (i' = i + 1 ∧ k' + 1 = k) ∨ (i' = i + 1 ∧ k' = k)) := by
    intro i' k' hi' hk'
    rw [mem_hexNeighbours n i k i' k' hk hk']
    constructor
    · intro h; omega
    · intro h; omega
  refine ⟨?_, ?_, ?_, ?_, ?_, ?_⟩
  · intro e he
    exact (ctor_inv n (by omega)).edges (i * n + k) e he
  · rw [hE]
    exact hmem
  · rw [hE]
    exact (hexNeighbours_nodup n i k hk).1
  · rw [hE]
    exact (hexNeighbours_nodup n i k hk).2
  · rw [hE]
    exact hexNeighbours_length n i k
  · intro i' k' hi' hk'
    rw [hE, ctor_edges n (by omega) i' k' hi' hk']
    exact ⟨hexNeighbours_symm n i k i' k' hi hk hi' hk',
      hexNeighbours_symm n i' k' i k hi' hk' hi hk⟩

/-- Witness for C18: the centre cell of the size-3 board has exactly six neighbours. -/
theorem hex_adjacency_witness :
    ((HexBoard.ctor 3).hexAt (1 * 3 + 1)).edges.Nodup ∧
    ((HexBoard.ctor 3).hexAt (1 * 3 + 1)).edges.length ≤ 6 ∧
    1 * 3 + 1 ∉ ((HexBoard.ctor 3).hexAt (1 * 3 + 1)).edges :=
  have h := hex_adjacency 3 (by decide) (by decide) 1 1 (by decide) (by decide)
  ⟨h.2.2.1, h.2.2.2.2.1, h.2.2.2.1⟩

end HexGame

namespace PrimMST

/-! ## The queue running empty before the first iteration -/

theorem firstMin_isMinTop : IsMinTop firstMin := by
  intro pq hpq
  induction pq with
  | nil => exact absurd rfl hpq
  | cons a l ih =>
    unfold firstMin
    by_cases hl : l = []
    · rw [if_pos hl, hl]
      exact ⟨List.mem_cons_self _ _, fun y hy => by
        rw [List.mem_singleton.mp hy]⟩
    · rw [if_neg hl]
      obtain ⟨h1, h2⟩ := ih hl
      by_cases hle : a.dist ≤ (firstMin l).dist
      · rw [if_pos hle]
        refine ⟨List.mem_cons_self _ _, fun y hy => ?_⟩
        rcases List.mem_cons.mp hy with h | h
        · rw [h]
        · exact le_trans hle (h2 y h)
      · rw [if_neg hle]
        refine ⟨List.mem_cons_of_mem _ h1, fun y hy => ?_⟩
        rcases List.mem_cons.mp hy with h | h
        · rw [h]; omega
        · exact h2 y h

/-- C27 (failing input): on the graph `Graph(2)` with two vertices and no edge, `run(0)`
enters the loop with an empty queue (`visited.size()` is 1, `V()` is 2) and reads
`pq.top()`, whatever `top` returns and whatever the iteration bound. -/
theorem primRun_reads_empty_queue (top : List NodeInfo → NodeInfo) (fuel : Nat) :
    (Graph.ctor 2).numV = 2 ∧ (Graph.ctor 2).getEdges 0 = [] ∧
    (Graph.ctor 2).getEdges 1 = [] ∧
    primRun (Graph.ctor 2) top 0 (fuel + 1) = Outcome.emptyTop := by
  refine ⟨by decide, by decide, by decide, ?_⟩
  unfold primRun
  have h1 : pushSource 0 ((Graph.ctor 2).getEdges 0) = [] := by decide
  have h2 : (Graph.ctor 2).numV = 2 := by decide
  rw [h1, primLoop, h2]
  simp

/-! ## Lemmas: maps and graphs -/

theorem mapCount_eq_true (m : List Edge) (k : Nat) :
    mapCount m k = true ↔ ∃ e, e ∈ m ∧ e.to_ = k := by
  unfold mapCount
  simp only [List.any_eq_true, decide_eq_true_eq]

theorem mapCount_eq_false (m : List Edge) (k : Nat) :
    mapCount m k = false ↔ ∀ e, e ∈ m → e.to_ ≠ k := by
  rw [← Bool.not_eq_true, mapCount_eq_true]
  constructor
  · intro h e he hk
    exact h ⟨e, he, hk⟩
  · rintro h ⟨e, he, hk⟩
    exact h e he hk

theorem mapInsert_perm (m : List Edge) (e : Edge) (h : mapCount m e.to_ = false) :
    (mapInsert m e).Perm (e :: m) := by
  unfold mapInsert
  rw [h]
  simp only [Bool.false_eq_true, if_false]
  have h1 : (m.takeWhile (fun a => decide (a.to_ < e.to_)) ++
      e :: m.dropWhile (fun a => decide (a.to_ < e.to_))).Perm
      (e :: (m.takeWhile (fun a => decide (a.to_ < e.to_)) ++
        m.dropWhile (fun a => decide (a.to_ < e.to_)))) := List.perm_middle
  rw [List.takeWhile_append_dropWhile] at h1
  exact h1

theorem mapInsert_of_present (m : List Edge) (e : Edge) (h : mapCount m e.to_ = true) :
    mapInsert m e = m := by
  unfold mapInsert
  rw [h]
  rfl

theorem mem_mapInsert (m : List Edge) (e x : Edge) :
    x ∈ mapInsert m e ↔ x ∈ m ∨ (x = e ∧ mapCount m e.to_ = false) := by
  cases h : mapCount m e.to_ with
  | true =>
    rw [mapInsert_of_present m e h]
    simp
  | false =>
    rw [(mapInsert_perm m e h).mem_iff, List.mem_cons]
    constructor
    · rintro (h1 | h1)
      · exact Or.inr ⟨h1, rfl⟩
      · exact Or.inl h1
    · rintro (h1 | ⟨h1, _⟩)
      · exact Or.inr h1
      · exact Or.inl h1

theorem sum_mapInsert (m : List Edge) (e : Edge) (f : Edge → Int)
    (h : mapCount m e.to_ = false) :
    ((mapInsert m e).map f).sum = (m.map f).sum + f e := by
  rw [((mapInsert_perm m e h).map f).sum_eq, List.map_cons, List.sum_cons]
  omega

theorem getD_modify_node (l : List Node) (f : Node → Node) (i j : Nat) (d : Node) :
    (l.modify f i).getD j d = if i = j ∧ j < l.length then f (l.getD j d) else l.getD j d := by
  simp only [List.getD_eq_getElem?_getD, List.getElem?_modify]
  by_cases hij : i = j
  · subst hij
    by_cases hl : i < l.length
    · simp [hl, List.getElem?_eq_getElem hl]
    · simp [hl, List.getElem?_eq_none (Nat.le_of_not_lt hl)]
  · simp [hij]

theorem sum_map_modify (l : List Node) (f : Node → Node) (g : Node → Int) (i : Nat) (d : Node)
    (hi : i < l.length) :
    ((l.modify f i).map g).sum = (l.map g).sum + (g (f (l.getD i d)) - g (l.getD i d)) := by
  induction l generalizing i with
  | nil => simp at hi
  | cons a l ih =>
    cases i with
    | zero =>
      simp only [List.modify_zero_cons, List.map_cons, List.sum_cons, List.getD_cons_zero]
      omega
    | succ i =>
      simp only [List.length_cons] at hi
      simp only [List.modify_succ_cons, List.map_cons, List.sum_cons, List.getD_cons_succ]
      rw [ih i (by omega)]
      omega

theorem getEdges_oob (g : Graph) (x : Nat) (h : g.adjList.length ≤ x) : g.getEdges x = [] := by
  unfold Graph.getEdges
  rw [List.getD_eq_default _ _ h]

theorem addVertex_fold (l : List Nat) (g : Graph) (h : ∀ nd, nd ∈ g.adjList → nd.edges = []) :
    (l.foldl (fun g _ => g.addVertex) g).numV = g.numV + l.length ∧
    (l.foldl (fun g _ => g.addVertex) g).numE = g.numE ∧
    (l.foldl (fun g _ => g.addVertex) g).adjList.length = g.adjList.length + l.length ∧
    ∀ nd, nd ∈ (l.foldl (fun g _ => g.addVertex) g).adjList → nd.edges = [] := by
  induction l generalizing g with
  | nil => exact ⟨rfl, rfl, rfl, h⟩
  | cons a l ih =>
    rw [List.foldl_cons]
    have h' : ∀ nd, nd ∈ g.addVertex.adjList → nd.edges = [] := by
      intro nd hnd
      unfold Graph.addVertex at hnd
      simp only [List.mem_append, List.mem_singleton] at hnd
      rcases hnd with h1 | h1
      · exact h nd h1
      · rw [h1]
    obtain ⟨h1, h2, h3, h4⟩ := ih g.addVertex h'
    refine ⟨?_, ?_, ?_, h4⟩
    · rw [h1]
      unfold Graph.addVertex
      simp only [List.length_cons]
      omega
    · rw [h2]
      rfl
    · rw [h3]
      unfold Graph.addVertex
      simp only [List.length_append, List.length_cons, List.length_nil]
      omega

theorem ctor_facts (n : Nat) :
    (Graph.ctor n).numV = n ∧ (Graph.ctor n).numE = 0 ∧ (Graph.ctor n).adjList.length = n ∧
    (∀ x, (Graph.ctor n).getEdges x = []) ∧
    (∀ f, (Graph.ctor n).sumOver f = 0) := by
  obtain ⟨h1, h2, h3, h4⟩ := addVertex_fold (List.range n) Graph.empty
    (fun nd hnd => absurd hnd (List.not_mem_nil nd))
  have e1 : (Graph.ctor n).numV = n := by
    unfold Graph.ctor
    rw [h1, List.length_range]
    exact Nat.zero_add n
  have e3 : (Graph.ctor n).adjList.length = n := by
    unfold Graph.ctor
    rw [h3, List.length_range]
    exact Nat.zero_add n
  have e4 : ∀ nd, nd ∈ (Graph.ctor n).adjList → nd.edges = [] := h4
  refine ⟨e1, h2, e3, ?_, ?_⟩
  · intro x
    by_cases hx : x < (Graph.ctor n).adjList.length
    · unfold Graph.getEdges
      rw [List.getD_eq_getElem?_getD, List.getElem?_eq_getElem hx]
      exact e4 _ (List.getElem_mem hx)
    · exact getEdges_oob _ x (Nat.le_of_not_lt hx)
  · intro f
    unfold Graph.sumOver
    have : (Graph.ctor n).adjList.map (fun nd => (nd.edges.map f).sum)
        = (Graph.ctor n).adjList.map (fun _ => (0 : Int)) := by
      apply List.map_congr_left
      intro nd hnd
      rw [e4 nd hnd]
      rfl
    rw [this]
    simp

theorem addEdge_of_present (g : Graph) (x y : Nat) (c : Int)
    (h : mapCount (g.getEdges x) y = true) : g.addEdge x y c = g := by
  unfold Graph.addEdge
  rw [h]
  rfl

theorem addEdge_of_absent (g : Graph) (x y : Nat) (c : Int)
    (h : mapCount (g.getEdges x) y = false) :
    g.addEdge x y c =
      { g with
        adjList := (g.adjList.modify
          (fun nd => { nd with edges := mapInsert nd.edges ⟨y, c⟩ }) x).modify
          (fun nd => { nd with edges := mapInsert nd.edges ⟨x, c⟩ }) y
        numE := g.numE + 2 } := by
  unfold Graph.addEdge
  rw [h]
  rfl

theorem addEdge_numV (g : Graph) (x y : Nat) (c : Int) :
    (g.addEdge x y c).numV = g.numV ∧
    (g.addEdge x y c).adjList.length = g.adjList.length := by
  cases h : mapCount (g.getEdges x) y with
  | true => rw [addEdge_of_present g x y c h]; exact ⟨rfl, rfl⟩
  | false =>
    rw [addEdge_of_absent g x y c h]
    exact ⟨rfl, by simp only [List.length_modify]⟩

theorem getEdges_addEdge (g : Graph) (x y : Nat) (c : Int) (z : Nat)
    (h : mapCount (g.getEdges x) y = false) (hx : x < g.adjList.length)
    (hy : y < g.adjList.length) :
    (g.addEdge x y c).getEdges z =
      if z = y then
        mapInsert (if z = x then mapInsert (g.getEdges z) ⟨y, c⟩ else g.getEdges z) ⟨x, c⟩
      else if z = x then mapInsert (g.getEdges z) ⟨y, c⟩ else g.getEdges z := by
  rw [addEdge_of_absent g x y c h]
  unfold Graph.getEdges
  simp only [getD_modify_node, List.length_modify]
  by_cases hzy : z = y
  · subst hzy
    rw [if_pos rfl, if_pos ⟨rfl, hy⟩]
    by_cases hzx : z = x
    · subst hzx
      rw [if_pos rfl, if_pos ⟨rfl, hy⟩]
    · rw [if_neg hzx, if_neg (fun hh => hzx hh.1.symm)]
  · rw [if_neg hzy, if_neg (fun hh => hzy hh.1.symm)]
    by_cases hzx : z = x
    · subst hzx
      rw [if_pos rfl, if_pos ⟨rfl, hx⟩]
    · rw [if_neg hzx, if_neg (fun hh => hzx hh.1.symm)]

theorem addEdge_mono (g : Graph) (x y : Nat) (c : Int) (z : Nat) (e : Edge)
    (hx : x < g.adjList.length) (hy : y < g.adjList.length) (he : e ∈ g.getEdges z) :
    e ∈ (g.addEdge x y c).getEdges z := by
  cases h : mapCount (g.getEdges x) y with
  | true => rw [addEdge_of_present g x y c h]; exact he
  | false =>
    rw [getEdges_addEdge g x y c z h hx hy]
    split_ifs
    · exact (mem_mapInsert _ _ _).mpr (Or.inl ((mem_mapInsert _ _ _).mpr (Or.inl he)))
    · exact (mem_mapInsert _ _ _).mpr (Or.inl he)
    · exact (mem_mapInsert _ _ _).mpr (Or.inl he)
    · exact he

theorem addEdge_upper (g : Graph) (x y : Nat) (c : Int) (z : Nat) (e : Edge)
    (hx : x < g.adjList.length) (hy : y < g.adjList.length)
    (he : e ∈ (g.addEdge x y c).getEdges z) :
    e ∈ g.getEdges z ∨ (z = x ∧ e = ⟨y, c⟩) ∨ (z = y ∧ e = ⟨x, c⟩) := by
  cases h : mapCount (g.getEdges x) y with
  | true => rw [addEdge_of_present g x y c h] at he; exact Or.inl he
  | false =>
    rw [getEdges_addEdge g x y c z h hx hy] at he
    split_ifs at he with h1 h2 h2
    · rcases (mem_mapInsert _ _ _).mp he with h3 | h3
      · rcases (mem_mapInsert _ _ _).mp h3 with h4 | h4
        · exact Or.inl h4
        · exact Or.inr (Or.inl ⟨h2, h4.1⟩)
      · exact Or.inr (Or.inr ⟨h1, h3.1⟩)
    · rcases (mem_mapInsert _ _ _).mp he with h3 | h3
      · exact Or.inl h3
      · exact Or.inr (Or.inr ⟨h1, h3.1⟩)
    · rcases (mem_mapInsert _ _ _).mp he with h3 | h3
      · exact Or.inl h3
      · exact Or.inr (Or.inl ⟨h2, h3.1⟩)
    · exact Or.inl he

theorem addEdge_new_fst (g : Graph) (x y : Nat) (c : Int)
    (h : mapCount (g.getEdges x) y = false) (hx : x < g.adjList.length)
    (hy : y < g.adjList.length) :
    (⟨y, c⟩ : Edge) ∈ (g.addEdge x y c).getEdges x := by
  rw [getEdges_addEdge g x y c x h hx hy]
  have h1 : (⟨y, c⟩ : Edge) ∈ mapInsert (g.getEdges x) ⟨y, c⟩ :=
    (mem_mapInsert _ _ _).mpr (Or.inr ⟨rfl, h⟩)
  by_cases hxy : x = y
  · rw [if_pos hxy, if_pos rfl]
    exact (mem_mapInsert _ _ _).mpr (Or.inl h1)
  · rw [if_neg hxy, if_pos rfl]
    exact h1

theorem addEdge_new_snd (g : Graph) (x y : Nat) (c : Int)
    (h : mapCount (g.getEdges x) y = false) (hx : x < g.adjList.length)
    (hy : y < g.adjList.length) (h2 : x = y ∨ mapCount (g.getEdges y) x = false) :
    (⟨x, c⟩ : Edge) ∈ (g.addEdge x y c).getEdges y := by
  rw [getEdges_addEdge g x y c y h hx hy, if_pos rfl]
  by_cases hxy : y = x
  · rw [if_pos hxy]
    subst hxy
    exact (mem_mapInsert _ _ _).mpr (Or.inl ((mem_mapInsert _ _ _).mpr (Or.inr ⟨rfl, h⟩)))
  · rw [if_neg hxy]
    rcases h2 with h2 | h2
    · exact absurd h2.symm hxy
    · exact (mem_mapInsert _ _ _).mpr (Or.inr ⟨rfl, h2⟩)

theorem addEdge_sound (g : Graph) (x y : Nat) (c : Int) (hS : g.Sound)
    (hx : x < g.numV) (hy : y < g.numV) : (g.addEdge x y c).Sound := by
  have hx' : x < g.adjList.length := by rw [hS.len]; exact hx
  have hy' : y < g.adjList.length := by rw [hS.len]; exact hy
  obtain ⟨n1, n2⟩ := addEdge_numV g x y c
  refine ⟨by rw [n1, n2]; exact hS.len, ?_, ?_⟩
  · intro z e he
    rw [n1]
    rcases addEdge_upper g x y c z e hx' hy' he with h | ⟨_, h⟩ | ⟨_, h⟩
    · exact hS.range z e h
    · rw [h]; exact hy
    · rw [h]; exact hx
  · intro x1 y1 c1 he
    cases hgate : mapCount (g.getEdges x) y with
    | true =>
      rw [addEdge_of_present g x y c hgate] at he ⊢
      exact hS.symm x1 y1 c1 he
    | false =>
      rcases addEdge_upper g x y c x1 _ hx' hy' he with h | ⟨h1, h⟩ | ⟨h1, h⟩
      · exact addEdge_mono g x y c y1 _ hx' hy' (hS.symm x1 y1 c1 h)
      · have e1 : y1 = y := congrArg Edge.to_ h
        have e2 : c1 = c := congrArg Edge.cost h
        rw [h1, e1, e2]
        apply addEdge_new_snd g x y c hgate hx' hy'
        by_cases hxy : x = y
        · exact Or.inl hxy
        · right
          rw [mapCount_eq_false]
          intro e he' hto
          have hm : (⟨x, e.cost⟩ : Edge) ∈ g.getEdges y := by
            rw [← hto]
            exact he'
          have := hS.symm y x e.cost hm
          exact (mapCount_eq_false _ _).mp hgate _ this rfl
      · have e1 : y1 = x := congrArg Edge.to_ h
        have e2 : c1 = c := congrArg Edge.cost h
        rw [h1, e1, e2]
        exact addEdge_new_fst g x y c hgate hx' hy'

theorem ctor_sound (n : Nat) : (Graph.ctor n).Sound := by
  obtain ⟨h1, _, h3, h4, _⟩ := ctor_facts n
  refine ⟨by rw [h1, h3], ?_, ?_⟩
  · intro x e he
    rw [h4 x] at he
    exact absurd he (List.not_mem_nil e)
  · intro x y c he
    rw [h4 x] at he
    exact absurd he (List.not_mem_nil _)

theorem fromFile_sound (n : Nat) (es : List (Nat × Nat × Int))
    (hes : ∀ e, e ∈ es → e.1 < n ∧ e.2.1 < n) :
    (Graph.fromFile n es).Sound ∧ (Graph.fromFile n es).numV = n := by
  unfold Graph.fromFile
  have h0 : (Graph.ctor n).Sound ∧ (Graph.ctor n).numV = n := ⟨ctor_sound n, (ctor_facts n).1⟩
  revert h0
  generalize Graph.ctor n = g
  intro h0
  induction es generalizing g with
  | nil => exact h0
  | cons a es ih =>
    rw [List.foldl_cons]
    apply ih (fun e he => hes e (List.mem_cons_of_mem _ he))
    obtain ⟨h1, h2⟩ := hes a (List.mem_cons_self _ _)
    exact ⟨addEdge_sound g _ _ _ h0.1 (by rw [h0.2]; exact h1) (by rw [h0.2]; exact h2),
      by rw [(addEdge_numV g _ _ _).1]; exact h0.2⟩

theorem mem_pushUnvisited (curr : Nat) (V : Finset Nat) (es : List Edge) (pq : List NodeInfo)
    (t : NodeInfo) :
    t ∈ pushUnvisited curr V es pq ↔
      t ∈ pq ∨ ∃ e, e ∈ es ∧ e.to_ ∉ V ∧ t = ⟨curr, e.to_, e.cost⟩ := by
  unfold pushUnvisited
  induction es generalizing pq with
  | nil => simp
  | cons a es ih =>
    rw [List.foldl_cons, ih]
    by_cases ha : a.to_ ∉ V
    · rw [if_pos ha]
      simp only [List.mem_append, List.mem_singleton, List.mem_cons, List.mem_nil_iff, or_false]
      constructor
      · rintro ((h | h) | ⟨e, he, h1, h2⟩)
        · exact Or.inl h
        · exact Or.inr ⟨a, Or.inl rfl, ha, h⟩
        · exact Or.inr ⟨e, Or.inr he, h1, h2⟩
      · rintro (h | ⟨e, he | he, h1, h2⟩)
        · exact Or.inl (Or.inl h)
        · rw [he] at h2
          exact Or.inl (Or.inr h2)
        · exact Or.inr ⟨e, he, h1, h2⟩
    · rw [if_neg ha]
      simp only [List.mem_cons]
      constructor
      · rintro (h | ⟨e, he, h1, h2⟩)
        · exact Or.inl h
        · exact Or.inr ⟨e, Or.inr he, h1, h2⟩
      · rintro (h | ⟨e, he | he, h1, h2⟩)
        · exact Or.inl h
        · rw [he] at h1
          exact absurd h1 ha
        · exact Or.inr ⟨e, he, h1, h2⟩

theorem mem_pushSource (curr : Nat) (es : List Edge) (t : NodeInfo) :
    t ∈ pushSource curr es ↔ ∃ e, e ∈ es ∧ t = ⟨curr, e.to_, e.cost⟩ := by
  have h := mem_pushUnvisited curr ∅ es [] t
  have e : pushSource curr es = pushUnvisited curr ∅ es [] := by
    unfold pushSource pushUnvisited
    simp
  rw [e, h]
  simp

theorem staleCount_push (curr : Nat) (V : Finset Nat) (es : List Edge) (pq : List NodeInfo) :
    staleCount V (pushUnvisited curr V es pq) = staleCount V pq := by
  unfold pushUnvisited
  induction es generalizing pq with
  | nil => rfl
  | cons a es ih =>
    rw [List.foldl_cons, ih]
    by_cases ha : a.to_ ∉ V
    · rw [if_pos ha]
      unfold staleCount
      rw [List.filter_append, List.length_append]
      simp [ha]
    · rw [if_neg ha]

theorem staleCount_erase (V : Finset Nat) (pq : List NodeInfo) (t : NodeInfo) (ht : t ∈ pq)
    (hs : t.to_ ∈ V) : staleCount V (pq.erase t) + 1 = staleCount V pq := by
  unfold staleCount
  have hp := (List.perm_cons_erase ht).filter (fun t => decide (t.to_ ∈ V))
  rw [hp.length_eq, List.filter_cons]
  simp [hs]

theorem sumOver_addEdge (g : Graph) (x y : Nat) (c : Int) (f : Edge → Int)
    (hx : x < g.adjList.length) (hy : y < g.adjList.length) (hxy : x ≠ y)
    (h1 : mapCount (g.getEdges x) y = false) (h2 : mapCount (g.getEdges y) x = false) :
    (g.addEdge x y c).sumOver f = g.sumOver f + f ⟨y, c⟩ + f ⟨x, c⟩ := by
  rw [addEdge_of_absent g x y c h1]
  unfold Graph.sumOver
  show (((g.adjList.modify (fun nd => { nd with edges := mapInsert nd.edges ⟨y, c⟩ }) x).modify
      (fun nd => { nd with edges := mapInsert nd.edges ⟨x, c⟩ }) y).map
        (fun nd => (nd.edges.map f).sum)).sum = _
  rw [sum_map_modify _ _ _ y { n := 0, edges := [] } (by rw [List.length_modify]; exact hy),
    getD_modify_node, if_neg (fun hh => hxy hh.1),
    sum_map_modify _ _ _ x { n := 0, edges := [] } hx]
  have e1 := sum_mapInsert (g.getEdges x) ⟨y, c⟩ f h1
  have e2 := sum_mapInsert (g.getEdges y) ⟨x, c⟩ f h2
  unfold Graph.getEdges at e1 e2
  simp only [e1, e2]
  omega

theorem addEdge_numE (g : Graph) (x y : Nat) (c : Int)
    (h : mapCount (g.getEdges x) y = false) : (g.addEdge x y c).numE = g.numE + 2 := by
  rw [addEdge_of_absent g x y c h]

theorem adj_addEdge (g : Graph) (x y : Nat) (c : Int) (hx : x < g.adjList.length)
    (hy : y < g.adjList.length) (u v : Nat) (h : g.Adj u v) : (g.addEdge x y c).Adj u v := by
  obtain ⟨e, he, hv⟩ := h
  exact ⟨e, addEdge_mono g x y c u e hx hy he, hv⟩

theorem reach_addEdge (g : Graph) (x y : Nat) (c : Int) (hx : x < g.adjList.length)
    (hy : y < g.adjList.length) (u v : Nat) (h : Relation.ReflTransGen g.Adj u v) :
    Relation.ReflTransGen (g.addEdge x y c).Adj u v :=
  Relation.ReflTransGen.mono (fun a b hab => adj_addEdge g x y c hx hy a b hab) h

/-- A path that starts inside a set and ends outside it crosses its border. -/
theorem exists_crossing (g : Graph) (V : Finset Nat) (s u : Nat)
    (h : Relation.ReflTransGen g.Adj s u) (hs : s ∈ V) (hu : u ∉ V) :
    ∃ v e, v ∈ V ∧ e ∈ g.getEdges v ∧ e.to_ ∉ V := by
  induction h with
  | refl => exact absurd hs hu
  | tail hab hbc ih =>
    rename_i b c
    by_cases hb : b ∈ V
    · obtain ⟨e, he, hc⟩ := hbc
      exact ⟨b, e, hb, he, by rw [hc]; exact hu⟩
    · exact ih hb

/-! ## Lemmas: the loop of `Prim::run` -/

theorem edge_eta (e : Edge) : (⟨e.to_, e.cost⟩ : Edge) = e := by
  cases e
  rfl

theorem primInv_init (g : Graph) (source : Nat) (hsrc : source < g.numV) :
    PrimInv g source (pushSource source (g.getEdges source)) {source} (Graph.ctor g.numV) 0 := by
  obtain ⟨h1, h2, _, h4, h5⟩ := ctor_facts g.numV
  refine ⟨Finset.mem_singleton_self _, ?_, ctor_sound _, h1, ?_, ?_, ?_, ?_, ?_, ?_, ?_, ?_⟩
  · intro v hv
    rw [Finset.mem_singleton.mp hv]
    exact hsrc
  · intro x e he
    rw [h4 x] at he
    exact absurd he (List.not_mem_nil e)
  · rw [h2, Finset.card_singleton]
  · unfold Graph.entries
    rw [h5, h2]
    rfl
  · intro v hv
    rw [Finset.mem_singleton.mp hv]
  · unfold Graph.totalCost
    rw [h5]
    rfl
  · intro t ht
    obtain ⟨e, he, rfl⟩ := (mem_pushSource _ _ _).mp ht
    refine ⟨Finset.mem_singleton_self _, ?_⟩
    show (⟨e.to_, e.cost⟩ : Edge) ∈ g.getEdges source
    rw [edge_eta]
    exact he
  · intro v hv e he _
    rw [Finset.mem_singleton.mp hv] at he ⊢
    exact (mem_pushSource _ _ _).mpr ⟨e, he, rfl⟩
  · intro x e he
    rw [h4 x] at he
    exact absurd he (List.not_mem_nil e)

theorem primInv_queue (g : Graph) (source : Nat) (pq : List NodeInfo) (V : Finset Nat)
    (MST : Graph) (cost : Int) (t : NodeInfo) (hI : PrimInv g source pq V MST cost)
    (ht : t ∈ pq) :
    (∀ u, u ∈ pushUnvisited t.to_ V (g.getEdges t.to_) (pq.erase t) →
      u.from_ ∈ insert t.to_ V ∧ (⟨u.to_, u.dist⟩ : Edge) ∈ g.getEdges u.from_) ∧
    (∀ v, v ∈ insert t.to_ V → ∀ e, e ∈ g.getEdges v → e.to_ ∉ insert t.to_ V →
      (⟨v, e.to_, e.cost⟩ : NodeInfo) ∈ pushUnvisited t.to_ V (g.getEdges t.to_) (pq.erase t)) := by
  constructor
  · intro u hu
    rcases (mem_pushUnvisited _ _ _ _ _).mp hu with h | ⟨e, he, _, rfl⟩
    · obtain ⟨h1, h2⟩ := hI.inQ u (List.mem_of_mem_erase h)
      exact ⟨Finset.mem_insert_of_mem h1, h2⟩
    · refine ⟨Finset.mem_insert_self _ _, ?_⟩
      show (⟨e.to_, e.cost⟩ : Edge) ∈ g.getEdges t.to_
      rw [edge_eta]
      exact he
  · intro v hv e he hne
    have hne1 : e.to_ ∉ V := fun h => hne (Finset.mem_insert_of_mem h)
    have hne2 : e.to_ ≠ t.to_ := fun h => hne (by rw [h]; exact Finset.mem_insert_self _ _)
    rw [mem_pushUnvisited]
    by_cases hvV : v ∈ V
    · left
      have h1 := hI.cut v hvV e he hne1
      have hneq : (⟨v, e.to_, e.cost⟩ : NodeInfo) ≠ t := by
        intro h
        apply hne2
        rw [← h]
      exact (List.mem_erase_of_ne hneq).mpr h1
    · right
      have hvt : v = t.to_ := by
        rcases Finset.mem_insert.mp hv with h | h
        · exact h
        · exact absurd h hvV
      rw [hvt] at he ⊢
      exact ⟨e, he, hne1, rfl⟩

theorem primInv_stale (g : Graph) (source : Nat) (pq : List NodeInfo) (V : Finset Nat)
    (MST : Graph) (cost : Int) (t : NodeInfo) (hI : PrimInv g source pq V MST cost)
    (ht : t ∈ pq) (hs : t.to_ ∈ V) :
    PrimInv g source (pushUnvisited t.to_ V (g.getEdges t.to_) (pq.erase t))
      (insert t.to_ V) MST cost := by
  obtain ⟨q1, q2⟩ := primInv_queue g source pq V MST cost t hI ht
  have hV : insert t.to_ V = V := Finset.insert_eq_of_mem hs
  refine ⟨Finset.mem_insert_of_mem hI.src, ?_, hI.sound, hI.numV, ?_, ?_, hI.cnt, ?_, hI.cost,
    q1, q2, hI.noloop⟩
  · rw [hV]; exact hI.bound
  · rw [hV]; exact hI.sub
  · rw [hV]; exact hI.numE
  · rw [hV]; exact hI.reach

theorem primInv_fresh (g : Graph) (source : Nat) (pq : List NodeInfo) (V : Finset Nat)
    (MST : Graph) (cost : Int) (t : NodeInfo) (hS : g.Sound)
    (hI : PrimInv g source pq V MST cost) (ht : t ∈ pq) (hs : t.to_ ∉ V) :
    PrimInv g source (pushUnvisited t.to_ V (g.getEdges t.to_) (pq.erase t))
      (insert t.to_ V) (MST.addEdge t.from_ t.to_ t.dist) (cost + t.dist) := by
  obtain ⟨q1, q2⟩ := primInv_queue g source pq V MST cost t hI ht
  obtain ⟨hfrom, het⟩ := hI.inQ t ht
  have hx : t.from_ < MST.numV := by rw [hI.numV]; exact hI.bound _ hfrom
  have hy : t.to_ < MST.numV := by rw [hI.numV]; exact hS.range _ _ het
  have hx' : t.from_ < MST.adjList.length := by rw [hI.sound.len]; exact hx
  have hy' : t.to_ < MST.adjList.length := by rw [hI.sound.len]; exact hy
  have hxy : t.from_ ≠ t.to_ := fun h => hs (by rw [← h]; exact hfrom)
  have g1 : mapCount (MST.getEdges t.from_) t.to_ = false := by
    rw [mapCount_eq_false]
    intro e he hto
    exact hs (by rw [← hto]; exact (hI.sub _ e he).2.1)
  have g2 : mapCount (MST.getEdges t.to_) t.from_ = false := by
    rw [mapCount_eq_false]
    intro e he _
    exact hs (hI.sub _ e he).1
  obtain ⟨n1, _⟩ := addEdge_numV MST t.from_ t.to_ t.dist
  refine ⟨Finset.mem_insert_of_mem hI.src, ?_, addEdge_sound MST _ _ _ hI.sound hx hy,
    by rw [n1]; exact hI.numV, ?_, ?_, ?_, ?_, ?_, q1, q2, ?_⟩
  · intro v hv
    rcases Finset.mem_insert.mp hv with h | h
    · rw [h]; exact hS.range _ _ het
    · exact hI.bound v h
  · intro z e he
    rcases addEdge_upper MST _ _ _ z e hx' hy' he with h | ⟨h1, h⟩ | ⟨h1, h⟩
    · obtain ⟨s1, s2, s3⟩ := hI.sub z e h
      exact ⟨Finset.mem_insert_of_mem s1, Finset.mem_insert_of_mem s2, s3⟩
    · rw [h1, h]
      exact ⟨Finset.mem_insert_of_mem hfrom, Finset.mem_insert_self _ _, het⟩
    · rw [h1, h]
      exact ⟨Finset.mem_insert_self _ _, Finset.mem_insert_of_mem hfrom,
        hS.symm _ _ _ het⟩
  · rw [addEdge_numE MST _ _ _ g1, Finset.card_insert_of_not_mem hs]
    have := hI.numE
    omega
  · unfold Graph.entries
    rw [sumOver_addEdge MST _ _ _ _ hx' hy' hxy g1 g2, addEdge_numE MST _ _ _ g1]
    have := hI.cnt
    unfold Graph.entries at this
    rw [this]
    push_cast
    ring
  · intro v hv
    rcases Finset.mem_insert.mp hv with h | h
    · rw [h]
      exact (reach_addEdge MST _ _ _ hx' hy' _ _ (hI.reach _ hfrom)).tail
        ⟨_, addEdge_new_fst MST _ _ _ g1 hx' hy', rfl⟩
    · exact reach_addEdge MST _ _ _ hx' hy' _ _ (hI.reach v h)
  · unfold Graph.totalCost
    rw [sumOver_addEdge MST _ _ _ _ hx' hy' hxy g1 g2]
    have := hI.cost
    unfold Graph.totalCost at this
    show 2 * (cost + t.dist) = MST.sumOver (fun e => e.cost) + t.dist + t.dist
    omega
  · intro z e he
    rcases addEdge_upper MST _ _ _ z e hx' hy' he with h | ⟨h1, h⟩ | ⟨h1, h⟩
    · exact hI.noloop z e h
    · rw [h1, h]
      exact fun h9 => hxy h9.symm
    · rw [h1, h]
      exact hxy

theorem primInv_step (g : Graph) (source : Nat) (pq : List NodeInfo) (V : Finset Nat)
    (MST : Graph) (cost : Int) (t : NodeInfo) (hS : g.Sound)
    (hI : PrimInv g source pq V MST cost) (ht : t ∈ pq) :
    PrimInv g source (pushUnvisited t.to_ V (g.getEdges t.to_) (pq.erase t))
      (insert t.to_ V) (if t.to_ ∉ V then MST.addEdge t.from_ t.to_ t.dist else MST)
      (if t.to_ ∉ V then cost + t.dist else cost) := by
  by_cases hs : t.to_ ∉ V
  · rw [if_pos hs, if_pos hs]
    exact primInv_fresh g source pq V MST cost t hS hI ht hs
  · rw [if_neg hs, if_neg hs]
    exact primInv_stale g source pq V MST cost t hI ht (not_not.mp hs)

/-- While a vertex is unvisited, a connected graph keeps an entry in the queue. -/
theorem queue_nonempty (g : Graph) (source : Nat) (pq : List NodeInfo) (V : Finset Nat)
    (MST : Graph) (cost : Int) (hI : PrimInv g source pq V MST cost)
    (hconn : ∀ u, u < g.numV → Relation.ReflTransGen g.Adj source u)
    (hc : V.card ≠ g.numV) : pq ≠ [] := by
  have hsub : V ⊆ Finset.range g.numV := by
    intro v hv
    exact Finset.mem_range.mpr (hI.bound v hv)
  have hex : ∃ u, u < g.numV ∧ u ∉ V := by
    by_contra hno
    push_neg at hno
    have hsup : Finset.range g.numV ⊆ V := by
      intro u hu
      exact hno u (Finset.mem_range.mp hu)
    have := Finset.Subset.antisymm hsub hsup
    rw [this, Finset.card_range] at hc
    exact hc rfl
  obtain ⟨u, hu, huV⟩ := hex
  obtain ⟨v, e, hv, he, hne⟩ := exists_crossing g V source u (hconn u hu) hI.src huV
  intro hnil
  have := hI.cut v hv e he hne
  rw [hnil] at this
  exact absurd this (List.not_mem_nil _)

theorem primLoop_succ (g : Graph) (top : List NodeInfo → NodeInfo) (fuel : Nat)
    (pq : List NodeInfo) (V : Finset Nat) (MST : Graph) (cost : Int) :
    primLoop g top (fuel + 1) pq V MST cost =
      if V.card = g.numV then Outcome.done MST cost
      else if pq = [] then Outcome.emptyTop
      else if pushUnvisited (top pq).to_ V (g.getEdges (top pq).to_) (pq.erase (top pq)) = []
        then Outcome.done
          (if (top pq).to_ ∉ V then MST.addEdge (top pq).from_ (top pq).to_ (top pq).dist
            else MST)
          (if (top pq).to_ ∉ V then cost + (top pq).dist else cost)
      else primLoop g top fuel
        (pushUnvisited (top pq).to_ V (g.getEdges (top pq).to_) (pq.erase (top pq)))
        (insert (top pq).to_ V)
        (if (top pq).to_ ∉ V then MST.addEdge (top pq).from_ (top pq).to_ (top pq).dist
          else MST)
        (if (top pq).to_ ∉ V then cost + (top pq).dist else cost) := by
  rw [primLoop]

theorem primLoop_mono (g : Graph) (top : List NodeInfo → NodeInfo) (fuel : Nat) :
    ∀ (pq : List NodeInfo) (V : Finset Nat) (MST : Graph) (cost : Int) (M : Graph) (c : Int),
      primLoop g top fuel pq V MST cost = Outcome.done M c →
      ∀ k, primLoop g top (fuel + k) pq V MST cost = Outcome.done M c := by
  induction fuel with
  | zero =>
    intro pq V MST cost M c h
    rw [primLoop] at h
    cases h
  | succ fuel ih =>
    intro pq V MST cost M c h k
    rw [Nat.add_right_comm, primLoop_succ]
    rw [primLoop_succ] at h
    by_cases h1 : V.card = g.numV
    · rw [if_pos h1] at h ⊢
      exact h
    · rw [if_neg h1] at h ⊢
      by_cases h2 : pq = []
      · rw [if_pos h2] at h
        cases h
      · rw [if_neg h2] at h ⊢
        by_cases h3 : pushUnvisited (top pq).to_ V (g.getEdges (top pq).to_)
            (pq.erase (top pq)) = []
        · rw [if_pos h3] at h ⊢
          exact h
        · rw [if_neg h3] at h ⊢
          exact ih _ _ _ _ M c h k

theorem card_le_of_inv (g : Graph) (source : Nat) (pq : List NodeInfo) (V : Finset Nat)
    (MST : Graph) (cost : Int) (hI : PrimInv g source pq V MST cost) : V.card ≤ g.numV := by
  have hsub : V ⊆ Finset.range g.numV := by
    intro v hv
    exact Finset.mem_range.mpr (hI.bound v hv)
  have := Finset.card_le_card hsub
  rw [Finset.card_range] at this
  exact this

/-- On a connected graph the loop returns, in a state that satisfies the invariant with
every vertex visited; a property `J` of `visited` and `MSTCost` that every iteration keeps
holds in that state too. -/
theorem primLoop_returns_inv (g : Graph) (source : Nat) (top : List NodeInfo → NodeInfo)
    (hS : g.Sound) (hconn : ∀ u, u < g.numV → Relation.ReflTransGen g.Adj source u)
    (htop : IsMinTop top) (J : Finset Nat → Int → Prop)
    (hJ : ∀ (pq : List NodeInfo) (V : Finset Nat) (MST : Graph) (cost : Int),
      PrimInv g source pq V MST cost → J V cost → pq ≠ [] →
      J (insert (top pq).to_ V) (if (top pq).to_ ∉ V then cost + (top pq).dist else cost))
    (m : Nat) :
    ∀ (s : Nat) (pq : List NodeInfo) (V : Finset Nat) (MST : Graph) (cost : Int),
      PrimInv g source pq V MST cost → J V cost → g.numV - V.card = m → staleCount V pq = s →
      ∃ fuel M c pq2 V2, primLoop g top fuel pq V MST cost = Outcome.done M c ∧
        PrimInv g source pq2 V2 M c ∧ V2.card = g.numV ∧ J V2 c := by
  induction m using Nat.strong_induction_on with
  | _ m ihm =>
    intro s
    induction s using Nat.strong_induction_on with
    | _ s ihs =>
      intro pq V MST cost hI hJ0 hm hs
      by_cases hc : V.card = g.numV
      · refine ⟨1, MST, cost, pq, V, ?_, hI, hc, hJ0⟩
        rw [primLoop_succ, if_pos hc]
      · have hpq := queue_nonempty g source pq V MST cost hI hconn hc
        have ht := (htop pq hpq).1
        have hI2 := primInv_step g source pq V MST cost (top pq) hS hI ht
        have hJ2 := hJ pq V MST cost hI hJ0 hpq
        have hle := card_le_of_inv g source pq V MST cost hI
        by_cases hq2 : pushUnvisited (top pq).to_ V (g.getEdges (top pq).to_)
            (pq.erase (top pq)) = []
        · refine ⟨1, _, _, _, _, ?_, hI2, ?_, hJ2⟩
          · rw [primLoop_succ, if_neg hc, if_neg hpq, if_pos hq2]
          · by_contra hc2
            exact queue_nonempty g source _ _ _ _ hI2 hconn hc2 hq2
        · have hrec : ∃ fuel M c pq2 V2,
              primLoop g top fuel
                (pushUnvisited (top pq).to_ V (g.getEdges (top pq).to_) (pq.erase (top pq)))
                (insert (top pq).to_ V)
                (if (top pq).to_ ∉ V then
                  MST.addEdge (top pq).from_ (top pq).to_ (top pq).dist else MST)
                (if (top pq).to_ ∉ V then cost + (top pq).dist else cost)
                = Outcome.done M c ∧
              PrimInv g source pq2 V2 M c ∧ V2.card = g.numV ∧ J V2 c := by
            by_cases hst : (top pq).to_ ∈ V
            · have hV : insert (top pq).to_ V = V := Finset.insert_eq_of_mem hst
              have hlt : staleCount (insert (top pq).to_ V)
                  (pushUnvisited (top pq).to_ V (g.getEdges (top pq).to_)
                    (pq.erase (top pq))) < s := by
                rw [hV, staleCount_push]
                have := staleCount_erase V pq (top pq) ht hst
                omega
              exact ihs _ hlt _ _ _ _ hI2 hJ2 (by rw [hV]; exact hm) rfl
            · have hlt : g.numV - (insert (top pq).to_ V).card < m := by
                rw [Finset.card_insert_of_not_mem hst]
                omega
              exact ihm _ hlt _ _ _ _ _ hI2 hJ2 rfl rfl
          obtain ⟨fuel, M, c, pq2, V2, h1, h2, h3, h4⟩ := hrec
          refine ⟨fuel + 1, M, c, pq2, V2, ?_, h2, h3, h4⟩
          rw [primLoop_succ, if_neg hc, if_neg hpq, if_neg hq2]
          exact h1

/-- On a connected graph the loop returns, in a state that satisfies the invariant with
every vertex visited. -/
theorem primLoop_returns (g : Graph) (source : Nat) (top : List NodeInfo → NodeInfo)
    (hS : g.Sound) (hconn : ∀ u, u < g.numV → Relation.ReflTransGen g.Adj source u)
    (htop : IsMinTop top) (m : Nat) (s : Nat) (pq : List NodeInfo) (V : Finset Nat)
    (MST : Graph) (cost : Int) (hI : PrimInv g source pq V MST cost)
    (hm : g.numV - V.card = m) (hs : staleCount V pq = s) :
    ∃ fuel M c pq2 V2, primLoop g top fuel pq V MST cost = Outcome.done M c ∧
      PrimInv g source pq2 V2 M c ∧ V2.card = g.numV := by
  obtain ⟨fuel, M, c, pq2, V2, h1, h2, h3, _⟩ :=
    primLoop_returns_inv g source top hS hconn htop (fun _ _ => True)
      (fun _ _ _ _ _ _ _ => trivial) m s pq V MST cost hI trivial hm hs
  exact ⟨fuel, M, c, pq2, V2, h1, h2, h3⟩

theorem adj_symm (g : Graph) (hS : g.Sound) : Symmetric g.Adj := by
  intro x y h
  obtain ⟨e, he, hy⟩ := h
  have h1 : (⟨y, e.cost⟩ : Edge) ∈ g.getEdges x := by
    rw [← hy, edge_eta]
    exact he
  exact ⟨⟨x, e.cost⟩, hS.symm x y e.cost h1, rfl⟩

theorem connected_of_reach (g : Graph) (hS : g.Sound) (s : Nat)
    (h : ∀ v, v < g.numV → Relation.ReflTransGen g.Adj s v) : g.Connected := by
  intro u v hu hv
  exact (Relation.ReflTransGen.symmetric (adj_symm g hS) (h u hu)).trans (h v hv)

theorem visited_all (g : Graph) (source : Nat) (pq : List NodeInfo) (V : Finset Nat)
    (MST : Graph) (cost : Int) (hI : PrimInv g source pq V MST cost)
    (hc : V.card = g.numV) (v : Nat) (hv : v < g.numV) : v ∈ V := by
  have hsub : V ⊆ Finset.range g.numV := by
    intro u hu
    exact Finset.mem_range.mpr (hI.bound u hu)
  have heq : V = Finset.range g.numV :=
    Finset.eq_of_subset_of_card_le hsub (by rw [Finset.card_range, hc])
  rw [heq]
  exact Finset.mem_range.mpr hv

/-! ## Lemmas: exchanging an edge of a spanning tree -/

theorem tadj_symm (T : Finset (Sym2 Nat × Int)) : Symmetric (TAdj T) := by
  intro x y h
  obtain ⟨c, hc⟩ := h
  exact ⟨c, by rw [Sym2.eq_swap]; exact hc⟩

theorem tadj_mono (T T2 : Finset (Sym2 Nat × Int)) (h : T ⊆ T2) (x y : Nat)
    (hxy : TAdj T x y) : TAdj T2 x y := by
  obtain ⟨c, hc⟩ := hxy
  exact ⟨c, h hc⟩

theorem walkLen_mono (R R2 : Nat → Nat → Prop) (h : ∀ x y, R x y → R2 x y) (n x y : Nat)
    (w : WalkLen R n x y) : WalkLen R2 n x y := by
  induction w with
  | nil x => exact WalkLen.nil x
  | cons hxy _ ih => exact WalkLen.cons (h _ _ hxy) ih

theorem rtg_of_walkLen (R : Nat → Nat → Prop) (n x y : Nat) (w : WalkLen R n x y) :
    Relation.ReflTransGen R x y := by
  induction w with
  | nil x => exact Relation.ReflTransGen.refl
  | cons hxy _ ih => exact Relation.ReflTransGen.head hxy ih

theorem walkLen_of_rtg (R : Nat → Nat → Prop) (x y : Nat) (h : Relation.ReflTransGen R x y) :
    ∃ n, WalkLen R n x y := by
  induction h using Relation.ReflTransGen.head_induction_on with
  | refl => exact ⟨0, WalkLen.nil y⟩
  | head hab _ ih =>
    obtain ⟨n, hn⟩ := ih
    exact ⟨n + 1, WalkLen.cons hab hn⟩

/-- A walk in `T` either avoids the edge `f`, or ends with a shorter walk that avoids `f`
and starts at an end of `f`, the other end being reached from the start without `f`. -/
theorem walk_split (T : Finset (Sym2 Nat × Int)) (a b : Nat) (c0 : Int) (n x y : Nat)
    (w : WalkLen (TAdj T) n x y) :
    (∃ m, m ≤ n ∧ WalkLen (TAdj (T.erase (s(a, b), c0))) m x y) ∨
    (∃ m p q, m < n ∧ s(p, q) = s(a, b) ∧
      Relation.ReflTransGen (TAdj (T.erase (s(a, b), c0))) x p ∧
      WalkLen (TAdj (T.erase (s(a, b), c0))) m q y) := by
  induction w with
  | nil x => exact Or.inl ⟨0, le_refl 0, WalkLen.nil x⟩
  | @cons k x x1 z hxy _ ih =>
    obtain ⟨c, hc⟩ := hxy
    by_cases hf : (s(x, x1), c) = (s(a, b), c0)
    · have hs : s(x, x1) = s(a, b) := (Prod.mk.inj hf).1
      rcases ih with ⟨m, hm, hw⟩ | ⟨m, p, q, hm, hpq, _, hw⟩
      · exact Or.inr ⟨m, x, x1, by omega, hs, Relation.ReflTransGen.refl, hw⟩
      · have hpq2 : s(p, q) = s(x, x1) := hpq.trans hs.symm
        rcases Sym2.eq_iff.mp hpq2 with ⟨h1, h2⟩ | ⟨_, h2⟩
        · refine Or.inr ⟨m, x, x1, by omega, hs, Relation.ReflTransGen.refl, ?_⟩
          rw [← h2]
          exact hw
        · refine Or.inl ⟨m, by omega, ?_⟩
          rw [← h2]
          exact hw
    · have hstep : TAdj (T.erase (s(a, b), c0)) x x1 :=
        ⟨c, Finset.mem_erase.mpr ⟨hf, hc⟩⟩
      rcases ih with ⟨m, hm, hw⟩ | ⟨m, p, q, hm, hpq, hr, hw⟩
      · exact Or.inl ⟨m + 1, by omega, WalkLen.cons hstep hw⟩
      · exact Or.inr ⟨m, p, q, by omega, hpq, Relation.ReflTransGen.head hstep hr, hw⟩

/-- A walk in `T` that leaves the set `V` uses an edge that leaves `V` and whose ends stay
joined to the ends of the walk when the edge is removed. -/
theorem exists_exchange (T : Finset (Sym2 Nat × Int)) (V : Finset Nat) (n : Nat) :
    ∀ x v, x ∈ V → v ∉ V → WalkLen (TAdj T) n x v →
      ∃ a b c, (s(a, b), c) ∈ T ∧ a ∈ V ∧ b ∉ V ∧
        Relation.ReflTransGen (TAdj (T.erase (s(a, b), c))) x a ∧
        Relation.ReflTransGen (TAdj (T.erase (s(a, b), c))) b v := by
  induction n using Nat.strong_induction_on with
  | _ n ih =>
    intro x v hx hv w
    cases w with
    | nil => exact absurd hx hv
    | @cons k _ x1 _ hxy w1 =>
      obtain ⟨c1, hc1⟩ := hxy
      by_cases hx1 : x1 ∈ V
      · obtain ⟨a, b, c, hf, ha, hb, r1, r2⟩ := ih k (by omega) x1 v hx1 hv w1
        refine ⟨a, b, c, hf, ha, hb, Relation.ReflTransGen.head ?_ r1, r2⟩
        refine ⟨c1, Finset.mem_erase.mpr ⟨?_, hc1⟩⟩
        intro heq
        rcases Sym2.eq_iff.mp (Prod.mk.inj heq).1 with ⟨_, h2⟩ | ⟨h1, _⟩
        · exact hb (by rw [← h2]; exact hx1)
        · exact hb (by rw [← h1]; exact hx)
      · rcases walk_split T x x1 c1 k x1 v w1 with ⟨m, _, hw⟩ | ⟨m, p, q, hm, hpq, _, hw⟩
        · exact ⟨x, x1, c1, hc1, hx, hx1, Relation.ReflTransGen.refl,
            rtg_of_walkLen _ _ _ _ hw⟩
        · rcases Sym2.eq_iff.mp hpq with ⟨_, h2⟩ | ⟨_, h2⟩
          · rw [h2] at hw
            exact ⟨x, x1, c1, hc1, hx, hx1, Relation.ReflTransGen.refl,
              rtg_of_walkLen _ _ _ _ hw⟩
          · rw [h2] at hw
            exact ih m (by omega) x v hx hv
              (walkLen_mono _ _ (tadj_mono _ _ (Finset.erase_subset _ _)) _ _ _ hw)

/-- Connectedness is kept when the edge `f` is replaced by an edge that joins the two parts
into which removing `f` may split the tree. -/
theorem conn_exchange (T : Finset (Sym2 Nat × Int)) (a b : Nat) (c : Int) (u v : Nat) (d : Int)
    (r1 : Relation.ReflTransGen (TAdj (T.erase (s(a, b), c))) u a)
    (r2 : Relation.ReflTransGen (TAdj (T.erase (s(a, b), c))) b v) (x y : Nat)
    (h : Relation.ReflTransGen (TAdj T) x y) :
    Relation.ReflTransGen (TAdj (insert (s(u, v), d) (T.erase (s(a, b), c)))) x y := by
  have hsub : T.erase (s(a, b), c) ⊆ insert (s(u, v), d) (T.erase (s(a, b), c)) :=
    Finset.subset_insert _ _
  have hsym := Relation.ReflTransGen.symmetric
    (tadj_symm (insert (s(u, v), d) (T.erase (s(a, b), c))))
  have r1' := Relation.ReflTransGen.mono (tadj_mono _ _ hsub) r1
  have r2' := Relation.ReflTransGen.mono (tadj_mono _ _ hsub) r2
  have huv : TAdj (insert (s(u, v), d) (T.erase (s(a, b), c))) u v :=
    ⟨d, Finset.mem_insert_self _ _⟩
  have hab : Relation.ReflTransGen (TAdj (insert (s(u, v), d) (T.erase (s(a, b), c)))) a b :=
    ((hsym r1').tail huv).trans (hsym r2')
  induction h with
  | refl => exact Relation.ReflTransGen.refl
  | @tail p q _ hstep ih =>
    obtain ⟨c1, hc1⟩ := hstep
    by_cases hf : (s(p, q), c1) = (s(a, b), c)
    · rcases Sym2.eq_iff.mp (Prod.mk.inj hf).1 with ⟨h1, h2⟩ | ⟨h1, h2⟩
      · rw [h2]
        rw [h1] at ih
        exact ih.trans hab
      · rw [h2]
        rw [h1] at ih
        exact ih.trans (hsym hab)
    · exact ih.tail ⟨c1, hsub (Finset.mem_erase.mpr ⟨hf, hc1⟩)⟩

/-- The exchange step: a spanning tree `T` and an edge `(u, v, d)` of `g` that leaves `V`
and costs no more than any edge of `T` that leaves `V` give a spanning tree that contains
the edge and every edge of `T` inside `V`, and costs no more than `T`. -/
theorem tree_exchange (g : Graph) (hS : g.Sound) (T : Finset (Sym2 Nat × Int))
    (hT : IsSpanningTree g T) (V : Finset Nat) (u v : Nat) (d : Int)
    (hu : u ∈ V) (hv : v ∉ V) (hun : u < g.numV) (huv : (⟨v, d⟩ : Edge) ∈ g.getEdges u)
    (hmin : ∀ a b c, (s(a, b), c) ∈ T → a ∈ V → b ∉ V → d ≤ c) :
    ∃ T2, IsSpanningTree g T2 ∧ (s(u, v), d) ∈ T2 ∧ treeCost T2 ≤ treeCost T ∧
      ∀ x y c, (s(x, y), c) ∈ T → x ∈ V → y ∈ V → (s(x, y), c) ∈ T2 := by
  by_cases he : (s(u, v), d) ∈ T
  · exact ⟨T, hT, he, le_refl _, fun _ _ _ h _ _ => h⟩
  · have hvn : v < g.numV := hS.range u _ huv
    obtain ⟨n, w⟩ := walkLen_of_rtg _ _ _ (hT.conn u v hun hvn)
    obtain ⟨a, b, c, hf, ha, hb, r1, r2⟩ := exists_exchange T V n u v hu hv w
    have he2 : (s(u, v), d) ∉ T.erase (s(a, b), c) := fun h => he (Finset.mem_of_mem_erase h)
    refine ⟨insert (s(u, v), d) (T.erase (s(a, b), c)), ⟨?_, ?_, ?_⟩,
      Finset.mem_insert_self _ _, ?_, ?_⟩
    · intro x y c1 h
      rcases Finset.mem_insert.mp h with h1 | h1
      · obtain ⟨h2, h3⟩ := Prod.mk.inj h1
        rw [h3]
        rcases Sym2.eq_iff.mp h2 with ⟨h4, h5⟩ | ⟨h4, h5⟩
        · rw [h4, h5]
          exact huv
        · rw [h4, h5]
          exact hS.symm u v d huv
      · exact hT.edge x y c1 (Finset.mem_of_mem_erase h1)
    · rw [Finset.card_insert_of_not_mem he2, Finset.card_erase_of_mem hf]
      have h1 : 0 < T.card := Finset.card_pos.mpr ⟨_, hf⟩
      have h2 := hT.card
      omega
    · intro x y hx hy
      exact conn_exchange T a b c u v d r1 r2 x y (hT.conn x y hx hy)
    · unfold treeCost
      rw [Finset.sum_insert he2]
      have h1 := Finset.add_sum_erase T (fun p => p.2) hf
      have h2 := hmin a b c hf ha hb
      simp only at h1
      linarith
    · intro x y c1 h hx hy
      refine Finset.mem_insert_of_mem (Finset.mem_erase.mpr ⟨?_, h⟩)
      intro heq
      rcases Sym2.eq_iff.mp (Prod.mk.inj heq).1 with ⟨_, h2⟩ | ⟨h1, _⟩
      · exact hb (by rw [← h2]; exact hy)
      · exact hb (by rw [← h1]; exact hx)

/-! ## Lemmas: the edges chosen by `Prim::run` lie in a cheapest spanning tree -/

theorem primOpt_init (g : Graph) (source : Nat) : PrimOpt g source {source} 0 := by
  refine ⟨∅, ?_, ?_, ?_, ?_, ?_, ?_⟩
  · intro x y c h
    exact absurd h (Finset.not_mem_empty _)
  · intro x y c h
    exact absurd h (Finset.not_mem_empty _)
  · rw [Finset.card_empty, Finset.card_singleton]
  · unfold treeCost
    rw [Finset.sum_empty]
  · intro v hv
    rw [Finset.mem_singleton.mp hv]
  · intro T hT
    exact ⟨T, hT, Finset.empty_subset _, le_refl _⟩

theorem primOpt_step (g : Graph) (source : Nat) (top : List NodeInfo → NodeInfo)
    (hS : g.Sound) (htop : IsMinTop top) (pq : List NodeInfo) (V : Finset Nat)
    (MST : Graph) (cost : Int) (hI : PrimInv g source pq V MST cost)
    (hO : PrimOpt g source V cost) (hpq : pq ≠ []) :
    PrimOpt g source (insert (top pq).to_ V)
      (if (top pq).to_ ∉ V then cost + (top pq).dist else cost) := by
  by_cases hst : (top pq).to_ ∈ V
  · rw [if_neg (not_not.mpr hst), Finset.insert_eq_of_mem hst]
    exact hO
  · rw [if_pos hst]
    obtain ⟨ht, hmin⟩ := htop pq hpq
    obtain ⟨hfrom, het⟩ := hI.inQ _ ht
    obtain ⟨F, f1, f2, f3, f4, f5, f6⟩ := hO
    have hnew : (s((top pq).from_, (top pq).to_), (top pq).dist) ∉ F :=
      fun h => hst (f1 _ _ _ h).2
    refine ⟨insert (s((top pq).from_, (top pq).to_), (top pq).dist) F, ?_, ?_, ?_, ?_, ?_, ?_⟩
    · intro x y c h
      rcases Finset.mem_insert.mp h with h1 | h1
      · rcases Sym2.eq_iff.mp (Prod.mk.inj h1).1 with ⟨h4, h5⟩ | ⟨h4, h5⟩
        · rw [h4, h5]
          exact ⟨Finset.mem_insert_of_mem hfrom, Finset.mem_insert_self _ _⟩
        · rw [h4, h5]
          exact ⟨Finset.mem_insert_self _ _, Finset.mem_insert_of_mem hfrom⟩
      · obtain ⟨h2, h3⟩ := f1 x y c h1
        exact ⟨Finset.mem_insert_of_mem h2, Finset.mem_insert_of_mem h3⟩
    · intro x y c h
      rcases Finset.mem_insert.mp h with h1 | h1
      · obtain ⟨h2, h3⟩ := Prod.mk.inj h1
        rw [h3]
        rcases Sym2.eq_iff.mp h2 with ⟨h4, h5⟩ | ⟨h4, h5⟩
        · rw [h4, h5]
          exact het
        · rw [h4, h5]
          exact hS.symm _ _ _ het
      · exact f2 x y c h1
    · rw [Finset.card_insert_of_not_mem hnew, Finset.card_insert_of_not_mem hst, f3]
    · unfold treeCost
      rw [Finset.sum_insert hnew]
      unfold treeCost at f4
      rw [f4]
      exact add_comm _ _
    · intro v hv
      have hmono : ∀ x y, TAdj F x y →
          TAdj (insert (s((top pq).from_, (top pq).to_), (top pq).dist) F) x y :=
        tadj_mono _ _ (Finset.subset_insert _ _)
      rcases Finset.mem_insert.mp hv with h | h
      · rw [h]
        exact (Relation.ReflTransGen.mono hmono (f5 _ hfrom)).tail
          ⟨(top pq).dist, Finset.mem_insert_self _ _⟩
      · exact Relation.ReflTransGen.mono hmono (f5 v h)
    · intro T hT
      obtain ⟨T1, hT1, hsub, hle⟩ := f6 T hT
      have hcross : ∀ a b c, (s(a, b), c) ∈ T1 → a ∈ V → b ∉ V → (top pq).dist ≤ c := by
        intro a b c h ha hb
        have h1 := hT1.edge a b c h
        have h2 := hI.cut a ha ⟨b, c⟩ h1 hb
        exact hmin _ h2
      obtain ⟨T2, hT2, hin, hle2, hkeep⟩ :=
        tree_exchange g hS T1 hT1 V (top pq).from_ (top pq).to_ (top pq).dist hfrom hst
          (hI.bound _ hfrom) het hcross
      refine ⟨T2, hT2, ?_, le_trans hle2 hle⟩
      intro p hp
      rcases Finset.mem_insert.mp hp with h | h
      · rw [h]
        exact hin
      · obtain ⟨z, c⟩ := p
        induction z using Sym2.ind with
        | _ x y =>
          obtain ⟨hx, hy⟩ := f1 x y c h
          exact hkeep x y c (hsub h) hx hy

/-- When every vertex is visited, the chosen edges are a spanning tree of cost `MSTCost`,
and no spanning tree costs less. -/
theorem primOpt_final (g : Graph) (source : Nat) (pq : List NodeInfo) (V : Finset Nat)
    (MST : Graph) (cost : Int) (hI : PrimInv g source pq V MST cost)
    (hO : PrimOpt g source V cost) (hc : V.card = g.numV) :
    (∃ T, IsSpanningTree g T ∧ treeCost T = cost) ∧
    ∀ T, IsSpanningTree g T → cost ≤ treeCost T := by
  obtain ⟨F, _, f2, f3, f4, f5, f6⟩ := hO
  constructor
  · refine ⟨F, ⟨f2, by rw [f3, hc], ?_⟩, f4.symm⟩
    intro u v hu hv
    have hu2 := f5 u (visited_all g source pq V MST cost hI hc u hu)
    have hv2 := f5 v (visited_all g source pq V MST cost hI hc v hv)
    exact (Relation.ReflTransGen.symmetric (tadj_symm F) hu2).trans hv2
  · intro T hT
    obtain ⟨T2, hT2, hsub, hle⟩ := f6 T hT
    have hcard : T2.card ≤ F.card := by
      have := hT2.card
      omega
    have heq : F = T2 := Finset.eq_of_subset_of_card_le hsub hcard
    rw [f4, heq]
    exact hle

/-! ## Prim's result is a spanning tree -/

/-- C22: for every graph built by `addEdge` calls (the lines `x y cost` of `es`, with
vertices in range and integer costs) on `Graph(n)`, `n ≥ 1`, that is connected, every source
in range and every `top` that returns an element of smallest `dist`, `Prim::run` returns,
for every iteration bound from some bound on, and the graph `MST` it leaves has `n` vertices
and `E() = 2 * (n - 1)`, which is its number of stored entries; every entry of `MST` is an
entry of the graph with the same cost, has its mirror entry and is not a loop, so the
entries are `n - 1` undirected edges stored twice; `MST` connects all vertices; and twice
`MSTCost` is the sum of the costs of the entries, that is, `MSTCost` is the sum of the costs
of the undirected edges. -/
theorem prim_spanning_tree (n : Nat) (es : List (Nat × Nat × Int)) (source : Nat)
    (top : List NodeInfo → NodeInfo) (hn : 1 ≤ n)
    (hes : ∀ e, e ∈ es → e.1 < n ∧ e.2.1 < n) (hsrc : source < n)
    (hconn : (Graph.fromFile n es).Connected) (htop : IsMinTop top) :
    ∃ fuel MST cost,
      (∀ k, primRun (Graph.fromFile n es) top source (fuel + k) = Outcome.done MST cost) ∧
      MST.numV = n ∧ MST.numE = 2 * (n - 1) ∧ MST.entries = MST.numE ∧
      (∀ x e, e ∈ MST.getEdges x → e ∈ (Graph.fromFile n es).getEdges x) ∧
      (∀ x y c, (⟨y, c⟩ : Edge) ∈ MST.getEdges x → (⟨x, c⟩ : Edge) ∈ MST.getEdges y) ∧
      (∀ x e, e ∈ MST.getEdges x → e.to_ ≠ x) ∧
      MST.Connected ∧
      2 * cost = MST.totalCost := by
  obtain ⟨hS, hnV⟩ := fromFile_sound n es hes
  have hsrc' : source < (Graph.fromFile n es).numV := by rw [hnV]; exact hsrc
  have inv0 := primInv_init (Graph.fromFile n es) source hsrc'
  obtain ⟨fuel, M, c, pq', V', h1, h2, h3⟩ :=
    primLoop_returns (Graph.fromFile n es) source top hS
      (fun u hu => hconn source u hsrc' hu) htop _ _ _ _ _ _ inv0 rfl rfl
  refine ⟨fuel, M, c, ?_, ?_, ?_, h2.cnt, fun x e he => (h2.sub x e he).2.2,
    h2.sound.symm, h2.noloop, ?_, h2.cost⟩
  · intro k
    unfold primRun
    exact primLoop_mono _ top fuel _ _ _ _ M c h1 k
  · rw [h2.numV, hnV]
  · have := h2.numE
    rw [h3, hnV] at this
    omega
  · apply connected_of_reach M h2.sound source
    intro v hv
    rw [h2.numV] at hv
    exact h2.reach v (visited_all _ source pq' V' M c h2 h3 v hv)

/-- Witness for C22: the triangle with costs 4 (0-1), 1 (1-2) and 3 (0-2), source 0 and
`firstMin` as `top`; its spanning tree has two edges. -/
theorem prim_spanning_tree_witness :
    ∃ fuel MST cost,
      (∀ k, primRun (Graph.fromFile 3 [(0, 1, 4), (1, 2, 1), (0, 2, 3)]) firstMin 0 (fuel + k)
        = Outcome.done MST cost) ∧
      MST.numV = 3 ∧ MST.numE = 2 * (3 - 1) ∧ MST.entries = MST.numE ∧
      (∀ x e, e ∈ MST.getEdges x →
        e ∈ (Graph.fromFile 3 [(0, 1, 4), (1, 2, 1), (0, 2, 3)]).getEdges x) ∧
      (∀ x y c, (⟨y, c⟩ : Edge) ∈ MST.getEdges x → (⟨x, c⟩ : Edge) ∈ MST.getEdges y) ∧
      (∀ x e, e ∈ MST.getEdges x → e.to_ ≠ x) ∧
      MST.Connected ∧
      2 * cost = MST.totalCost :=
  prim_spanning_tree 3 [(0, 1, 4), (1, 2, 1), (0, 2, 3)] 0 firstMin (by decide)
    (by decide) (by decide)
    (connected_of_reach _ (fromFile_sound 3 _ (by decide)).1 0 (by
      intro v hv
      have hv3 : v < 3 := hv
      interval_cases v
      · exact Relation.ReflTransGen.refl
      · exact Relation.ReflTransGen.single ⟨⟨1, 4⟩, by decide, rfl⟩
      · exact Relation.ReflTransGen.single ⟨⟨2, 3⟩, by decide, rfl⟩))
    firstMin_isMinTop

/-! ## Prim's result has minimum cost -/

/-- C23: for every graph built by `addEdge` calls (the lines `x y cost` of `es`, with
vertices in range and integer costs) on `Graph(n)` that is connected, every source in range
and every `top` that returns an element of smallest `dist`, `Prim::run` returns, for every
iteration bound from some bound on, and the `MSTCost` it leaves is the minimum of the total
edge cost over the spanning trees of the graph: some spanning tree has that cost and no
spanning tree has a smaller one.  A spanning tree is a set of `n - 1` undirected edges of
the graph, with their costs, that connects all `n` vertices. -/
theorem prim_minimum_cost (n : Nat) (es : List (Nat × Nat × Int)) (source : Nat)
    (top : List NodeInfo → NodeInfo)
    (hes : ∀ e, e ∈ es → e.1 < n ∧ e.2.1 < n) (hsrc : source < n)
    (hconn : (Graph.fromFile n es).Connected) (htop : IsMinTop top) :
    ∃ fuel MST cost,
      (∀ k, primRun (Graph.fromFile n es) top source (fuel + k) = Outcome.done MST cost) ∧
      (∃ T, IsSpanningTree (Graph.fromFile n es) T ∧ treeCost T = cost) ∧
      ∀ T, IsSpanningTree (Graph.fromFile n es) T → cost ≤ treeCost T := by
  obtain ⟨hS, hnV⟩ := fromFile_sound n es hes
  have hsrc2 : source < (Graph.fromFile n es).numV := by rw [hnV]; exact hsrc
  have inv0 := primInv_init (Graph.fromFile n es) source hsrc2
  obtain ⟨fuel, M, c, pq2, V2, h1, h2, h3, h4⟩ :=
    primLoop_returns_inv (Graph.fromFile n es) source top hS
      (fun u hu => hconn source u hsrc2 hu) htop (PrimOpt (Graph.fromFile n es) source)
      (primOpt_step (Graph.fromFile n es) source top hS htop) _ _ _ _ _ _ inv0
      (primOpt_init _ source) rfl rfl
  refine ⟨fuel, M, c, ?_, primOpt_final _ source pq2 V2 M c h2 h4 h3⟩
  intro k
  unfold primRun
  exact primLoop_mono _ top fuel _ _ _ _ M c h1 k

/-- Witness for C23: the triangle with costs 4 (0-1), 1 (1-2) and 3 (0-2), source 0 and
`firstMin` as `top`. -/
theorem prim_minimum_cost_witness :
    ∃ fuel MST cost,
      (∀ k, primRun (Graph.fromFile 3 [(0, 1, 4), (1, 2, 1), (0, 2, 3)]) firstMin 0 (fuel + k)
        = Outcome.done MST cost) ∧
      (∃ T, IsSpanningTree (Graph.fromFile 3 [(0, 1, 4), (1, 2, 1), (0, 2, 3)]) T ∧
        treeCost T = cost) ∧
      ∀ T, IsSpanningTree (Graph.fromFile 3 [(0, 1, 4), (1, 2, 1), (0, 2, 3)]) T →
        cost ≤ treeCost T :=
  prim_minimum_cost 3 [(0, 1, 4), (1, 2, 1), (0, 2, 3)] 0 firstMin (by decide) (by decide)
    (connected_of_reach _ (fromFile_sound 3 _ (by decide)).1 0 (by
      intro v hv
      have hv3 : v < 3 := hv
      interval_cases v
      · exact Relation.ReflTransGen.refl
      · exact Relation.ReflTransGen.single ⟨⟨1, 4⟩, by decide, rfl⟩
      · exact Relation.ReflTransGen.single ⟨⟨2, 3⟩, by decide, rfl⟩))
    firstMin_isMinTop

end PrimMST
